import Mathlib

/-
  Verification of the PQA beacon-selection and propagation core
  (beacon entity, beacon store, target index, propagation engine).

  The Go sources are shallowly embedded below:
  - go/cs/beacon/beacon.go            : Beacon, Diversity
  - go/pkg/storage/pqa/memory/db.go   : executor (beacon store over one table)
  - go/pkg/storage/pqa/memory/pqa.go  : PqaMemoryBackend (InsertBeacon, GetNBestsForGroup)
  - the mechanism file (getPropagationBatch, getNBest, getNBestFor,
    getNeighbouringASs, getIntfSubgroups, getIntfGroups)

  Machine integers are modelled as Nat (identifiers, bitmasks) and Int
  (unix timestamps); none of the embedded arithmetic can overflow 64 bits
  on the inputs considered, so no modular reduction is needed.
  SQL queries are modelled by their relational semantics over a list of rows.
  The calls into the Go standard library sort package (sort.Slice) are
  embedded as the actual stdlib algorithm of the Go version used by the
  repository (the pre-1.19 introsort), because claims about tie ordering
  depend on the algorithm, not only on its contract.
-/

/-- Model of addr.IA, an ISD-AS identifier pair. Go: type IA struct { I ISD; A AS }. -/
structure IA where
  I : Nat
  A : Nat
  deriving DecidableEq, Repr

/-- Go addr.IA.IsZero: both components zero. -/
def IA.IsZero (x : IA) : Bool :=
  decide (x.I = 0) && decide (x.A = 0)

/-- Model of the PQA beaconing extension carried by an AS entry.
Quality and Direction are opaque enumerations in the source; they are modelled
as Nat identifiers. Uniquifier is numeric in the source. -/
structure PqaExtension where
  Quality : Nat
  Direction : Nat
  Uniquifier : Nat
  deriving DecidableEq, Repr

/-- Model of the hop field of a hop entry; only ConsIngress is read by the
embedded code (beacon.go link). -/
structure HopField where
  ConsIngress : Nat
  deriving DecidableEq, Repr

/-- Model of a hop entry: carries the hop field. -/
structure HopEntry where
  HopField : HopField
  deriving DecidableEq, Repr

/-- Model of the extensions attached to an AS entry; only the PQA extension is
read by the embedded code. -/
structure Extensions where
  PqaExtension : Option PqaExtension
  deriving DecidableEq, Repr

/-- Model of seg.ASEntry: the local AS, the hop entry and the extensions. -/
structure ASEntry where
  Local : IA
  HopEntry : HopEntry
  Extensions : Extensions
  deriving DecidableEq, Repr

/-- Model of seg.Info; only the origination timestamp is read. Timestamps are
unix seconds modelled as Int. -/
structure SegInfo where
  Timestamp : Int
  deriving DecidableEq, Repr

/-- Model of seg.PathSegment. Modelled from the spec: ID() and FullID() are
deterministic content-derived identities (the segment identity of the spec) and
MaxExpiry() is the expiry time of the segment; their computations live outside
the given sources, so they are carried as fields of the segment value. -/
structure PathSegment where
  ASEntries : List ASEntry
  Info : SegInfo
  SegID : Nat
  FullID : Nat
  MaxExpiryTime : Int
  deriving DecidableEq, Repr

/-- Go seg.PathSegment.ID(). -/
def PathSegment.ID (s : PathSegment) : Nat := s.SegID

/-- Go seg.PathSegment.MaxExpiry(), as unix seconds. -/
def PathSegment.MaxExpiry (s : PathSegment) : Int := s.MaxExpiryTime

/-- Go seg.PathSegment.FirstIA(): the local IA of the first AS entry. -/
def PathSegment.FirstIA (s : PathSegment) : IA :=
  ((s.ASEntries.head?).map (fun e => e.Local)).getD ⟨0, 0⟩

/-- Model of cs/beacon Beacon: a path segment pointer (Option models nil) plus
the ingress interface id; the fork also carries the egress interface id
assigned during propagation (set in getPropagationBatch). -/
structure Beacon where
  Segment : Option PathSegment
  InIfId : Nat
  EgIfId : Nat := 0
  deriving DecidableEq, Repr

instance : Inhabited Beacon := ⟨⟨none, 0, 0⟩⟩

/-- Go beacon.go link(entry): the pair (entry.Local, entry.HopEntry.HopField.ConsIngress). -/
def link (entry : ASEntry) : IA × Nat :=
  (entry.Local, entry.HopEntry.HopField.ConsIngress)

/-- Embedding of Beacon.Diversity from beacon.go: returns 0 when either segment
is nil; otherwise counts, with the same two nested loops as the source, the
entries of this segment whose link occurs in no entry of the other segment. -/
def Beacon.Diversity (b other : Beacon) : Nat :=
  match b.Segment, other.Segment with
  | some bs, some os =>
    bs.ASEntries.foldl
      (fun diff asEntry =>
        if os.ASEntries.any (fun otherEntry =>
            decide ((link asEntry).1 = (link otherEntry).1) &&
            decide ((link asEntry).2 = (link otherEntry).2))
        then diff else diff + 1)
      0
  | _, _ => 0

/-- Model of beacon.InsertStats. -/
structure InsertStats where
  Inserted : Nat
  Updated : Nat
  deriving DecidableEq, Repr

/-- Model of one row of the Beacons table (db.go schema): SegID is the upsert
key, RowID the storage identity; the packed segment bytes are modelled by the
segment value itself (PackBeacon and UnpackBeacon are a lossless round trip). -/
structure BeaconRow where
  RowID : Nat
  SegID : Nat
  FullID : Nat
  StartIsd : Nat
  StartAs : Nat
  InIntfID : Nat
  HopsLength : Nat
  InfoTime : Int
  ExpirationTime : Int
  LastUpdated : Int
  Usage : Nat
  Beacon : PathSegment
  deriving DecidableEq, Repr

/-- Model of the storage state behind the executor of db.go: the rows of the
Beacons table plus the next RowID the engine will assign (sqlite rowid
autoincrement). -/
structure BeaconsTable where
  rows : List BeaconRow
  nextRowID : Nat
  deriving DecidableEq, Repr

/-- Model of beaconMeta of db.go. -/
structure beaconMeta where
  RowID : Nat
  InfoTime : Int
  LastUpdated : Int
  deriving DecidableEq, Repr

/-- Embedding of executor.getBeaconMeta: point lookup of the row whose SegID
matches; none models sql.ErrNoRows. -/
def getBeaconMeta (t : BeaconsTable) (segID : Nat) : Option beaconMeta :=
  (t.rows.find? (fun r => decide (r.SegID = segID))).map
    (fun r => ⟨r.RowID, r.InfoTime, r.LastUpdated⟩)

/-- Embedding of executor.updateExistingBeacon: the UPDATE statement sets
FullID, InIntfID, HopsLength, InfoTime, ExpirationTime, LastUpdated, Usage and
the packed segment of the row with the given RowID; none models the nil
segment dereference. -/
def updateExistingBeacon (t : BeaconsTable) (b : Beacon) (usage : Nat)
    (rowID : Nat) (now : Int) : Option BeaconsTable :=
  b.Segment.map (fun s =>
    { t with rows := t.rows.map (fun r =>
        if decide (r.RowID = rowID) then
          { r with
            FullID := s.FullID
            InIntfID := b.InIfId
            HopsLength := s.ASEntries.length
            InfoTime := s.Info.Timestamp
            ExpirationTime := s.MaxExpiry
            LastUpdated := now
            Usage := usage
            Beacon := s }
        else r) })

/-- Embedding of insertNewBeacon of db.go: the INSERT statement appends a fresh
row; none models the nil segment dereference. -/
def insertNewBeacon (t : BeaconsTable) (b : Beacon) (usage : Nat)
    (now : Int) : Option BeaconsTable :=
  b.Segment.map (fun s =>
    { rows := t.rows ++ [{
        RowID := t.nextRowID
        SegID := s.ID
        FullID := s.FullID
        StartIsd := s.FirstIA.I
        StartAs := s.FirstIA.A
        InIntfID := b.InIfId
        HopsLength := s.ASEntries.length
        InfoTime := s.Info.Timestamp
        ExpirationTime := s.MaxExpiry
        LastUpdated := now
        Usage := usage
        Beacon := s }]
      nextRowID := t.nextRowID + 1 })

/-- Embedding of executor.InsertBeacon of db.go: looks up the record by segment
identity; if found and the incoming origination timestamp is strictly newer it
updates in place and reports Updated=1; if found and not newer it is a no-op;
if absent it inserts a new row and reports Inserted=1. The Option models the
nil segment dereference of b.Segment.ID(); now is the wall clock time. -/
def executor.InsertBeacon (t : BeaconsTable) (b : Beacon) (usage : Nat)
    (now : Int) : Option (InsertStats × BeaconsTable) :=
  match b.Segment with
  | none => none
  | some s =>
    let segID := s.ID
    match getBeaconMeta t segID with
    | some meta =>
      if s.Info.Timestamp > meta.InfoTime then
        match updateExistingBeacon t b usage meta.RowID now with
        | some t2 => some ({ Inserted := 0, Updated := 1 }, t2)
        | none => none
      else
        some ({ Inserted := 0, Updated := 0 }, t)
    | none =>
      match insertNewBeacon t b usage now with
      | some t2 => some ({ Inserted := 1, Updated := 0 }, t2)
      | none => none

/-- Stable insertion of an element into a list ordered ascending by a Nat key;
an incoming element is placed after every element whose key is not larger. -/
def orderInsertAsc (key : α → Nat) (x : α) : List α → List α
  | [] => [x]
  | y :: ys => if key x < key y then x :: y :: ys else y :: orderInsertAsc key x ys

/-- Relational model of the sqlite ORDER BY ... ASC clause over a Nat key: a
stable ascending sort (rows tied on the key keep table order; sqlite leaves
tie order unspecified, and the claims under study do not depend on it). -/
def orderByAsc (key : α → Nat) (l : List α) : List α :=
  l.foldl (fun acc x => orderInsertAsc key x acc) []

/-- Embedding of executor.CandidateBeacons of db.go, as the relational
semantics of its query: keep the rows whose usage bitmask contains the wanted
mask and, when src is non-zero, whose start ISD-AS equals src; order by
HopsLength ascending; limit to setSize; return the unpacked beacons. The query
passes the current time as a third argument, but the SQL text contains no
placeholder ?3 and no expiration condition, so the parameter now is unused
here, exactly as in the source. -/
def executor.CandidateBeacons (t : BeaconsTable) (setSize : Nat) (usage : Nat)
    (src : IA) (now : Int) : List Beacon :=
  let matching := t.rows.filter (fun r =>
    decide (r.Usage &&& usage = usage) &&
    (if src.IsZero then true
     else decide (r.StartIsd = src.I) && decide (r.StartAs = src.A)))
  let ordered := orderByAsc (fun r => r.HopsLength) matching
  (ordered.take setSize).map (fun r => { Segment := some r.Beacon, InIfId := r.InIntfID })

/-
  Embedding of the Go standard library sort used by the repository.
  Both GetNBestsForGroup (pqa.go) and getNBest (the mechanism file) call
  sort.Slice, which for the Go versions this repository builds with
  (pre 1.19) runs the classic introsort of sort.go: quickSort with
  median-of-three pivoting, a depth bound switching to heapSort, and a
  shellsort gap-6 pass followed by insertionSort for ranges of at most 12
  elements. sort.Slice is documented as NOT stable. The embedding below is
  a line-by-line translation of those stdlib functions. The Go slice is
  modelled as a list indexed positionally through nth and setN; the source
  closures compare the slice elements at the two indices, so an element
  comparator lt is equivalent. Loops are expressed as fuelled structural
  recursions; every fuel value supplied at a call site strictly exceeds the
  number of iterations the Go loop performs, so the fuel-exhaustion
  branches are never taken.
-/

/-- Positional read of a slice cell; Go indexing is always in range at the
call sites below, so the default is never produced there. -/
def nth [Inhabited α] : List α → Nat → α
  | [], _ => default
  | x :: _, 0 => x
  | _ :: xs, n + 1 => nth xs n

/-- Positional write of a slice cell; out of range writes are the identity. -/
def setN : List α → Nat → α → List α
  | [], _, _ => []
  | _ :: xs, 0, y => y :: xs
  | x :: xs, n + 1, y => x :: setN xs n y

/-- Swap of two slice cells, as data.Swap(i, j) of sort.go. An out of range
index panics in Go and is unreachable at the call sites below; the guard keeps
the embedding total without changing reachable behavior. -/
def swapGo [Inhabited α] (arr : List α) (i j : Nat) : List α :=
  if i < arr.length ∧ j < arr.length then
    setN (setN arr i (nth arr j)) j (nth arr i)
  else arr

/-- Inner loop of Go insertionSort: while j greater than a and the element at j
is less than the element at j-1, swap them and decrement j. -/
def insertionSortInner [Inhabited α] (lt : α → α → Bool) (a : Nat) :
    List α → Nat → List α
  | arr, 0 => arr
  | arr, j + 1 =>
    if a < j + 1 && lt (nth arr (j + 1)) (nth arr j) then
      insertionSortInner lt a (swapGo arr (j + 1) j) j
    else arr

/-- Outer loop of Go insertionSort: for i from a+1 while i less than b. -/
def insertionSortOuter [Inhabited α] (lt : α → α → Bool) (a b : Nat) :
    List α → Nat → Nat → List α
  | arr, _, 0 => arr
  | arr, i, fuel + 1 =>
    if i < b then
      insertionSortOuter lt a b (insertionSortInner lt a arr i) (i + 1) fuel
    else arr

/-- Embedding of Go sort.go insertionSort(data, a, b). -/
def insertionSortGo [Inhabited α] (lt : α → α → Bool) (arr : List α)
    (a b : Nat) : List α :=
  insertionSortOuter lt a b arr (a + 1) (b - a)

/-- Embedding of the loop of Go sort.go siftDown(data, lo, hi, first), the
max-heap restoration walk from the given root. -/
def siftDownLoop [Inhabited α] (lt : α → α → Bool) (hi first : Nat) :
    List α → Nat → Nat → List α
  | arr, _, 0 => arr
  | arr, root, fuel + 1 =>
    let child := 2 * root + 1
    if child ≥ hi then arr
    else
      let child :=
        if child + 1 < hi && lt (nth arr (first + child)) (nth arr (first + child + 1))
        then child + 1 else child
      if !(lt (nth arr (first + root)) (nth arr (first + child))) then arr
      else siftDownLoop lt hi first (swapGo arr (first + root) (first + child)) child fuel

/-- Embedding of Go sort.go siftDown(data, lo, hi, first). -/
def siftDownGo [Inhabited α] (lt : α → α → Bool) (arr : List α)
    (lo hi first : Nat) : List α :=
  siftDownLoop lt hi first arr lo (hi + 1)

/-- Heap construction loop of Go heapSort: for i from (hi-1)/2 down to 0,
sift down from i; the counter c+1 runs the body at i = c. -/
def heapSortBuild [Inhabited α] (lt : α → α → Bool) (hi first : Nat) :
    List α → Nat → List α
  | arr, 0 => arr
  | arr, c + 1 => heapSortBuild lt hi first (siftDownGo lt arr c hi first) c

/-- Extraction loop of Go heapSort: for i from hi-1 down to 0, swap the root
with the element at i and sift down over the shrunken heap. -/
def heapSortExtract [Inhabited α] (lt : α → α → Bool) (first : Nat) :
    List α → Nat → List α
  | arr, 0 => arr
  | arr, c + 1 =>
    heapSortExtract lt first (siftDownGo lt (swapGo arr first (first + c)) 0 c first) c

/-- Embedding of Go sort.go heapSort(data, a, b). The Go build loop starts at
(hi-1)/2 with int division truncating toward zero, which for hi = 0 is also 0,
matching Nat subtraction. -/
def heapSortGo [Inhabited α] (lt : α → α → Bool) (arr : List α)
    (a b : Nat) : List α :=
  let first := a
  let hi := b - a
  let arr := heapSortBuild lt hi first arr ((hi - 1) / 2 + 1)
  heapSortExtract lt first arr hi

/-- Embedding of Go sort.go medianOfThree(data, m1, m0, m2): after it, the
element at m0 is not greater than the one at m1, which is not greater than the
one at m2. -/
def medianOfThreeGo [Inhabited α] (lt : α → α → Bool) (arr : List α)
    (m1 m0 m2 : Nat) : List α :=
  let arr := if lt (nth arr m1) (nth arr m0) then swapGo arr m1 m0 else arr
  if lt (nth arr m2) (nth arr m1) then
    let arr := swapGo arr m2 m1
    if lt (nth arr m1) (nth arr m0) then swapGo arr m1 m0 else arr
  else arr

/-- First scan of Go doPivot: advance a while a is less than c and the element
at a is less than the pivot element. The slice is not modified. -/
def doPivotScanA [Inhabited α] (lt : α → α → Bool) (arr : List α)
    (pivot c : Nat) : Nat → Nat → Nat
  | a, 0 => a
  | a, fuel + 1 =>
    if a < c && lt (nth arr a) (nth arr pivot) then
      doPivotScanA lt arr pivot c (a + 1) fuel
    else a

/-- Forward scan inside the partition loop of Go doPivot: advance b while b is
less than c and the element at b is not greater than the pivot element. -/
def doPivotScanB [Inhabited α] (lt : α → α → Bool) (arr : List α)
    (pivot c : Nat) : Nat → Nat → Nat
  | b, 0 => b
  | b, fuel + 1 =>
    if b < c && !(lt (nth arr pivot) (nth arr b)) then
      doPivotScanB lt arr pivot c (b + 1) fuel
    else b

/-- Backward scan inside the partition loop of Go doPivot: decrease c while b
is less than c and the element at c-1 is greater than the pivot element. -/
def doPivotScanC [Inhabited α] (lt : α → α → Bool) (arr : List α)
    (pivot b : Nat) : Nat → Nat → Nat
  | c, 0 => c
  | c, fuel + 1 =>
    if b < c && lt (nth arr pivot) (nth arr (c - 1)) then
      doPivotScanC lt arr pivot b (c - 1) fuel
    else c

/-- Main partition loop of Go doPivot: scan b forward, scan c backward, stop
when they meet, otherwise swap the out-of-place pair and continue. -/
def doPivotMiddle [Inhabited α] (lt : α → α → Bool) (pivot : Nat) :
    List α → Nat → Nat → Nat → List α × Nat × Nat
  | arr, b, c, 0 => (arr, b, c)
  | arr, b, c, fuel + 1 =>
    let b := doPivotScanB lt arr pivot c b (c - b + 1)
    let c := doPivotScanC lt arr pivot b c (c - b + 1)
    if b ≥ c then (arr, b, c)
    else doPivotMiddle lt pivot (swapGo arr b (c - 1)) (b + 1) (c - 1) fuel

/-- Backward scan of the duplicate-protection loop of Go doPivot: decrease b
while a is less than b and the element at b-1 is not less than the pivot. -/
def doPivotProtectScanB [Inhabited α] (lt : α → α → Bool) (arr : List α)
    (pivot a : Nat) : Nat → Nat → Nat
  | b, 0 => b
  | b, fuel + 1 =>
    if a < b && !(lt (nth arr (b - 1)) (nth arr pivot)) then
      doPivotProtectScanB lt arr pivot a (b - 1) fuel
    else b

/-- Forward scan of the duplicate-protection loop of Go doPivot: advance a
while a is less than b and the element at a is less than the pivot. -/
def doPivotProtectScanA [Inhabited α] (lt : α → α → Bool) (arr : List α)
    (pivot b : Nat) : Nat → Nat → Nat
  | a, 0 => a
  | a, fuel + 1 =>
    if a < b && lt (nth arr a) (nth arr pivot) then
      doPivotProtectScanA lt arr pivot b (a + 1) fuel
    else a

/-- Duplicate-protection loop of Go doPivot, entered when many elements equal
the pivot: gathers the pivot-equal run just below b. Returns the slice and b. -/
def doPivotProtect [Inhabited α] (lt : α → α → Bool) (pivot : Nat) :
    List α → Nat → Nat → Nat → List α × Nat
  | arr, _, b, 0 => (arr, b)
  | arr, a, b, fuel + 1 =>
    let b := doPivotProtectScanB lt arr pivot a b (b - a + 1)
    let a := doPivotProtectScanA lt arr pivot b a (b - a + 1)
    if a ≥ b then (arr, b)
    else doPivotProtect lt pivot (swapGo arr a (b - 1)) (a + 1) (b - 1) fuel

/-- Pivot choice block of Go doPivot: the Tukey ninther preconditioning for
ranges longer than 40 followed by medianOfThree(data, lo, m, hi-1). -/
def doPivotChoose [Inhabited α] (lt : α → α → Bool) (arr : List α)
    (lo hi m : Nat) : List α :=
  let arr :=
    if hi - lo > 40 then
      let s := (hi - lo) / 8
      let arr := medianOfThreeGo lt arr lo (lo + s) (lo + 2 * s)
      let arr := medianOfThreeGo lt arr m (m - s) (m + s)
      medianOfThreeGo lt arr (hi - 1) (hi - 1 - s) (hi - 1 - 2 * s)
    else arr
  medianOfThreeGo lt arr lo m (hi - 1)

/-- Duplicate-detection block of Go doPivot: decides whether to enter the
protection loop, moving up to two pivot-equal cells while testing; returns the
slice, b, c and the protect flag. -/
def doPivotDups [Inhabited α] (lt : α → α → Bool) (arr : List α)
    (m pivot lo hi b c : Nat) : List α × Nat × Nat × Bool :=
  if hi - c < 5 then (arr, b, c, true)
  else if hi - c < (hi - lo) / 4 then
    let s1 :=
      if !(lt (nth arr pivot) (nth arr (hi - 1))) then
        (swapGo arr c (hi - 1), c + 1, 1)
      else (arr, c, 0)
    let arr := s1.1
    let c := s1.2.1
    let dups := s1.2.2
    let s2 :=
      if !(lt (nth arr (b - 1)) (nth arr pivot)) then (b - 1, dups + 1)
      else (b, dups)
    let b := s2.1
    let dups := s2.2
    let s3 :=
      if !(lt (nth arr m) (nth arr pivot)) then
        (swapGo arr m (b - 1), b - 1, dups + 1)
      else (arr, b, dups)
    let arr := s3.1
    let b := s3.2.1
    let dups := s3.2.2
    (arr, b, c, decide (dups > 1))
  else (arr, b, c, false)

/-- Embedding of Go sort.go doPivot(data, lo, hi), returning the slice and the
pair (midlo, midhi): a line-by-line translation, with the statement blocks of
the source split into the named stage functions above. -/
def doPivotGo [Inhabited α] (lt : α → α → Bool) (arr : List α)
    (lo hi : Nat) : List α × Nat × Nat :=
  let m := (lo + hi) >>> 1
  let arr := doPivotChoose lt arr lo hi m
  let pivot := lo
  let a := doPivotScanA lt arr pivot (hi - 1) (lo + 1) (hi - lo + 1)
  let step := doPivotMiddle lt pivot arr a (hi - 1) (hi - lo + 1)
  let ds := doPivotDups lt step.1 m pivot lo hi step.2.1 step.2.2
  let ps := if ds.2.2.2 then doPivotProtect lt pivot ds.1 a ds.2.1 (ds.2.1 - a + 1)
            else (ds.1, ds.2.1)
  (swapGo ps.1 pivot (ps.2 - 1), ps.2 - 1, ds.2.2.1)

/-- Shellsort pass with gap 6 run by Go quickSort on short ranges before the
final insertion sort. -/
def shellPassLoop [Inhabited α] (lt : α → α → Bool) (b : Nat) :
    List α → Nat → Nat → List α
  | arr, _, 0 => arr
  | arr, i, fuel + 1 =>
    if i < b then
      shellPassLoop lt b
        (if lt (nth arr i) (nth arr (i - 6)) then swapGo arr i (i - 6) else arr)
        (i + 1) fuel
    else arr

/-- Embedding of Go sort.go quickSort(data, a, b, maxDepth). The while loop
that keeps narrowing the range is expressed as recursion; continuing the loop
after doPivot is the recursive call on the wider side with the already
decremented depth, exactly as the source updates its local variables. The fuel
strictly exceeds the recursion depth, which Go bounds by maxDepth. -/
def quickSortLoop [Inhabited α] (lt : α → α → Bool) :
    List α → Nat → Nat → Nat → Nat → List α
  | arr, _, _, _, 0 => arr
  | arr, a, b, maxDepth, fuel + 1 =>
    if b - a > 12 then
      if maxDepth = 0 then heapSortGo lt arr a b
      else
        let step := doPivotGo lt arr a b
        let arr := step.1
        let mlo := step.2.1
        let mhi := step.2.2
        if mlo - a < b - mhi then
          let arr := quickSortLoop lt arr a mlo (maxDepth - 1) fuel
          quickSortLoop lt arr mhi b (maxDepth - 1) fuel
        else
          let arr := quickSortLoop lt arr mhi b (maxDepth - 1) fuel
          quickSortLoop lt arr a mlo (maxDepth - 1) fuel
    else
      if b - a > 1 then
        let arr := shellPassLoop lt b arr (a + 6) (b - a)
        insertionSortGo lt arr a b
      else arr

/-- Halving loop of Go sort.go maxDepth. -/
def maxDepthLoop : Nat → Nat → Nat
  | 0, _ => 0
  | fuel + 1, i => if i > 0 then maxDepthLoop fuel (i >>> 1) + 1 else 0

/-- Embedding of Go sort.go maxDepth(n) = 2 * ceil(lg(n+1)). -/
def goMaxDepth (n : Nat) : Nat :=
  2 * maxDepthLoop n n

/-- Embedding of Go sort.Slice(x, less) on a list: run the stdlib quickSort
over the whole range with the stdlib depth bound. -/
def sortSliceGo [Inhabited α] (lt : α → α → Bool) (l : List α) : List α :=
  quickSortLoop lt l 0 l.length (goMaxDepth l.length) (goMaxDepth l.length + 1)

/-- Model of pqa.Target: Quality and Direction are opaque enumerations of the
source modelled as Nat identifiers; IA is the origin of the target beacons. -/
structure Target where
  Quality : Nat
  Direction : Nat
  Uniquifier : Nat
  IA : IA
  deriving DecidableEq, Repr

/-- Model of ifstate.Interface, reduced to the two TopoInfo fields the
embedded code reads: the numeric interface id and the remote ISD-AS. -/
structure Interface where
  ID : Nat
  IA : IA
  deriving DecidableEq, Repr

/-- Modelled from the spec: beacon.FilterLoop(bcn, next, allowIsdLoop), whose
body is outside the given sources. Per the spec, loop avoidance rejects any
beacon whose segment already traverses the AS it would next be sent to; an
error signals a loop. The call sites pass allowIsdLoop = true, so ISD-level
loop checking is disabled and is not modelled. -/
def FilterLoop (bcn : Beacon) (next : IA) (allowIsdLoop : Bool) : Except Unit Unit :=
  match bcn.Segment with
  | none => .ok ()
  | some s =>
    if s.ASEntries.any (fun asEntry => decide (asEntry.Local = next)) then .error ()
    else .ok ()

/-- Modelled from the spec: targetstore AssociateBeacon (the target package is
outside the given sources). Associations accumulate across calls and
re-associating the same pair is idempotent. -/
def AssociateBeacon (assocs : List (Nat × Target)) (beaconID : Nat)
    (target : Target) : List (Nat × Target) :=
  if assocs.any (fun p => decide (p = (beaconID, target))) then assocs
  else assocs ++ [(beaconID, target)]

/-- Modelled from the spec: targetstore GetBeaconIdsForTarget (outside the
given sources): the storage identities associated with an exact match on the
whole target, empty and not an error when none exist. -/
def GetBeaconIdsForTarget (assocs : List (Nat × Target)) (target : Target) : List Nat :=
  (assocs.filter (fun p => decide (p.2 = target))).map (fun p => p.1)

/-- Model of the PqaMemoryBackend collaborators used by candidate selection:
the target index state, the store fetch by row ids, and the per-target policy
functions the source dispatches through target.GetMetric, target.ShouldConsider
and target.Quality.Less (the metric type M is abstract, float64 in the
source). The fetch is modelled from the spec as a function that may fail with
a read error: its body (GetBeaconsById) is outside the given sources. -/
structure Backend (M : Type) where
  assocs : List (Nat × Target)
  getBeaconsById : List Nat → Except Unit (List Beacon)
  GetMetric : Target → Beacon → M
  ShouldConsider : Target → Beacon → Bool
  QualityLess : Nat → M → M → Bool

/-- Embedding of the applyFilter helper defined inside GetNBestsForGroup of
pqa.go: keep, in order, the beacons satisfying the predicate. -/
def applyFilter (bcns : List Beacon) (filter : Beacon → Bool) : List Beacon :=
  bcns.foldl (fun acc bcn => if filter bcn then acc ++ [bcn] else acc) []

/-- Embedding of PqaMemoryBackend.GetNBestsForGroup of pqa.go: look up the
candidate row ids for the target (empty means an empty result, not an error);
fetch the beacons, logging and continuing with the nil slice on a read error
(the fail-hard return is commented out in the source); filter by ingress
interface membership, loop avoidance toward excludeLooping, and
target.ShouldConsider; sort with sort.Slice by the quality metric; truncate to
the global cap N of the pqa extension package, which the spec models as
injected configuration. The src parameter is unused, as in the source. -/
def GetNBestsForGroup (bk : Backend M) (N : Nat) (src : IA) (target : Target)
    (ingressIntfs : List Interface) (excludeLooping : IA) :
    Except Unit (List Beacon) :=
  let bcnIds := GetBeaconIdsForTarget bk.assocs target
  if bcnIds.length = 0 then .ok []
  else
    let bcnCandidates :=
      match bk.getBeaconsById bcnIds with
      | .ok bcns => bcns
      | .error _ => []
    let bcnCandidates := applyFilter bcnCandidates (fun bcn =>
      ingressIntfs.any (fun ingressIntf => decide (ingressIntf.ID = bcn.InIfId)))
    let bcnCandidates := applyFilter bcnCandidates (fun bcn =>
      match FilterLoop bcn excludeLooping true with
      | .error _ => false
      | .ok _ => true)
    let bcnCandidates := applyFilter bcnCandidates (fun bcn =>
      bk.ShouldConsider target bcn)
    let bcnCandidates := sortSliceGo
      (fun l r => bk.QualityLess target.Quality (bk.GetMetric target l) (bk.GetMetric target r))
      bcnCandidates
    .ok (if bcnCandidates.length > N then bcnCandidates.take N else bcnCandidates)

/-- Model of the Mechanism of the mechanism file: the backend plus the
external collaborators it calls. Extend is the external extension primitive
(it consumes a segment with the ingress and egress ids and yields the extended
segment or an error); AllInterfaces enumerates the known interfaces;
GetInterfaceGroups is the topology partition by quality and direction. -/
structure Mechanism (M : Type) where
  backend : Backend M
  Extend : Option PathSegment → Nat → Nat → Except Unit (Option PathSegment)
  AllInterfaces : List Interface
  GetInterfaceGroups : Nat → Nat → List (List Interface)

/-- Embedding of Mechanism.getIntfGroups: the interface groups for the quality
and direction of the target. -/
def getIntfGroups (m : Mechanism M) (target : Target) : List (List Interface) :=
  m.GetInterfaceGroups target.Quality target.Direction

/-- Embedding of Mechanism.getNBest of the mechanism file: sort the batch with
sort.Slice by the quality metric of the target and truncate to the global cap
N of the pqa extension package. -/
def getNBest (bk : Backend M) (N : Nat) (target : Target)
    (bcn : List Beacon) : List Beacon :=
  let bcn := sortSliceGo
    (fun l r => bk.QualityLess target.Quality (bk.GetMetric target l) (bk.GetMetric target r))
    bcn
  if bcn.length > N then bcn.take N else bcn

/-- Embedding of Mechanism.getNBestFor of the mechanism file: on an error from
GetNBestsForGroup the error is logged and nil is returned. -/
def getNBestFor (bk : Backend M) (N : Nat) (src : IA) (target : Target)
    (egIntfG : List Interface) (neigh : IA) : List Beacon :=
  match GetNBestsForGroup bk N src target egIntfG neigh with
  | .error _ => []
  | .ok bcns => bcns

/-- Model of the wrapped error built by getPropagationBatch on an extension
failure: serrors.WrapStr("extending beacons", err, "ingress", ..., "egress",
..., "seg", ...), carrying the ingress id, the egress id and the segment. -/
structure PropagationError where
  ingress : Nat
  egress : Nat
  seg : Option PathSegment
  deriving DecidableEq, Repr

/-- Innermost loop of Mechanism.getPropagationBatch: for each candidate beacon
of the ingress group, assign the egress id (a zero egress id is only logged),
call the extension primitive, abort with the wrapped error on failure, and
keep the extended beacon when target.ShouldConsider accepts it. -/
def getPropagationBatchInner (m : Mechanism M) (target : Target) (egress : Nat) :
    List Beacon → List Beacon → Except PropagationError (List Beacon)
  | [], batch => .ok batch
  | bcn :: rest, batch =>
    let ingress := bcn.InIfId
    let bcn := { bcn with EgIfId := egress }
    match m.Extend bcn.Segment ingress egress with
    | .error _ => .error { ingress := ingress, egress := egress, seg := bcn.Segment }
    | .ok seg2 =>
      let bcn := { bcn with Segment := seg2 }
      if m.backend.ShouldConsider target bcn then
        getPropagationBatchInner m target egress rest (batch ++ [bcn])
      else
        getPropagationBatchInner m target egress rest batch

/-- Middle loop of Mechanism.getPropagationBatch: for each egress interface of
the egress group, run the inner loop over the n-best candidates of the current
ingress group (the source re-fetches them for every egress interface). -/
def getPropagationBatchMid (m : Mechanism M) (N : Nat) (target : Target)
    (igIntfG : List Interface) (neigh src : IA) :
    List Interface → List Beacon → Except PropagationError (List Beacon)
  | [], batch => .ok batch
  | egIntf :: rest, batch =>
    match getPropagationBatchInner m target egIntf.ID
        (getNBestFor m.backend N src target igIntfG neigh) batch with
    | .error e => .error e
    | .ok batch2 => getPropagationBatchMid m N target igIntfG neigh src rest batch2

/-- Outer loop of Mechanism.getPropagationBatch: for each ingress interface
group of the target. -/
def getPropagationBatchOuter (m : Mechanism M) (N : Nat) (target : Target)
    (egIntfG : List Interface) (neigh src : IA) :
    List (List Interface) → List Beacon → Except PropagationError (List Beacon)
  | [], batch => .ok batch
  | igIntfG :: rest, batch =>
    match getPropagationBatchMid m N target igIntfG neigh src egIntfG batch with
    | .error e => .error e
    | .ok batch2 => getPropagationBatchOuter m N target egIntfG neigh src rest batch2

/-- Embedding of Mechanism.getPropagationBatch of the mechanism file: run the
three nested loops starting from the empty batch, then re-rank and truncate
the accumulated batch with getNBest. -/
def getPropagationBatch (m : Mechanism M) (N : Nat) (target : Target)
    (egIntfG : List Interface) (neigh src : IA) :
    Except PropagationError (List Beacon) :=
  match getPropagationBatchOuter m N target egIntfG neigh src (getIntfGroups m target) [] with
  | .error e => .error e
  | .ok batch => .ok (getNBest m.backend N target batch)

/-- Embedding of Mechanism.getNeighbouringASs of the mechanism file: collect
the set of remote ISD-AS identifiers of all interfaces (the Go map is modelled
as an insertion-ordered list without duplicates; map iteration order is
unspecified in Go and irrelevant to set contents), then build the result list
with make of the set size followed by append, as the source does. -/
def getNeighbouringASs (m : Mechanism M) : List IA :=
  let set := m.AllInterfaces.foldl
    (fun s intf => if s.any (fun x => decide (x = intf.IA)) then s else s ++ [intf.IA])
    []
  let res := List.replicate set.length (IA.mk 0 0)
  res ++ set

/-- Embedding of Mechanism.getIntfSubgroups of the mechanism file: restrict
each interface group of the target to the interfaces whose remote ISD-AS is
the given destination (named to in the source). -/
def getIntfSubgroups (m : Mechanism M) (target : Target) (toIA : IA) :
    List (List Interface) :=
  (getIntfGroups m target).map (fun intfG =>
    intfG.filter (fun intf => decide (intf.IA = toIA)))

/-- Model of the PqaMemoryBackend state: the beacon store table and the target
index associations. -/
structure PqaState where
  Beacons : BeaconsTable
  Targets : List (Nat × Target)
  deriving DecidableEq, Repr

/-- Embedding of executor.getBeaconID of db.go: recompute the segment identity
and look up the row id; a missing row is the beacon-not-found error. The outer
Option models the nil segment dereference. -/
def getBeaconID (t : BeaconsTable) (bcn : Beacon) : Option (Except Unit Nat) :=
  bcn.Segment.map (fun s =>
    match getBeaconMeta t s.ID with
    | none => .error ()
    | some meta => .ok meta.RowID)

/-- Embedding of PqaMemoryBackend.InsertBeacon of pqa.go: store the beacon in
the base beacon storage, then unconditionally read ASEntries[0] of the segment
(the outer Option models the index-out-of-range panic on an empty entry list
and the nil segment dereference inside the base insert); without a pqa
extension on that first entry, return the stats; otherwise build the target
from the extension, look up the row id of the just stored beacon, and
associate it with the target. The last component records a returned error
(the source returns the stats together with the error of getBeaconID). -/
def PqaMemoryBackend.InsertBeacon (st : PqaState) (bcn : Beacon) (usage : Nat)
    (now : Int) : Option (InsertStats × PqaState × Option Unit) :=
  match executor.InsertBeacon st.Beacons bcn usage now with
  | none => none
  | some (stats, bt) =>
    match bcn.Segment with
    | none => none
    | some s =>
      match s.ASEntries.head? with
      | none => none
      | some entry0 =>
        match entry0.Extensions.PqaExtension with
        | none => some (stats, { st with Beacons := bt }, none)
        | some ext =>
          let target : Target :=
            { Quality := ext.Quality
              Direction := ext.Direction
              Uniquifier := ext.Uniquifier
              IA := s.FirstIA }
          match getBeaconID bt bcn with
          | none => none
          | some (.error _) => some (stats, { st with Beacons := bt }, some ())
          | some (.ok beaconID) =>
            some (stats,
              { Beacons := bt, Targets := AssociateBeacon st.Targets beaconID target },
              none)

/-- Decidable equality for Except, used by the evaluation theorems. -/
instance {e : Type} {a : Type} [DecidableEq e] [DecidableEq a] :
    DecidableEq (Except e a) := fun x y =>
  match x, y with
  | .error u, .error v => decidable_of_iff (u = v) (by simp)
  | .ok u, .ok v => decidable_of_iff (u = v) (by simp)
  | .error _, .ok _ => isFalse (by simp)
  | .ok _, .error _ => isFalse (by simp)

/-
  Concrete example values used by the evaluation theorems below.
-/

/-- Example path segment with no entries and fixed identities. -/
def exSegPlain : PathSegment :=
  { ASEntries := [], Info := ⟨50⟩, SegID := 10, FullID := 11, MaxExpiryTime := 0 }

/-- Beacon with no segment and a given ingress id, used to follow tie order
through the sort (the metric of the C1 backend is a function of InIfId). -/
def mkB (i : Nat) : Beacon := { Segment := none, InIfId := i, EgIfId := 0 }

/-- Target used by the concrete evaluations. -/
def exTarget : Target := { Quality := 0, Direction := 0, Uniquifier := 0, IA := ⟨1, 1⟩ }

/-- Backend whose quality metric maps the beacons mkB 0 .. mkB 6 to the
metrics 2, 2, 0, 0, 0, 0, 1 and whose Less is the numeric strict order, so
that a lower metric is better; every beacon is eligible. -/
def bkC1 : Backend Nat :=
  { assocs := [(0, exTarget)]
    getBeaconsById := fun _ => .ok [mkB 0, mkB 1, mkB 2, mkB 3, mkB 4, mkB 5, mkB 6]
    GetMetric := fun _ b => [2, 2, 0, 0, 0, 0, 1].getD b.InIfId 0
    ShouldConsider := fun _ _ => true
    QualityLess := fun _ a b => decide (a < b) }

/-- Ingress interface list covering the ingress ids of the C1 beacons. -/
def intfsC1 : List Interface :=
  [⟨0, ⟨2, 2⟩⟩, ⟨1, ⟨2, 2⟩⟩, ⟨2, ⟨2, 2⟩⟩, ⟨3, ⟨2, 2⟩⟩, ⟨4, ⟨2, 2⟩⟩, ⟨5, ⟨2, 2⟩⟩, ⟨6, ⟨2, 2⟩⟩]

set_option maxHeartbeats 2000000 in
/-- C1: the claim states that the sorts of GetNBestsForGroup and getNBest are
stable, tied beacons keeping their original order for every input. The code
calls sort.Slice, whose algorithm is not stable: on the seven beacons with
metrics 2, 2, 0, 0, 0, 0, 1 (retrieval order mkB 0 .. mkB 6, cap 7 so nothing
is truncated), the gap-6 shellsort pass swaps the elements at indices 6 and 0
before the insertion sort, and both functions return the two tied beacons of
metric 2 in the order mkB 1, mkB 0 — the reverse of their retrieval order.
The stable result would end with mkB 0, mkB 1. -/
theorem C1_sortSlice_not_stable :
    getNBest bkC1 7 exTarget [mkB 0, mkB 1, mkB 2, mkB 3, mkB 4, mkB 5, mkB 6] =
      [mkB 2, mkB 3, mkB 4, mkB 5, mkB 6, mkB 1, mkB 0] ∧
    GetNBestsForGroup bkC1 7 ⟨1, 1⟩ exTarget intfsC1 ⟨9, 9⟩ =
      .ok [mkB 2, mkB 3, mkB 4, mkB 5, mkB 6, mkB 1, mkB 0] ∧
    getNBest bkC1 7 exTarget [mkB 0, mkB 1, mkB 2, mkB 3, mkB 4, mkB 5, mkB 6] ≠
      [mkB 2, mkB 3, mkB 4, mkB 5, mkB 6, mkB 0, mkB 1] := by
  refine ⟨by decide, by decide, by decide⟩

/-- Trivial backend for the mechanism used by the C2 evaluation. -/
def bkTriv : Backend Unit :=
  { assocs := []
    getBeaconsById := fun _ => .ok []
    GetMetric := fun _ _ => ()
    ShouldConsider := fun _ _ => true
    QualityLess := fun _ _ _ => false }

/-- Mechanism knowing exactly one interface, with remote ISD-AS (1,1). -/
def mC2 : Mechanism Unit :=
  { backend := bkTriv
    Extend := fun s _ _ => .ok s
    AllInterfaces := [⟨5, ⟨1, 1⟩⟩]
    GetInterfaceGroups := fun _ _ => [] }

/-- C2: the claim states that getNeighbouringASs returns exactly the distinct
remote-AS set, with no zero-valued entries. The source allocates the result
with make of length set-size and then appends, so with a single interface of
remote ISD-AS (1,1) it returns a zero entry followed by (1,1) instead of just
(1,1): the zero-valued IA is in the result and the result is not the set. -/
theorem C2_getNeighbouringASs_zero_prefix :
    getNeighbouringASs mC2 = [⟨0, 0⟩, ⟨1, 1⟩] ∧
    (⟨0, 0⟩ : IA) ∈ getNeighbouringASs mC2 ∧
    getNeighbouringASs mC2 ≠ [⟨1, 1⟩] := by
  refine ⟨by decide, by decide, by decide⟩

/-- Beacons table holding one row that is already expired at time 100 and
matches usage mask 1. -/
def tC4 : BeaconsTable :=
  { rows := [{ RowID := 1, SegID := 10, FullID := 11, StartIsd := 1, StartAs := 1,
               InIntfID := 4, HopsLength := 2, InfoTime := 0, ExpirationTime := 0,
               LastUpdated := 0, Usage := 1, Beacon := exSegPlain }]
    nextRowID := 2 }

/-- C4: the claim states that CandidateBeacons returns only live (not yet
expired) records. The query of the source has no expiration condition (the
current time is passed as an argument but the SQL text never uses it), so a
record whose ExpirationTime 0 precedes the query time 100 is still returned. -/
theorem C4_candidateBeacons_returns_expired :
    (∀ r ∈ tC4.rows, r.ExpirationTime < 100) ∧
    executor.CandidateBeacons tC4 10 1 ⟨0, 0⟩ 100 = [{ Segment := some exSegPlain, InIfId := 4 }] := by
  refine ⟨by decide, by decide⟩

/-
  C9: Diversity.
-/

/-- Counting form of the Diversity fold: starting from n, the fold adds one
for every entry failing the predicate. -/
theorem foldl_if_countP (p : ASEntry → Bool) :
    ∀ (l : List ASEntry) (n : Nat),
      l.foldl (fun d e => if p e then d else d + 1) n = n + l.countP (fun e => !p e) := by
  intro l
  induction l with
  | nil => intro n; simp [List.countP_nil]
  | cons e rest ih =>
    intro n
    by_cases h : p e = true
    · simp [List.foldl, h, List.countP_cons, ih]
    · have h2 : p e = false := by revert h; cases p e <;> simp
      simp [List.foldl, h2, List.countP_cons, ih]
      omega

/-- C9: Diversity counts the entries of this segment whose link pair occurs in
no entry of the other segment, by exact pairwise equality; it is 0 whenever
either segment is unset; and on beacon A with links (1,1)-5 and (2,2)-7
against beacon B with the single link (1,1)-5 the results are 1 and 0. -/
theorem C9_diversity_counts_links :
    (∀ (b other : Beacon) (bs os : PathSegment),
      b.Segment = some bs → other.Segment = some os →
      b.Diversity other =
        bs.ASEntries.countP (fun e => decide (∀ o ∈ os.ASEntries, link e ≠ link o))) ∧
    (∀ (b other : Beacon), (b.Segment = none ∨ other.Segment = none) →
      b.Diversity other = 0) ∧
    (Beacon.Diversity
        ⟨some { ASEntries := [⟨⟨1, 1⟩, ⟨⟨5⟩⟩, ⟨none⟩⟩, ⟨⟨2, 2⟩, ⟨⟨7⟩⟩, ⟨none⟩⟩],
                Info := ⟨0⟩, SegID := 1, FullID := 1, MaxExpiryTime := 0 }, 0, 0⟩
        ⟨some { ASEntries := [⟨⟨1, 1⟩, ⟨⟨5⟩⟩, ⟨none⟩⟩],
                Info := ⟨0⟩, SegID := 2, FullID := 2, MaxExpiryTime := 0 }, 0, 0⟩ = 1 ∧
     Beacon.Diversity
        ⟨some { ASEntries := [⟨⟨1, 1⟩, ⟨⟨5⟩⟩, ⟨none⟩⟩],
                Info := ⟨0⟩, SegID := 2, FullID := 2, MaxExpiryTime := 0 }, 0, 0⟩
        ⟨some { ASEntries := [⟨⟨1, 1⟩, ⟨⟨5⟩⟩, ⟨none⟩⟩, ⟨⟨2, 2⟩, ⟨⟨7⟩⟩, ⟨none⟩⟩],
                Info := ⟨0⟩, SegID := 1, FullID := 1, MaxExpiryTime := 0 }, 0, 0⟩ = 0) := by
  refine ⟨?_, ?_, by decide, by decide⟩
  · intro b other bs os hb ho
    have hd : b.Diversity other = bs.ASEntries.foldl
        (fun diff asEntry =>
          if os.ASEntries.any (fun otherEntry =>
              decide ((link asEntry).1 = (link otherEntry).1) &&
              decide ((link asEntry).2 = (link otherEntry).2))
          then diff else diff + 1)
        0 := by
      unfold Beacon.Diversity
      rw [hb, ho]
    rw [hd, foldl_if_countP]
    simp only [Nat.zero_add]
    apply List.countP_congr
    intro e _
    cases hany : os.ASEntries.any (fun o =>
        decide ((link e).1 = (link o).1) && decide ((link e).2 = (link o).2)) with
    | false =>
      have hall : ∀ o ∈ os.ASEntries, link e ≠ link o := by
        intro o ho2 heq
        have htrue : os.ASEntries.any (fun o =>
            decide ((link e).1 = (link o).1) && decide ((link e).2 = (link o).2)) = true :=
          List.any_eq_true.mpr ⟨o, ho2, by rw [heq]; simp⟩
        rw [hany] at htrue
        exact Bool.false_ne_true htrue
      exact iff_of_true (by simp) (decide_eq_true_iff.mpr hall)
    | true =>
      obtain ⟨o, ho2, hlink⟩ := List.any_eq_true.mp hany
      simp only [Bool.and_eq_true, decide_eq_true_iff] at hlink
      exact iff_of_false (by simp)
        (fun hd => (decide_eq_true_iff.mp hd) o ho2 (Prod.ext_iff.mpr ⟨hlink.1, hlink.2⟩))
  · intro b other h
    unfold Beacon.Diversity
    rcases h with h | h
    · rw [h]
    · rw [h]
      cases b.Segment <;> rfl

/-- Witness for C9 at concrete inputs: both hypothesis forms are discharged at
explicit beacons. -/
theorem C9_diversity_counts_links_witness :
    (Beacon.Diversity ⟨some exSegPlain, 0, 0⟩ ⟨some exSegPlain, 1, 0⟩ =
      exSegPlain.ASEntries.countP
        (fun e => decide (∀ o ∈ exSegPlain.ASEntries, link e ≠ link o))) ∧
    Beacon.Diversity ⟨none, 0, 0⟩ ⟨some exSegPlain, 1, 0⟩ = 0 := by
  exact ⟨(C9_diversity_counts_links.1 _ _ _ _ rfl rfl),
         (C9_diversity_counts_links.2.1 _ _ (Or.inl rfl))⟩

/-
  C3: upsert semantics of executor.InsertBeacon.
-/

/-- C3: for every InsertBeacon call on the store with a proper segment:
when no record with the segment identity exists, a new record is inserted (one
row appended, carrying the segment identity and origination time) and the
stats report Inserted=1; when a record exists and the incoming origination
timestamp is strictly newer, the stats report Updated=1, the number of rows is
unchanged, rows with a different RowID are untouched, and the row with the
matched RowID now carries the incoming mutable fields (interface id, hop
count, timestamps, usage, packed segment); when a record exists and the
incoming timestamp is not strictly newer, the call returns Inserted=0,
Updated=0 and the table is unchanged. -/
theorem C3_insertBeacon_upsert (t : BeaconsTable) (b : Beacon) (usage : Nat)
    (now : Int) (s : PathSegment) (hb : b.Segment = some s) :
    (getBeaconMeta t s.SegID = none →
      ∃ t2, executor.InsertBeacon t b usage now = some (⟨1, 0⟩, t2) ∧
        ∃ r, t2.rows = t.rows ++ [r] ∧ r.SegID = s.SegID ∧
          r.InfoTime = s.Info.Timestamp ∧ r.InIntfID = b.InIfId) ∧
    (∀ meta, getBeaconMeta t s.SegID = some meta → s.Info.Timestamp > meta.InfoTime →
      ∃ t2, executor.InsertBeacon t b usage now = some (⟨0, 1⟩, t2) ∧
        t2.rows.length = t.rows.length ∧
        (∀ r ∈ t.rows, r.RowID ≠ meta.RowID → r ∈ t2.rows) ∧
        (∀ r2 ∈ t2.rows, r2.RowID = meta.RowID →
          r2.InIntfID = b.InIfId ∧ r2.HopsLength = s.ASEntries.length ∧
          r2.InfoTime = s.Info.Timestamp ∧ r2.ExpirationTime = s.MaxExpiry ∧
          r2.LastUpdated = now ∧ r2.Usage = usage ∧ r2.Beacon = s)) ∧
    (∀ meta, getBeaconMeta t s.SegID = some meta → ¬(s.Info.Timestamp > meta.InfoTime) →
      executor.InsertBeacon t b usage now = some (⟨0, 0⟩, t)) := by
  obtain ⟨bseg, bin, beg⟩ := b
  have hb2 : bseg = some s := hb
  subst hb2
  have hstep : executor.InsertBeacon t ⟨some s, bin, beg⟩ usage now =
      (match getBeaconMeta t s.SegID with
       | some meta =>
         if s.Info.Timestamp > meta.InfoTime then
           match updateExistingBeacon t ⟨some s, bin, beg⟩ usage meta.RowID now with
           | some t2 => some (⟨0, 1⟩, t2)
           | none => none
         else some (⟨0, 0⟩, t)
       | none =>
         match insertNewBeacon t ⟨some s, bin, beg⟩ usage now with
         | some t2 => some (⟨1, 0⟩, t2)
         | none => none) := rfl
  refine ⟨?_, ?_, ?_⟩
  · intro hmeta
    rw [hstep, hmeta]
    exact ⟨_, rfl, ⟨_, rfl, rfl, rfl, rfl⟩⟩
  · intro meta hmeta hnew
    rw [hstep, hmeta]
    refine ⟨{ t with rows := t.rows.map (fun r =>
        if decide (r.RowID = meta.RowID) then
          { r with
            FullID := s.FullID
            InIntfID := bin
            HopsLength := s.ASEntries.length
            InfoTime := s.Info.Timestamp
            ExpirationTime := s.MaxExpiry
            LastUpdated := now
            Usage := usage
            Beacon := s }
        else r) }, ?_, ?_, ?_, ?_⟩
    · show (if s.Info.Timestamp > meta.InfoTime then _ else _) = _
      rw [if_pos hnew]
      rfl
    · simp
    · intro r hr hne
      refine List.mem_map.mpr ⟨r, hr, ?_⟩
      rw [if_neg (by simpa using hne)]
    · intro r2 hr2 hid
      obtain ⟨r, hr, hfr⟩ := List.mem_map.mp hr2
      by_cases hcase : r.RowID = meta.RowID
      · rw [if_pos (by simpa using hcase)] at hfr
        rw [← hfr]
        exact ⟨rfl, rfl, rfl, rfl, rfl, rfl, rfl⟩
      · rw [if_neg (by simpa using hcase)] at hfr
        rw [← hfr] at hid
        exact absurd hid hcase
  · intro meta hmeta hnotnew
    rw [hstep, hmeta]
    show (if s.Info.Timestamp > meta.InfoTime then _ else _) = _
    rw [if_neg hnotnew]

/-- Segment used by the C3 witness, with a nonzero origination time. -/
def exSegT1 : PathSegment :=
  { ASEntries := [], Info := ⟨60⟩, SegID := 10, FullID := 11, MaxExpiryTime := 200 }

/-- Table already holding the row of exSegPlain (InfoTime 50) under RowID 1. -/
def tC3 : BeaconsTable :=
  { rows := [{ RowID := 1, SegID := 10, FullID := 11, StartIsd := 0, StartAs := 0,
               InIntfID := 4, HopsLength := 0, InfoTime := 50, ExpirationTime := 200,
               LastUpdated := 0, Usage := 1, Beacon := exSegPlain }]
    nextRowID := 2 }

/-- Witness for C3: the three branches are discharged at concrete inputs — a
fresh insert into the empty table, a strictly newer re-insert (InfoTime 60
over 50) and a stale re-insert (InfoTime 50 not after 50, the no-op). -/
theorem C3_insertBeacon_upsert_witness :
    (∃ t2, executor.InsertBeacon ⟨[], 1⟩ ⟨some exSegPlain, 4, 0⟩ 1 90 = some (⟨1, 0⟩, t2) ∧
      ∃ r, t2.rows = [] ++ [r] ∧ r.SegID = exSegPlain.SegID ∧
        r.InfoTime = exSegPlain.Info.Timestamp ∧ r.InIntfID = 4) ∧
    (∃ t2, executor.InsertBeacon tC3 ⟨some exSegT1, 5, 0⟩ 2 90 = some (⟨0, 1⟩, t2) ∧
      t2.rows.length = tC3.rows.length ∧
      (∀ r ∈ tC3.rows, r.RowID ≠ 1 → r ∈ t2.rows) ∧
      (∀ r2 ∈ t2.rows, r2.RowID = 1 →
        r2.InIntfID = 5 ∧ r2.HopsLength = exSegT1.ASEntries.length ∧
        r2.InfoTime = exSegT1.Info.Timestamp ∧ r2.ExpirationTime = exSegT1.MaxExpiry ∧
        r2.LastUpdated = 90 ∧ r2.Usage = 2 ∧ r2.Beacon = exSegT1)) ∧
    executor.InsertBeacon tC3 ⟨some exSegPlain, 9, 0⟩ 7 90 = some (⟨0, 0⟩, tC3) := by
  refine ⟨(C3_insertBeacon_upsert ⟨[], 1⟩ ⟨some exSegPlain, 4, 0⟩ 1 90 exSegPlain rfl).1
      (by decide), ?_, ?_⟩
  · exact (C3_insertBeacon_upsert tC3 ⟨some exSegT1, 5, 0⟩ 2 90 exSegT1 rfl).2.1
      ⟨1, 50, 0⟩ (by decide) (by decide)
  · exact (C3_insertBeacon_upsert tC3 ⟨some exSegPlain, 9, 0⟩ 7 90 exSegPlain rfl).2.2
      ⟨1, 50, 0⟩ (by decide) (by decide)

/-
  Membership lemmas: every element of the output of the embedded sort is an
  element of its input. They drive the loop-exclusion claim, since filtering
  precedes the sort and the truncation only drops elements.
-/

/-- Membership after a positional write comes from the written element or the
original list. -/
theorem mem_setN {x y : α} : ∀ (l : List α) (i : Nat), x ∈ setN l i y → x = y ∨ x ∈ l := by
  intro l
  induction l with
  | nil => intro i h; cases h
  | cons a as ih =>
    intro i h
    cases i with
    | zero =>
      rcases List.mem_cons.mp h with h2 | h2
      · exact Or.inl h2
      · exact Or.inr (List.mem_cons_of_mem a h2)
    | succ n =>
      rcases List.mem_cons.mp h with h2 | h2
      · exact Or.inr (h2 ▸ List.mem_cons_self a as)
      · rcases ih n h2 with h3 | h3
        · exact Or.inl h3
        · exact Or.inr (List.mem_cons_of_mem a h3)

/-- A positional read within bounds is a member of the list. -/
theorem nth_mem [Inhabited α] : ∀ (l : List α) (i : Nat), i < l.length → nth l i ∈ l := by
  intro l
  induction l with
  | nil => intro i h; cases h
  | cons a as ih =>
    intro i h
    cases i with
    | zero => exact List.mem_cons_self a as
    | succ n => exact List.mem_cons_of_mem a (ih n (Nat.lt_of_succ_lt_succ h))

/-- Membership is preserved backwards through swapGo. -/
theorem mem_swapGo [Inhabited α] {x : α} (l : List α) (i j : Nat) :
    x ∈ swapGo l i j → x ∈ l := by
  intro h
  unfold swapGo at h
  by_cases hb : i < l.length ∧ j < l.length
  · rw [if_pos hb] at h
    rcases mem_setN _ _ h with h2 | h2
    · rw [h2]; exact nth_mem l i hb.1
    · rcases mem_setN _ _ h2 with h3 | h3
      · rw [h3]; exact nth_mem l j hb.2
      · exact h3
  · rwa [if_neg hb] at h

/-- Membership through the inner insertion sort loop. -/
theorem mem_insertionSortInner [Inhabited α] {x : α} (lt : α → α → Bool) (a : Nat) :
    ∀ (j : Nat) (arr : List α), x ∈ insertionSortInner lt a arr j → x ∈ arr := by
  intro j
  induction j with
  | zero => intro arr h; exact h
  | succ n ih =>
    intro arr h
    unfold insertionSortInner at h
    split at h
    · exact mem_swapGo _ _ _ (ih _ h)
    · exact h

/-- Membership through the outer insertion sort loop. -/
theorem mem_insertionSortOuter [Inhabited α] {x : α} (lt : α → α → Bool) (a b : Nat) :
    ∀ (fuel i : Nat) (arr : List α), x ∈ insertionSortOuter lt a b arr i fuel → x ∈ arr := by
  intro fuel
  induction fuel with
  | zero => intro i arr h; exact h
  | succ n ih =>
    intro i arr h
    unfold insertionSortOuter at h
    split at h
    · exact mem_insertionSortInner lt a i arr (ih _ _ h)
    · exact h

/-- Membership through insertionSortGo. -/
theorem mem_insertionSortGo [Inhabited α] {x : α} (lt : α → α → Bool) (arr : List α)
    (a b : Nat) : x ∈ insertionSortGo lt arr a b → x ∈ arr :=
  fun h => mem_insertionSortOuter lt a b _ _ arr h

/-- Membership through the sift-down loop. -/
theorem mem_siftDownLoop [Inhabited α] {x : α} (lt : α → α → Bool) (hi first : Nat) :
    ∀ (fuel root : Nat) (arr : List α), x ∈ siftDownLoop lt hi first arr root fuel → x ∈ arr := by
  intro fuel
  induction fuel with
  | zero => intro root arr h; exact h
  | succ n ih =>
    intro root arr h
    unfold siftDownLoop at h
    dsimp only at h
    repeat' (first
      | exact h
      | replace h := mem_swapGo _ _ _ (ih _ _ h)
      | split at h)

/-- Membership through siftDownGo. -/
theorem mem_siftDownGo [Inhabited α] {x : α} (lt : α → α → Bool) (arr : List α)
    (lo hi first : Nat) : x ∈ siftDownGo lt arr lo hi first → x ∈ arr :=
  fun h => mem_siftDownLoop lt hi first _ _ arr h

/-- Membership through the heap construction loop. -/
theorem mem_heapSortBuild [Inhabited α] {x : α} (lt : α → α → Bool) (hi first : Nat) :
    ∀ (c : Nat) (arr : List α), x ∈ heapSortBuild lt hi first arr c → x ∈ arr := by
  intro c
  induction c with
  | zero => intro arr h; exact h
  | succ n ih =>
    intro arr h
    exact mem_siftDownGo lt arr _ _ _ (ih _ h)

/-- Membership through the heap extraction loop. -/
theorem mem_heapSortExtract [Inhabited α] {x : α} (lt : α → α → Bool) (first : Nat) :
    ∀ (c : Nat) (arr : List α), x ∈ heapSortExtract lt first arr c → x ∈ arr := by
  intro c
  induction c with
  | zero => intro arr h; exact h
  | succ n ih =>
    intro arr h
    exact mem_swapGo _ _ _ (mem_siftDownGo lt _ _ _ _ (ih _ h))

/-- Membership through heapSortGo. -/
theorem mem_heapSortGo [Inhabited α] {x : α} (lt : α → α → Bool) (arr : List α)
    (a b : Nat) : x ∈ heapSortGo lt arr a b → x ∈ arr := by
  intro h
  exact mem_heapSortBuild lt _ _ _ arr (mem_heapSortExtract lt _ _ _ h)

/-- Membership through medianOfThreeGo. -/
theorem mem_medianOfThreeGo [Inhabited α] {x : α} (lt : α → α → Bool) (arr : List α)
    (m1 m0 m2 : Nat) : x ∈ medianOfThreeGo lt arr m1 m0 m2 → x ∈ arr := by
  intro h
  unfold medianOfThreeGo at h
  dsimp only at h
  repeat' (first
    | exact h
    | replace h := mem_swapGo _ _ _ h
    | split at h
    | dsimp only at h)

/-- Membership through the main partition loop. -/
theorem mem_doPivotMiddle [Inhabited α] {x : α} (lt : α → α → Bool) (pivot : Nat) :
    ∀ (fuel : Nat) (arr : List α) (b c : Nat),
      x ∈ (doPivotMiddle lt pivot arr b c fuel).1 → x ∈ arr := by
  intro fuel
  induction fuel with
  | zero => intro arr b c h; exact h
  | succ n ih =>
    intro arr b c h
    unfold doPivotMiddle at h
    dsimp only at h
    split at h
    · exact h
    · exact mem_swapGo _ _ _ (ih _ _ _ h)

/-- Membership through the duplicate-protection loop. -/
theorem mem_doPivotProtect [Inhabited α] {x : α} (lt : α → α → Bool) (pivot : Nat) :
    ∀ (fuel : Nat) (arr : List α) (a b : Nat),
      x ∈ (doPivotProtect lt pivot arr a b fuel).1 → x ∈ arr := by
  intro fuel
  induction fuel with
  | zero => intro arr a b h; exact h
  | succ n ih =>
    intro arr a b h
    unfold doPivotProtect at h
    dsimp only at h
    split at h
    · exact h
    · exact mem_swapGo _ _ _ (ih _ _ _ h)

/-- Membership through the pivot choice block. -/
theorem mem_doPivotChoose [Inhabited α] {x : α} (lt : α → α → Bool) (arr : List α)
    (lo hi m : Nat) : x ∈ doPivotChoose lt arr lo hi m → x ∈ arr := by
  intro h
  unfold doPivotChoose at h
  dsimp only at h
  replace h := mem_medianOfThreeGo lt _ _ _ _ h
  split at h
  · exact mem_medianOfThreeGo lt _ _ _ _
      (mem_medianOfThreeGo lt _ _ _ _ (mem_medianOfThreeGo lt _ _ _ _ h))
  · exact h

/-- Membership through the duplicate-detection block. -/
theorem mem_doPivotDups [Inhabited α] {x : α} (lt : α → α → Bool) (arr : List α)
    (m pivot lo hi b c : Nat) : x ∈ (doPivotDups lt arr m pivot lo hi b c).1 → x ∈ arr := by
  intro h
  unfold doPivotDups at h
  dsimp only at h
  repeat' (first
    | exact h
    | replace h := mem_swapGo _ _ _ h
    | split at h
    | dsimp only at h)

/-- Membership through doPivotGo. -/
theorem mem_doPivotGo [Inhabited α] {x : α} (lt : α → α → Bool) (arr : List α)
    (lo hi : Nat) : x ∈ (doPivotGo lt arr lo hi).1 → x ∈ arr := by
  intro h
  unfold doPivotGo at h
  dsimp only at h
  replace h := mem_swapGo _ _ _ h
  split at h
  · exact mem_doPivotChoose lt _ _ _ _
      (mem_doPivotMiddle lt _ _ _ _ _
        (mem_doPivotDups lt _ _ _ _ _ _ _ (mem_doPivotProtect lt _ _ _ _ _ h)))
  · dsimp only at h
    exact mem_doPivotChoose lt _ _ _ _
      (mem_doPivotMiddle lt _ _ _ _ _ (mem_doPivotDups lt _ _ _ _ _ _ _ h))

/-- Membership through the shellsort pass. -/
theorem mem_shellPassLoop [Inhabited α] {x : α} (lt : α → α → Bool) (b : Nat) :
    ∀ (fuel i : Nat) (arr : List α), x ∈ shellPassLoop lt b arr i fuel → x ∈ arr := by
  intro fuel
  induction fuel with
  | zero => intro i arr h; exact h
  | succ n ih =>
    intro i arr h
    unfold shellPassLoop at h
    split at h
    · replace h := ih _ _ h
      split at h
      · exact mem_swapGo _ _ _ h
      · exact h
    · exact h

/-- Membership through quickSortLoop. -/
theorem mem_quickSortLoop [Inhabited α] {x : α} (lt : α → α → Bool) :
    ∀ (fuel : Nat) (arr : List α) (a b maxDepth : Nat),
      x ∈ quickSortLoop lt arr a b maxDepth fuel → x ∈ arr := by
  intro fuel
  induction fuel with
  | zero => intro arr a b maxDepth h; exact h
  | succ n ih =>
    intro arr a b maxDepth h
    unfold quickSortLoop at h
    dsimp only at h
    split at h
    · split at h
      · exact mem_heapSortGo lt _ _ _ h
      · split at h
        · exact mem_doPivotGo lt _ _ _ (ih _ _ _ _ (ih _ _ _ _ h))
        · exact mem_doPivotGo lt _ _ _ (ih _ _ _ _ (ih _ _ _ _ h))
    · split at h
      · exact mem_shellPassLoop lt b _ _ _ (mem_insertionSortGo lt _ _ _ h)
      · exact h

/-- Membership through the embedded sort.Slice: the sorted list only contains
elements of its input. -/
theorem mem_sortSliceGo [Inhabited α] {x : α} (lt : α → α → Bool) (l : List α) :
    x ∈ sortSliceGo lt l → x ∈ l :=
  fun h => mem_quickSortLoop lt _ l _ _ _ h

/-- The applyFilter helper of GetNBestsForGroup is List.filter. -/
theorem applyFilter_eq_filter (f : Beacon → Bool) (l : List Beacon) :
    applyFilter l f = l.filter f := by
  have haux : ∀ (l2 : List Beacon) (acc : List Beacon),
      l2.foldl (fun acc bcn => if f bcn then acc ++ [bcn] else acc) acc = acc ++ l2.filter f := by
    intro l2
    induction l2 with
    | nil => intro acc; simp
    | cons a as ih =>
      intro acc
      by_cases hf : f a = true
      · simp [List.foldl, hf, ih, List.filter_cons]
      · have hf2 : f a = false := by revert hf; cases f a <;> simp
        simp [List.foldl, hf2, ih, List.filter_cons]
  simpa using haux l []

/-
  C6 and C8: candidate selection.
-/

/-- Unfolding of GetNBestsForGroup used by the selection theorems. -/
theorem GetNBestsForGroup_eq {M : Type} (bk : Backend M) (N : Nat) (src : IA)
    (target : Target) (ingressIntfs : List Interface) (excludeLooping : IA) :
    GetNBestsForGroup bk N src target ingressIntfs excludeLooping =
      (if (GetBeaconIdsForTarget bk.assocs target).length = 0 then Except.ok []
       else Except.ok (
         let bcnCandidates :=
           match bk.getBeaconsById (GetBeaconIdsForTarget bk.assocs target) with
           | .ok bcns => bcns
           | .error _ => []
         let c1 := applyFilter bcnCandidates (fun bcn =>
           ingressIntfs.any (fun ingressIntf => decide (ingressIntf.ID = bcn.InIfId)))
         let c2 := applyFilter c1 (fun bcn =>
           match FilterLoop bcn excludeLooping true with
           | .error _ => false
           | .ok _ => true)
         let c3 := applyFilter c2 (fun bcn => bk.ShouldConsider target bcn)
         let sorted := sortSliceGo
           (fun l r => bk.QualityLess target.Quality (bk.GetMetric target l) (bk.GetMetric target r))
           c3
         if sorted.length > N then sorted.take N else sorted)) := rfl

/-- C6: loop exclusion. Whenever GetNBestsForGroup succeeds with a result, no
beacon of that result has a segment that already traverses the AS given as
excludeLooping: every AS entry of its segment names a different local AS,
whatever its quality metric. -/
theorem C6_loop_exclusion {M : Type} (bk : Backend M) (N : Nat) (src : IA)
    (target : Target) (ingressIntfs : List Interface) (excludeLooping : IA)
    (res : List Beacon) (bcn : Beacon) (s : PathSegment)
    (hres : GetNBestsForGroup bk N src target ingressIntfs excludeLooping = .ok res)
    (hmem : bcn ∈ res) (hs : bcn.Segment = some s) :
    ∀ e ∈ s.ASEntries, e.Local ≠ excludeLooping := by
  obtain ⟨bsg, binf, beg⟩ := bcn
  replace hs : bsg = some s := hs
  subst hs
  rw [GetNBestsForGroup_eq] at hres
  by_cases hids : (GetBeaconIdsForTarget bk.assocs target).length = 0
  · rw [if_pos hids] at hres
    rw [← Except.ok.inj hres] at hmem
    cases hmem
  · rw [if_neg hids] at hres
    rw [← Except.ok.inj hres] at hmem
    dsimp only at hmem
    have hsorted : ({ Segment := some s, InIfId := binf, EgIfId := beg } : Beacon) ∈ sortSliceGo
        (fun l r => bk.QualityLess target.Quality (bk.GetMetric target l) (bk.GetMetric target r))
        (applyFilter (applyFilter (applyFilter
          (match bk.getBeaconsById (GetBeaconIdsForTarget bk.assocs target) with
           | .ok bcns => bcns
           | .error _ => [])
          (fun bcn => ingressIntfs.any (fun ingressIntf => decide (ingressIntf.ID = bcn.InIfId))))
          (fun bcn =>
            match FilterLoop bcn excludeLooping true with
            | .error _ => false
            | .ok _ => true))
          (fun bcn => bk.ShouldConsider target bcn)) := by
      split at hmem
      · exact List.take_subset _ _ hmem
      · exact hmem
    replace hsorted := mem_sortSliceGo _ _ hsorted
    rw [applyFilter_eq_filter] at hsorted
    replace hsorted := (List.mem_filter.mp hsorted).1
    rw [applyFilter_eq_filter] at hsorted
    have hp2 := (List.mem_filter.mp hsorted).2
    by_cases hany : s.ASEntries.any (fun e => decide (e.Local = excludeLooping)) = true
    · have hfl : FilterLoop ⟨some s, binf, beg⟩ excludeLooping true = .error () := by
        show (if (s.ASEntries.any fun e => decide (e.Local = excludeLooping)) = true
              then Except.error () else Except.ok ()) = Except.error ()
        rw [if_pos hany]
      rw [hfl] at hp2
      cases hp2
    · intro e he heq
      exact hany (List.any_eq_true.mpr ⟨e, he, decide_eq_true_iff.mpr heq⟩)

/-- Backend whose fetch fails and whose index holds one association, used by
the C6 and C8 witnesses. -/
def bkC8 : Backend Nat :=
  { assocs := [(0, exTarget)]
    getBeaconsById := fun _ => .error ()
    GetMetric := fun _ b => b.InIfId
    ShouldConsider := fun _ _ => true
    QualityLess := fun _ a b => decide (a < b) }

/-- Segment with one AS entry at local AS (3,3), used by the C6 witness. -/
def sC6 : PathSegment :=
  { ASEntries := [⟨⟨3, 3⟩, ⟨⟨1⟩⟩, ⟨none⟩⟩], Info := ⟨0⟩, SegID := 20, FullID := 21,
    MaxExpiryTime := 100 }

/-- Beacon carrying sC6, received on interface 4. -/
def bC6 : Beacon := { Segment := some sC6, InIfId := 4, EgIfId := 0 }

/-- Backend serving exactly bC6 for the single association of the index. -/
def bkC6 : Backend Nat :=
  { assocs := [(0, exTarget)]
    getBeaconsById := fun _ => .ok [bC6]
    GetMetric := fun _ _ => 0
    ShouldConsider := fun _ _ => true
    QualityLess := fun _ a b => decide (a < b) }

/-- Witness for C6: a concrete run returning the beacon bC6, whose segment
traverses only (3,3), with excludeLooping (9,9); the theorem applied to the
single entry of that segment yields that its local AS is not (9,9). -/
theorem C6_loop_exclusion_witness :
    decide ((ASEntry.Local ⟨⟨3, 3⟩, ⟨⟨1⟩⟩, ⟨none⟩⟩) = (⟨9, 9⟩ : IA)) = false :=
  decide_eq_false
    (C6_loop_exclusion bkC6 7 ⟨1, 1⟩ exTarget [⟨4, ⟨2, 2⟩⟩] ⟨9, 9⟩ [bC6] bC6 sC6
      (by decide) (by decide) rfl ⟨⟨3, 3⟩, ⟨⟨1⟩⟩, ⟨none⟩⟩ (by decide))

/-- C8: a storage read failure while fetching the candidate beacons is not
propagated: GetNBestsForGroup always succeeds, and whenever the fetch of the
candidate ids returns a read error the result is the empty candidate list,
both at GetNBestsForGroup and through getNBestFor, so propagation continues. -/
theorem C8_fetch_error_soft_fail {M : Type} (bk : Backend M) (N : Nat) (src : IA)
    (target : Target) (ingressIntfs : List Interface) (excludeLooping : IA) :
    (∃ l, GetNBestsForGroup bk N src target ingressIntfs excludeLooping = .ok l) ∧
    (∀ e, bk.getBeaconsById (GetBeaconIdsForTarget bk.assocs target) = .error e →
      GetNBestsForGroup bk N src target ingressIntfs excludeLooping = .ok [] ∧
      getNBestFor bk N src target ingressIntfs excludeLooping = []) := by
  have hnb : getNBestFor bk N src target ingressIntfs excludeLooping =
      (match GetNBestsForGroup bk N src target ingressIntfs excludeLooping with
       | .error _ => []
       | .ok bcns => bcns) := rfl
  constructor
  · rw [GetNBestsForGroup_eq]
    by_cases hids : (GetBeaconIdsForTarget bk.assocs target).length = 0
    · rw [if_pos hids]
      exact ⟨[], rfl⟩
    · rw [if_neg hids]
      exact ⟨_, rfl⟩
  · intro e he
    have hok : GetNBestsForGroup bk N src target ingressIntfs excludeLooping = .ok [] := by
      rw [GetNBestsForGroup_eq]
      by_cases hids : (GetBeaconIdsForTarget bk.assocs target).length = 0
      · rw [if_pos hids]
      · rw [if_neg hids, he]
        rfl
    exact ⟨hok, by rw [hnb, hok]⟩

/-- Witness for C8: with the failing fetch of bkC8 (whose index is nonempty,
so the fetch is really consulted), selection yields the empty result and no
error. -/
theorem C8_fetch_error_soft_fail_witness :
    GetNBestsForGroup bkC8 7 ⟨1, 1⟩ exTarget intfsC1 ⟨9, 9⟩ = .ok [] ∧
    getNBestFor bkC8 7 ⟨1, 1⟩ exTarget intfsC1 ⟨9, 9⟩ = [] :=
  (C8_fetch_error_soft_fail bkC8 7 ⟨1, 1⟩ exTarget intfsC1 ⟨9, 9⟩).2 () rfl

/-
  C10: PqaMemoryBackend.InsertBeacon reads ASEntries[0] unconditionally.
-/

/-- C10: with a proper segment, the base insert of the model always succeeds,
after which pqa.go reads ASEntries[0] unconditionally: the call is total
exactly when the segment has at least one AS entry (with no entry it panics,
modelled as none); and when the first entry carries no pqa extension the
target associations are left untouched, even if later entries carry one. -/
theorem C10_insertBeacon_first_entry (st : PqaState) (bcn : Beacon) (usage : Nat)
    (now : Int) (s : PathSegment) (hb : bcn.Segment = some s) :
    (s.ASEntries ≠ [] → (PqaMemoryBackend.InsertBeacon st bcn usage now).isSome) ∧
    (s.ASEntries = [] → PqaMemoryBackend.InsertBeacon st bcn usage now = none) ∧
    (∀ e0 rest, s.ASEntries = e0 :: rest → e0.Extensions.PqaExtension = none →
      ∀ stats st2 err, PqaMemoryBackend.InsertBeacon st bcn usage now = some (stats, st2, err) →
        st2.Targets = st.Targets) := by
  obtain ⟨bsg, bin, beg⟩ := bcn
  replace hb : bsg = some s := hb
  subst hb
  have hexecStep : executor.InsertBeacon st.Beacons ⟨some s, bin, beg⟩ usage now =
      (match getBeaconMeta st.Beacons s.SegID with
       | some meta =>
         if s.Info.Timestamp > meta.InfoTime then
           match updateExistingBeacon st.Beacons ⟨some s, bin, beg⟩ usage meta.RowID now with
           | some t2 => some (⟨0, 1⟩, t2)
           | none => none
         else some (⟨0, 0⟩, st.Beacons)
       | none =>
         match insertNewBeacon st.Beacons ⟨some s, bin, beg⟩ usage now with
         | some t2 => some (⟨1, 0⟩, t2)
         | none => none) := rfl
  have hexecSome : (executor.InsertBeacon st.Beacons ⟨some s, bin, beg⟩ usage now).isSome := by
    rw [hexecStep]
    cases hmeta : getBeaconMeta st.Beacons s.SegID with
    | none => rfl
    | some meta =>
      by_cases hn : s.Info.Timestamp > meta.InfoTime
      · show (if s.Info.Timestamp > meta.InfoTime then _ else _ : Option _).isSome = true
        rw [if_pos hn]
        rfl
      · show (if s.Info.Timestamp > meta.InfoTime then _ else _ : Option _).isSome = true
        rw [if_neg hn]
        rfl
  obtain ⟨⟨stats, bt⟩, hex⟩ := Option.isSome_iff_exists.mp hexecSome
  have hstep : PqaMemoryBackend.InsertBeacon st ⟨some s, bin, beg⟩ usage now =
      (match executor.InsertBeacon st.Beacons ⟨some s, bin, beg⟩ usage now with
       | none => none
       | some (stats, bt) =>
         match s.ASEntries.head? with
         | none => none
         | some entry0 =>
           match entry0.Extensions.PqaExtension with
           | none => some (stats, { st with Beacons := bt }, none)
           | some ext =>
             match getBeaconID bt ⟨some s, bin, beg⟩ with
             | none => none
             | some (.error _) => some (stats, { st with Beacons := bt }, some ())
             | some (.ok beaconID) =>
               some (stats,
                 { Beacons := bt,
                   Targets := AssociateBeacon st.Targets beaconID
                     { Quality := ext.Quality, Direction := ext.Direction,
                       Uniquifier := ext.Uniquifier, IA := s.FirstIA } },
                 none)) := rfl
  refine ⟨?_, ?_, ?_⟩
  · intro hne
    obtain ⟨e0, rest, hcons⟩ : ∃ e0 rest, s.ASEntries = e0 :: rest := by
      cases hE : s.ASEntries with
      | nil => exact absurd hE hne
      | cons a as => exact ⟨a, as, rfl⟩
    rw [hstep, hex, hcons]
    dsimp only [List.head?]
    have hgb : getBeaconID bt ⟨some s, bin, beg⟩ =
        some (match getBeaconMeta bt s.SegID with
              | none => (Except.error () : Except Unit Nat)
              | some meta => Except.ok meta.RowID) := rfl
    rw [hgb]
    cases hext : e0.Extensions.PqaExtension with
    | none => rfl
    | some ext =>
      cases hgm : getBeaconMeta bt s.SegID with
      | none => rfl
      | some meta => rfl
  · intro hempty
    rw [hstep, hex, hempty]
    rfl
  · intro e0 rest hcons hext stats2 st2 err heq
    rw [hstep, hex, hcons] at heq
    dsimp only [List.head?] at heq
    rw [hext] at heq
    have h2 := Option.some.inj heq
    have h3 : st.Targets = st2.Targets := congrArg (fun p => p.2.1.Targets) h2
    exact h3.symm

/-- State used by the C10 witness: empty store and empty index. -/
def stC10 : PqaState := { Beacons := ⟨[], 1⟩, Targets := [] }

/-- Segment whose single entry carries a pqa extension. -/
def sC10ext : PathSegment :=
  { ASEntries := [⟨⟨3, 3⟩, ⟨⟨1⟩⟩, ⟨some ⟨1, 2, 3⟩⟩⟩], Info := ⟨40⟩, SegID := 30,
    FullID := 31, MaxExpiryTime := 100 }

/-- Segment whose first entry carries no extension but whose second does. -/
def sC10late : PathSegment :=
  { ASEntries := [⟨⟨3, 3⟩, ⟨⟨1⟩⟩, ⟨none⟩⟩, ⟨⟨4, 4⟩, ⟨⟨2⟩⟩, ⟨some ⟨1, 2, 3⟩⟩⟩],
    Info := ⟨40⟩, SegID := 32, FullID := 33, MaxExpiryTime := 100 }

/-- Witness for C10: at the empty store, inserting a beacon with one
extension-carrying entry succeeds; inserting a beacon whose segment has no
entries panics (none); and inserting a beacon whose extension sits only on the
second entry leaves the target index untouched. -/
theorem C10_insertBeacon_first_entry_witness :
    (PqaMemoryBackend.InsertBeacon stC10 ⟨some sC10ext, 4, 0⟩ 1 50).isSome ∧
    PqaMemoryBackend.InsertBeacon stC10 ⟨some exSegPlain, 4, 0⟩ 1 50 = none ∧
    (∀ stats st2 err,
      PqaMemoryBackend.InsertBeacon stC10 ⟨some sC10late, 4, 0⟩ 1 50 = some (stats, st2, err) →
        st2.Targets = stC10.Targets) :=
  ⟨(C10_insertBeacon_first_entry stC10 ⟨some sC10ext, 4, 0⟩ 1 50 sC10ext rfl).1 (by decide),
   (C10_insertBeacon_first_entry stC10 ⟨some exSegPlain, 4, 0⟩ 1 50 exSegPlain rfl).2.1 rfl,
   fun stats st2 err heq =>
     (C10_insertBeacon_first_entry stC10 ⟨some sC10late, 4, 0⟩ 1 50 sC10late rfl).2.2
       ⟨⟨3, 3⟩, ⟨⟨1⟩⟩, ⟨none⟩⟩ [⟨⟨4, 4⟩, ⟨⟨2⟩⟩, ⟨some ⟨1, 2, 3⟩⟩⟩] rfl rfl stats st2 err heq⟩

/-
  C7: an extension failure aborts the whole propagation batch.
-/

/-- The candidates the three loops of getPropagationBatch visit, in visiting
order, paired with the egress interface id each will be extended toward: for
each ingress group, for each egress interface, the n-best candidates of that
ingress group. -/
def propagationWorkItems (m : Mechanism M) (N : Nat) (target : Target)
    (egIntfG : List Interface) (neigh src : IA) : List (Nat × Beacon) :=
  (getIntfGroups m target).flatMap (fun igIntfG =>
    egIntfG.flatMap (fun egIntf =>
      (getNBestFor m.backend N src target igIntfG neigh).map (fun bcn => (egIntf.ID, bcn))))

/-- Unfolding of one step of the innermost propagation loop. -/
theorem getPropagationBatchInner_cons (m : Mechanism M) (target : Target)
    (egress : Nat) (bcn : Beacon) (rest batch : List Beacon) :
    getPropagationBatchInner m target egress (bcn :: rest) batch =
      (match m.Extend bcn.Segment bcn.InIfId egress with
       | .error _ => .error { ingress := bcn.InIfId, egress := egress, seg := bcn.Segment }
       | .ok seg2 =>
         if m.backend.ShouldConsider target { bcn with EgIfId := egress, Segment := seg2 } then
           getPropagationBatchInner m target egress rest
             (batch ++ [{ bcn with EgIfId := egress, Segment := seg2 }])
         else
           getPropagationBatchInner m target egress rest batch) := rfl

/-- Behaviour of the innermost loop: an error is the wrapped context of some
visited candidate whose extension failed, and if any visited candidate fails
to extend, the loop cannot succeed. -/
theorem getPropagationBatchInner_spec (m : Mechanism M) (target : Target) (egress : Nat) :
    ∀ (bcns batch : List Beacon),
      (∀ e, getPropagationBatchInner m target egress bcns batch = .error e →
        ∃ b ∈ bcns, (∃ u, m.Extend b.Segment b.InIfId egress = .error u) ∧
          e = { ingress := b.InIfId, egress := egress, seg := b.Segment }) ∧
      ((∃ b ∈ bcns, ∃ u, m.Extend b.Segment b.InIfId egress = .error u) →
        ∀ res, getPropagationBatchInner m target egress bcns batch ≠ .ok res) := by
  intro bcns
  induction bcns with
  | nil =>
    intro batch
    constructor
    · intro e he
      exact absurd he (by intro h; cases h)
    · intro ⟨b, hb, _⟩
      cases hb
  | cons bcn rest ih =>
    intro batch
    constructor
    · intro e he
      rw [getPropagationBatchInner_cons] at he
      cases hext : m.Extend bcn.Segment bcn.InIfId egress with
      | error u =>
        rw [hext] at he
        exact ⟨bcn, List.mem_cons_self _ _, ⟨u, hext⟩, (Except.error.inj he).symm⟩
      | ok seg2 =>
        rw [hext] at he
        dsimp only at he
        split at he
        · obtain ⟨b, hb, hf, heq⟩ := (ih _).1 e he
          exact ⟨b, List.mem_cons_of_mem _ hb, hf, heq⟩
        · obtain ⟨b, hb, hf, heq⟩ := (ih _).1 e he
          exact ⟨b, List.mem_cons_of_mem _ hb, hf, heq⟩
    · intro ⟨b, hb, u, hu⟩ res hok
      rw [getPropagationBatchInner_cons] at hok
      rcases List.mem_cons.mp hb with hb1 | hb2
      · subst hb1
        rw [hu] at hok
        cases hok
      · cases hext : m.Extend bcn.Segment bcn.InIfId egress with
        | error u2 =>
          rw [hext] at hok
          cases hok
        | ok seg2 =>
          rw [hext] at hok
          dsimp only at hok
          split at hok
          · exact (ih _).2 ⟨b, hb2, u, hu⟩ res hok
          · exact (ih _).2 ⟨b, hb2, u, hu⟩ res hok

/-- Behaviour of the middle loop over the egress interfaces. -/
theorem getPropagationBatchMid_spec (m : Mechanism M) (N : Nat) (target : Target)
    (igIntfG : List Interface) (neigh src : IA) :
    ∀ (egIntfs : List Interface) (batch : List Beacon),
      (∀ e, getPropagationBatchMid m N target igIntfG neigh src egIntfs batch = .error e →
        ∃ p ∈ egIntfs.flatMap (fun egIntf =>
            (getNBestFor m.backend N src target igIntfG neigh).map (fun bcn => (egIntf.ID, bcn))),
          (∃ u, m.Extend p.2.Segment p.2.InIfId p.1 = .error u) ∧
          e = { ingress := p.2.InIfId, egress := p.1, seg := p.2.Segment }) ∧
      ((∃ p ∈ egIntfs.flatMap (fun egIntf =>
            (getNBestFor m.backend N src target igIntfG neigh).map (fun bcn => (egIntf.ID, bcn))),
          ∃ u, m.Extend p.2.Segment p.2.InIfId p.1 = .error u) →
        ∀ res, getPropagationBatchMid m N target igIntfG neigh src egIntfs batch ≠ .ok res) := by
  intro egIntfs
  induction egIntfs with
  | nil =>
    intro batch
    constructor
    · intro e he
      exact absurd he (by intro h; cases h)
    · intro ⟨p, hp, _⟩
      simp at hp
  | cons egIntf rest ih =>
    intro batch
    have hstep : getPropagationBatchMid m N target igIntfG neigh src (egIntf :: rest) batch =
        (match getPropagationBatchInner m target egIntf.ID
            (getNBestFor m.backend N src target igIntfG neigh) batch with
         | .error e => .error e
         | .ok batch2 => getPropagationBatchMid m N target igIntfG neigh src rest batch2) := rfl
    constructor
    · intro e he
      rw [hstep] at he
      cases hinner : getPropagationBatchInner m target egIntf.ID
          (getNBestFor m.backend N src target igIntfG neigh) batch with
      | error e2 =>
        rw [hinner] at he
        obtain ⟨b, hb, hf, heq⟩ :=
          (getPropagationBatchInner_spec m target egIntf.ID _ batch).1 e2 hinner
        refine ⟨(egIntf.ID, b), ?_, hf, (Except.error.inj he).symm.trans heq⟩
        rw [List.flatMap_cons]
        exact List.mem_append_left _ (List.mem_map.mpr ⟨b, hb, rfl⟩)
      | ok batch2 =>
        rw [hinner] at he
        obtain ⟨p, hp, hf, heq⟩ := (ih batch2).1 e he
        refine ⟨p, ?_, hf, heq⟩
        rw [List.flatMap_cons]
        exact List.mem_append_right _ hp
    · intro ⟨p, hp, u, hu⟩ res hok
      rw [hstep] at hok
      rw [List.flatMap_cons] at hp
      cases hinner : getPropagationBatchInner m target egIntf.ID
          (getNBestFor m.backend N src target igIntfG neigh) batch with
      | error e2 =>
        rw [hinner] at hok
        cases hok
      | ok batch2 =>
        rw [hinner] at hok
        rcases List.mem_append.mp hp with hp1 | hp2
        · obtain ⟨b, hb, hpb⟩ := List.mem_map.mp hp1
          subst hpb
          exact (getPropagationBatchInner_spec m target egIntf.ID _ batch).2
            ⟨b, hb, u, hu⟩ batch2 hinner
        · exact (ih batch2).2 ⟨p, hp2, u, hu⟩ res hok

/-- Behaviour of the outer loop over the ingress interface groups. -/
theorem getPropagationBatchOuter_spec (m : Mechanism M) (N : Nat) (target : Target)
    (egIntfG : List Interface) (neigh src : IA) :
    ∀ (groups : List (List Interface)) (batch : List Beacon),
      (∀ e, getPropagationBatchOuter m N target egIntfG neigh src groups batch = .error e →
        ∃ p ∈ groups.flatMap (fun igIntfG => egIntfG.flatMap (fun egIntf =>
            (getNBestFor m.backend N src target igIntfG neigh).map (fun bcn => (egIntf.ID, bcn)))),
          (∃ u, m.Extend p.2.Segment p.2.InIfId p.1 = .error u) ∧
          e = { ingress := p.2.InIfId, egress := p.1, seg := p.2.Segment }) ∧
      ((∃ p ∈ groups.flatMap (fun igIntfG => egIntfG.flatMap (fun egIntf =>
            (getNBestFor m.backend N src target igIntfG neigh).map (fun bcn => (egIntf.ID, bcn)))),
          ∃ u, m.Extend p.2.Segment p.2.InIfId p.1 = .error u) →
        ∀ res, getPropagationBatchOuter m N target egIntfG neigh src groups batch ≠ .ok res) := by
  intro groups
  induction groups with
  | nil =>
    intro batch
    constructor
    · intro e he
      exact absurd he (by intro h; cases h)
    · intro ⟨p, hp, _⟩
      simp at hp
  | cons igIntfG rest ih =>
    intro batch
    have hstep : getPropagationBatchOuter m N target egIntfG neigh src (igIntfG :: rest) batch =
        (match getPropagationBatchMid m N target igIntfG neigh src egIntfG batch with
         | .error e => .error e
         | .ok batch2 => getPropagationBatchOuter m N target egIntfG neigh src rest batch2) := rfl
    constructor
    · intro e he
      rw [hstep] at he
      cases hmid : getPropagationBatchMid m N target igIntfG neigh src egIntfG batch with
      | error e2 =>
        rw [hmid] at he
        obtain ⟨p, hp, hf, heq⟩ :=
          (getPropagationBatchMid_spec m N target igIntfG neigh src egIntfG batch).1 e2 hmid
        refine ⟨p, ?_, hf, (Except.error.inj he).symm.trans heq⟩
        rw [List.flatMap_cons]
        exact List.mem_append_left _ hp
      | ok batch2 =>
        rw [hmid] at he
        obtain ⟨p, hp, hf, heq⟩ := (ih batch2).1 e he
        refine ⟨p, ?_, hf, heq⟩
        rw [List.flatMap_cons]
        exact List.mem_append_right _ hp
    · intro ⟨p, hp, u, hu⟩ res hok
      rw [hstep] at hok
      rw [List.flatMap_cons] at hp
      cases hmid : getPropagationBatchMid m N target igIntfG neigh src egIntfG batch with
      | error e2 =>
        rw [hmid] at hok
        cases hok
      | ok batch2 =>
        rw [hmid] at hok
        rcases List.mem_append.mp hp with hp1 | hp2
        · exact (getPropagationBatchMid_spec m N target igIntfG neigh src egIntfG batch).2
            ⟨p, hp1, u, hu⟩ batch2 hmid
        · exact (ih batch2).2 ⟨p, hp2, u, hu⟩ res hok

/-- C7: if the extension primitive fails on any candidate the loops visit, the
whole getPropagationBatch call fails — no partial batch is ever returned as a
success — and any error it returns is the wrapped context (ingress interface,
egress interface, segment) of a visited candidate whose extension failed. -/
theorem C7_extension_failure_aborts_batch (m : Mechanism M) (N : Nat) (target : Target)
    (egIntfG : List Interface) (neigh src : IA) :
    (∀ e, getPropagationBatch m N target egIntfG neigh src = .error e →
      ∃ p ∈ propagationWorkItems m N target egIntfG neigh src,
        (∃ u, m.Extend p.2.Segment p.2.InIfId p.1 = .error u) ∧
        e = { ingress := p.2.InIfId, egress := p.1, seg := p.2.Segment }) ∧
    ((∃ p ∈ propagationWorkItems m N target egIntfG neigh src,
        ∃ u, m.Extend p.2.Segment p.2.InIfId p.1 = .error u) →
      ∀ batch, getPropagationBatch m N target egIntfG neigh src ≠ .ok batch) := by
  have hstep : getPropagationBatch m N target egIntfG neigh src =
      (match getPropagationBatchOuter m N target egIntfG neigh src (getIntfGroups m target) [] with
       | .error e => .error e
       | .ok batch => .ok (getNBest m.backend N target batch)) := rfl
  constructor
  · intro e he
    rw [hstep] at he
    cases houter : getPropagationBatchOuter m N target egIntfG neigh src (getIntfGroups m target) [] with
    | error e2 =>
      rw [houter] at he
      obtain ⟨p, hp, hf, heq⟩ :=
        (getPropagationBatchOuter_spec m N target egIntfG neigh src _ []).1 e2 houter
      exact ⟨p, hp, hf, (Except.error.inj he).symm.trans heq⟩
    | ok batch =>
      rw [houter] at he
      cases he
  · intro hfail batch hok
    rw [hstep] at hok
    cases houter : getPropagationBatchOuter m N target egIntfG neigh src (getIntfGroups m target) [] with
    | error e2 =>
      rw [houter] at hok
      cases hok
    | ok batch2 =>
      exact (getPropagationBatchOuter_spec m N target egIntfG neigh src _ []).2 hfail batch2 houter

/-- Mechanism for the C7 witness: one interface group, one egress interface,
one candidate beacon (bC6 through bkC6), and an extension primitive that
always fails. -/
def mC7 : Mechanism Nat :=
  { backend := bkC6
    Extend := fun _ _ _ => .error ()
    AllInterfaces := [⟨4, ⟨2, 2⟩⟩]
    GetInterfaceGroups := fun _ _ => [[⟨4, ⟨2, 2⟩⟩]] }

/-- Witness for C7: with the always-failing extender of mC7 and a nonempty
work list, getPropagationBatch never returns a batch. -/
theorem C7_extension_failure_aborts_batch_witness :
    ∀ batch, getPropagationBatch mC7 7 exTarget [⟨4, ⟨2, 2⟩⟩] ⟨9, 9⟩ ⟨1, 1⟩ ≠ .ok batch :=
  (C7_extension_failure_aborts_batch mC7 7 exTarget [⟨4, ⟨2, 2⟩⟩] ⟨9, 9⟩ ⟨1, 1⟩).2
    ⟨(4, bC6), by decide, (), rfl⟩

/-
  Correctness of the embedded sort: the output is ordered ascending under the
  comparator whenever the comparator is a strict weak order, which is what the
  spec requires of Quality.Less (a total preorder over the metric). The
  development proves each stdlib component sorts its range and only permutes
  within it, then lifts the result to getNBest and GetNBestsForGroup.
-/

/-- Asymmetry of the comparator: of two elements, at most one is less than the
other. Part of the strict-weak-order contract Go sort requires of less. -/
def LtAsymm (lt : α → α → Bool) : Prop :=
  ∀ u v, lt u v = true → lt v u = false

/-- Transitivity of not-less (equivalently, of the induced total preorder).
The other part of the strict-weak-order contract. -/
def LtNegTrans (lt : α → α → Bool) : Prop :=
  ∀ u v w, lt v u = false → lt w v = false → lt w u = false

/-- A range [a, b) of the slice is sorted ascending when no later element is
less than an earlier one. -/
def SortedRange (lt : α → α → Bool) [Inhabited α] (arr : List α) (a b : Nat) : Prop :=
  ∀ i j, a ≤ i → i < j → j < b → lt (nth arr j) (nth arr i) = false

/-- The result arises from the input by changes confined to [a, b): the length
is unchanged, cells outside [a, b) are unchanged, and every cell inside [a, b)
holds a value that some cell inside [a, b) held before. -/
def SwapsWithin [Inhabited α] (a b : Nat) (arr arr2 : List α) : Prop :=
  arr2.length = arr.length ∧
  (∀ k, k < a ∨ b ≤ k → nth arr2 k = nth arr k) ∧
  (∀ i, a ≤ i → i < b → ∃ j, a ≤ j ∧ j < b ∧ nth arr2 i = nth arr j)

theorem swapsWithin_refl [Inhabited α] (a b : Nat) (arr : List α) :
    SwapsWithin a b arr arr :=
  ⟨rfl, fun _ _ => rfl, fun i hai hib => ⟨i, hai, hib, rfl⟩⟩

theorem swapsWithin_trans [Inhabited α] {a b : Nat} {arr1 arr2 arr3 : List α}
    (h1 : SwapsWithin a b arr1 arr2) (h2 : SwapsWithin a b arr2 arr3) :
    SwapsWithin a b arr1 arr3 := by
  obtain ⟨hl1, hf1, hc1⟩ := h1
  obtain ⟨hl2, hf2, hc2⟩ := h2
  refine ⟨hl2.trans hl1, fun k hk => (hf2 k hk).trans (hf1 k hk), fun i hai hib => ?_⟩
  obtain ⟨j, haj, hjb, hj⟩ := hc2 i hai hib
  obtain ⟨j2, haj2, hj2b, hj2⟩ := hc1 j haj hjb
  exact ⟨j2, haj2, hj2b, hj.trans hj2⟩

theorem swapsWithin_mono [Inhabited α] {a b a2 b2 : Nat} {arr arr2 : List α}
    (h : SwapsWithin a b arr arr2) (ha : a2 ≤ a) (hb : b ≤ b2) :
    SwapsWithin a2 b2 arr arr2 := by
  obtain ⟨hl, hf, hc⟩ := h
  refine ⟨hl, fun k hk => hf k (by omega), fun i hai hib => ?_⟩
  by_cases hin : a ≤ i ∧ i < b
  · obtain ⟨j, haj, hjb, hj⟩ := hc i hin.1 hin.2
    exact ⟨j, by omega, by omega, hj⟩
  · exact ⟨i, hai, hib, hf i (by omega)⟩

theorem length_setN : ∀ (l : List α) (i : Nat) (y : α), (setN l i y).length = l.length := by
  intro l
  induction l with
  | nil => intro i y; rfl
  | cons x xs ih =>
    intro i y
    cases i with
    | zero => rfl
    | succ n => simp [setN, ih]

theorem nth_setN_ne [Inhabited α] :
    ∀ (l : List α) (i k : Nat) (y : α), k ≠ i → nth (setN l i y) k = nth l k := by
  intro l
  induction l with
  | nil => intro i k y _; rfl
  | cons x xs ih =>
    intro i k y hk
    cases i with
    | zero =>
      cases k with
      | zero => exact absurd rfl hk
      | succ n => rfl
    | succ n =>
      cases k with
      | zero => rfl
      | succ n2 => exact ih n n2 y (by omega)

theorem nth_setN_eq [Inhabited α] :
    ∀ (l : List α) (i : Nat) (y : α), i < l.length → nth (setN l i y) i = y := by
  intro l
  induction l with
  | nil => intro i y h; cases h
  | cons x xs ih =>
    intro i y h
    cases i with
    | zero => rfl
    | succ n => exact ih n y (by simpa using h)

theorem length_swapGo [Inhabited α] (l : List α) (i j : Nat) :
    (swapGo l i j).length = l.length := by
  unfold swapGo
  split
  · simp [length_setN]
  · rfl

theorem nth_swapGo_fst [Inhabited α] (l : List α) {i j : Nat}
    (hi : i < l.length) (hj : j < l.length) : nth (swapGo l i j) i = nth l j := by
  unfold swapGo
  rw [if_pos ⟨hi, hj⟩]
  by_cases hij : i = j
  · subst hij
    rw [nth_setN_eq _ _ _ (by simpa [length_setN] using hi)]
  · rw [nth_setN_ne _ _ _ _ hij, nth_setN_eq _ _ _ hi]

theorem nth_swapGo_snd [Inhabited α] (l : List α) {i j : Nat}
    (hi : i < l.length) (hj : j < l.length) : nth (swapGo l i j) j = nth l i := by
  unfold swapGo
  rw [if_pos ⟨hi, hj⟩]
  rw [nth_setN_eq _ _ _ (by simpa [length_setN] using hj)]

theorem nth_swapGo_other [Inhabited α] (l : List α) {i j k : Nat}
    (hki : k ≠ i) (hkj : k ≠ j) : nth (swapGo l i j) k = nth l k := by
  unfold swapGo
  split
  · rw [nth_setN_ne _ _ _ _ hkj, nth_setN_ne _ _ _ _ hki]
  · rfl

theorem swapsWithin_swapGo [Inhabited α] {a b i j : Nat} (arr : List α)
    (hai : a ≤ i) (hib : i < b) (haj : a ≤ j) (hjb : j < b) (hb : b ≤ arr.length) :
    SwapsWithin a b arr (swapGo arr i j) := by
  have hi : i < arr.length := by omega
  have hj : j < arr.length := by omega
  refine ⟨length_swapGo arr i j, fun k hk => nth_swapGo_other arr (by omega) (by omega),
    fun k hak hkb => ?_⟩
  by_cases hki : k = i
  · subst hki
    exact ⟨j, haj, hjb, nth_swapGo_fst arr hi hj⟩
  · by_cases hkj : k = j
    · subst hkj
      exact ⟨i, hai, hib, nth_swapGo_snd arr hi hj⟩
    · exact ⟨k, hak, hkb, nth_swapGo_other arr hki hkj⟩

/-- Pointwise facts about the cells of a range survive anything that only
swaps within the range. -/
theorem swapsWithin_pointwise [Inhabited α] {a b : Nat} {arr arr2 : List α}
    (h : SwapsWithin a b arr arr2) (P : α → Prop)
    (hp : ∀ k, a ≤ k → k < b → P (nth arr k)) :
    ∀ k, a ≤ k → k < b → P (nth arr2 k) := by
  intro k hak hkb
  obtain ⟨j, haj, hjb, hj⟩ := h.2.2 k hak hkb
  rw [hj]
  exact hp j haj hjb

/-- The inner insertion loop: starting from cell v inside a gap-sorted prefix,
it produces a range sorted up to i and only swaps within [a, i+1). The gap
invariant says cells [a, i] are pairwise ordered ignoring cell v, and the
value at v is strictly less than every value strictly between v and i. -/
theorem insertionSortInner_spec [Inhabited α] {lt : α → α → Bool}
    (A1 : LtAsymm lt) (A2 : LtNegTrans lt) (a i : Nat) :
    ∀ v arr, a ≤ v → v ≤ i → i < arr.length →
    (∀ p q, a ≤ p → p < q → q ≤ i → p ≠ v → q ≠ v →
      lt (nth arr q) (nth arr p) = false) →
    (∀ q, v < q → q ≤ i → lt (nth arr v) (nth arr q) = true) →
    SortedRange lt (insertionSortInner lt a arr v) a (i + 1) ∧
    SwapsWithin a (i + 1) arr (insertionSortInner lt a arr v) := by
  intro v
  induction v with
  | zero =>
    intro arr hav hvi hil hg1 hg2
    have hres : insertionSortInner lt a arr 0 = arr := rfl
    rw [hres]
    refine ⟨?_, swapsWithin_refl _ _ _⟩
    intro p q hap hpq hqi
    have ha0 : a = 0 := by omega
    by_cases hp0 : p = 0
    · subst hp0
      exact A1 _ _ (hg2 q (by omega) (by omega))
    · exact hg1 p q hap hpq (by omega) (by omega) (by omega)
  | succ w ih =>
    intro arr hav hvi hil hg1 hg2
    have hres : insertionSortInner lt a arr (w + 1) =
        if a < w + 1 && lt (nth arr (w + 1)) (nth arr w) then
          insertionSortInner lt a (swapGo arr (w + 1) w) w
        else arr := rfl
    rw [hres]
    by_cases hcond : a < w + 1 ∧ lt (nth arr (w + 1)) (nth arr w) = true
    · obtain ⟨hc1, hc2⟩ := hcond
      rw [if_pos (by simp [hc1, hc2])]
      have hw1 : w + 1 < arr.length := by omega
      have hw : w < arr.length := by omega
      have e1 : nth (swapGo arr (w + 1) w) (w + 1) = nth arr w :=
        nth_swapGo_fst arr hw1 hw
      have e2 : nth (swapGo arr (w + 1) w) w = nth arr (w + 1) :=
        nth_swapGo_snd arr hw1 hw
      have e3 : ∀ k, k ≠ w + 1 → k ≠ w → nth (swapGo arr (w + 1) w) k = nth arr k :=
        fun k h1 h2 => nth_swapGo_other arr h1 h2
      have hlen2 : (swapGo arr (w + 1) w).length = arr.length := length_swapGo arr _ _
      have hmain := ih (swapGo arr (w + 1) w) (by omega) (by omega) (by omega)
        (by
          intro p q hap hpq hqi hpw hqw
          by_cases hq1 : q = w + 1
          · subst hq1
            rw [e1, e3 p (by omega) hpw]
            exact hg1 p w hap (by omega) (by omega) (by omega) (by omega)
          · by_cases hp1 : p = w + 1
            · subst hp1
              rw [e1, e3 q hq1 hqw]
              exact hg1 w q (by omega) (by omega) hqi (by omega) hq1
            · rw [e3 p hp1 hpw, e3 q hq1 hqw]
              exact hg1 p q hap hpq hqi hp1 hq1)
        (by
          intro q hwq hqi
          rw [e2]
          by_cases hq1 : q = w + 1
          · subst hq1
            rw [e1]
            exact hc2
          · rw [e3 q hq1 (by omega)]
            exact hg2 q (by omega) hqi)
      refine ⟨hmain.1, swapsWithin_trans ?_ hmain.2⟩
      exact swapsWithin_swapGo arr (by omega) (by omega) (by omega) (by omega) (by omega)
    · have hbf : (a < w + 1 && lt (nth arr (w + 1)) (nth arr w)) = false := by
        cases hL : lt (nth arr (w + 1)) (nth arr w) with
        | false => simp [hL]
        | true =>
          have hnlt : ¬ a < w + 1 := fun hlt => hcond ⟨hlt, hL⟩
          simp [hL, hnlt]
      rw [hbf, if_neg (by simp)]
      refine ⟨?_, swapsWithin_refl _ _ _⟩
      by_cases haw : a < w + 1
      · have hlt : lt (nth arr (w + 1)) (nth arr w) = false := by
          cases hL : lt (nth arr (w + 1)) (nth arr w) with
          | false => rfl
          | true => exact absurd ⟨haw, hL⟩ hcond
        intro p q hap hpq hqi
        by_cases hqv : q = w + 1
        · subst hqv
          by_cases hpw : p = w
          · subst hpw; exact hlt
          · have hstep : lt (nth arr w) (nth arr p) = false :=
              hg1 p w hap (by omega) (by omega) (by omega) (by omega)
            exact A2 _ _ _ hstep hlt
        · by_cases hpv : p = w + 1
          · subst hpv
            exact A1 _ _ (hg2 q (by omega) (by omega))
          · exact hg1 p q hap hpq (by omega) hpv hqv
      · have havw : a = w + 1 := by omega
        intro p q hap hpq hqi
        by_cases hpv : p = w + 1
        · subst hpv
          exact A1 _ _ (hg2 q (by omega) (by omega))
        · exact hg1 p q hap hpq (by omega) hpv (by omega)

/-- The outer insertion loop extends the sorted prefix one cell at a time. -/
theorem insertionSortOuter_spec [Inhabited α] {lt : α → α → Bool}
    (A1 : LtAsymm lt) (A2 : LtNegTrans lt) (a b : Nat) :
    ∀ fuel i arr, b ≤ arr.length → SortedRange lt arr a i → b - i ≤ fuel →
    SortedRange lt (insertionSortOuter lt a b arr i fuel) a b ∧
    SwapsWithin a b arr (insertionSortOuter lt a b arr i fuel) := by
  intro fuel
  induction fuel with
  | zero =>
    intro i arr hb hs hf
    have hres : insertionSortOuter lt a b arr i 0 = arr := rfl
    rw [hres]
    exact ⟨fun p q hap hpq hqb => hs p q hap hpq (by omega), swapsWithin_refl _ _ _⟩
  | succ fuel ih =>
    intro i arr hb hs hf
    have hres : insertionSortOuter lt a b arr i (fuel + 1) =
        if i < b then
          insertionSortOuter lt a b (insertionSortInner lt a arr i) (i + 1) fuel
        else arr := rfl
    rw [hres]
    by_cases hib : i < b
    · rw [if_pos hib]
      by_cases hai : a ≤ i
      · have hinner := insertionSortInner_spec A1 A2 a i i arr hai (le_refl i) (by omega)
          (fun p q hap hpq hqi hpv hqv => hs p q hap hpq (by omega))
          (fun q hq hqi => by omega)
        have houter := ih (i + 1) (insertionSortInner lt a arr i)
          (by rw [hinner.2.1]; exact hb) hinner.1 (by omega)
        refine ⟨houter.1, swapsWithin_trans (swapsWithin_mono hinner.2 (le_refl a) hib) houter.2⟩
      · have hinner : insertionSortInner lt a arr i = arr := by
          cases i with
          | zero => rfl
          | succ w =>
            have : insertionSortInner lt a arr (w + 1) =
                if a < w + 1 && lt (nth arr (w + 1)) (nth arr w) then
                  insertionSortInner lt a (swapGo arr (w + 1) w) w
                else arr := rfl
            rw [this, if_neg]
            simp only [Bool.and_eq_true, decide_eq_true_eq, not_and]
            intro hcon
            omega
        rw [hinner]
        have houter := ih (i + 1) arr hb
          (fun p q hap hpq hqi => by omega) (by omega)
        exact houter
    · rw [if_neg hib]
      exact ⟨fun p q hap hpq hqb => hs p q hap hpq (by omega), swapsWithin_refl _ _ _⟩

/-- Go insertionSort(data, a, b) sorts the range [a, b) and only permutes
cells inside it. -/
theorem insertionSortGo_spec [Inhabited α] {lt : α → α → Bool}
    (A1 : LtAsymm lt) (A2 : LtNegTrans lt) (arr : List α) (a b : Nat)
    (hb : b ≤ arr.length) :
    SortedRange lt (insertionSortGo lt arr a b) a b ∧
    SwapsWithin a b arr (insertionSortGo lt arr a b) := by
  unfold insertionSortGo
  exact insertionSortOuter_spec A1 A2 a b (b - a) (a + 1) arr hb
    (fun p q hap hpq hq => by omega) (by omega)

/-- The gap-6 shell pass only swaps cells inside [a, b). -/
theorem shellPassLoop_swaps [Inhabited α] (lt : α → α → Bool) (a b : Nat) :
    ∀ fuel i arr, a + 6 ≤ i → b ≤ arr.length →
    SwapsWithin a b arr (shellPassLoop lt b arr i fuel) := by
  intro fuel
  induction fuel with
  | zero => intro i arr hi hb; exact swapsWithin_refl _ _ _
  | succ fuel ih =>
    intro i arr hi hb
    have hres : shellPassLoop lt b arr i (fuel + 1) =
        if i < b then
          shellPassLoop lt b
            (if lt (nth arr i) (nth arr (i - 6)) then swapGo arr i (i - 6) else arr)
            (i + 1) fuel
        else arr := rfl
    rw [hres]
    by_cases hib : i < b
    · rw [if_pos hib]
      by_cases hsw : lt (nth arr i) (nth arr (i - 6)) = true
      · rw [if_pos hsw]
        refine swapsWithin_trans
          (@swapsWithin_swapGo _ _ a b i (i - 6) arr (by omega) hib (by omega) (by omega) hb) ?_
        exact ih (i + 1) _ (by omega) (by rw [length_swapGo]; exact hb)
      · rw [if_neg hsw]
        exact ih (i + 1) arr (by omega) hb
    · rw [if_neg hib]
      exact swapsWithin_refl _ _ _

/-- Max-heap property over the range of length hi starting at first, for all
parents at heap index at least k. -/
def HeapLo [Inhabited α] (lt : α → α → Bool) (arr : List α) (first hi k : Nat) : Prop :=
  ∀ r c, k ≤ r → (c = 2 * r + 1 ∨ c = 2 * r + 2) → c < hi →
    lt (nth arr (first + r)) (nth arr (first + c)) = false

theorem lt_irrefl_of_asymm {lt : α → α → Bool} (A1 : LtAsymm lt) (x : α) :
    lt x x = false := by
  cases hxx : lt x x with
  | false => rfl
  | true =>
    have h := A1 x x hxx
    rw [hxx] at h
    cases h

/-- One sift step: swapping the root with its not-smaller child preserves the
walk invariants, with the child as the new exceptional node. W1 is the heap
property for all parents at least k except the walk node; W2 dominates the
walk node's children from its parent. -/
theorem siftDown_swap_invariants [Inhabited α] {lt : α → α → Bool}
    (A1 : LtAsymm lt) (hi first k root cc : Nat) (arr : List α)
    (hlen : first + hi ≤ arr.length) (hkr : k ≤ root)
    (hcc : cc = 2 * root + 1 ∨ cc = 2 * root + 2) (hcchi : cc < hi)
    (hmc : ∀ oc, (oc = 2 * root + 1 ∨ oc = 2 * root + 2) → oc < hi → oc ≠ cc →
      lt (nth arr (first + cc)) (nth arr (first + oc)) = false)
    (hswap : lt (nth arr (first + root)) (nth arr (first + cc)) = true)
    (W1 : ∀ r c, k ≤ r → (c = 2 * r + 1 ∨ c = 2 * r + 2) → c < hi → r ≠ root →
      lt (nth arr (first + r)) (nth arr (first + c)) = false)
    (W2 : ∀ p c, k ≤ p → (root = 2 * p + 1 ∨ root = 2 * p + 2) →
      (c = 2 * root + 1 ∨ c = 2 * root + 2) → c < hi →
      lt (nth arr (first + p)) (nth arr (first + c)) = false) :
    (∀ r c, k ≤ r → (c = 2 * r + 1 ∨ c = 2 * r + 2) → c < hi → r ≠ cc →
      lt (nth (swapGo arr (first + root) (first + cc)) (first + r))
         (nth (swapGo arr (first + root) (first + cc)) (first + c)) = false) ∧
    (∀ p c, k ≤ p → (cc = 2 * p + 1 ∨ cc = 2 * p + 2) →
      (c = 2 * cc + 1 ∨ c = 2 * cc + 2) → c < hi →
      lt (nth (swapGo arr (first + root) (first + cc)) (first + p))
         (nth (swapGo arr (first + root) (first + cc)) (first + c)) = false) := by
  have hrootlen : first + root < arr.length := by omega
  have hcclen : first + cc < arr.length := by omega
  have eR : nth (swapGo arr (first + root) (first + cc)) (first + root) =
      nth arr (first + cc) := nth_swapGo_fst arr hrootlen hcclen
  have eC : nth (swapGo arr (first + root) (first + cc)) (first + cc) =
      nth arr (first + root) := nth_swapGo_snd arr hrootlen hcclen
  have eO : ∀ x, x ≠ first + root → x ≠ first + cc →
      nth (swapGo arr (first + root) (first + cc)) x = nth arr x :=
    fun x h1 h2 => nth_swapGo_other arr h1 h2
  constructor
  · intro r c hkr2 hrel hchi hrne
    by_cases hr : r = root
    · subst hr
      by_cases hcq : c = cc
      · subst hcq
        rw [eR, eC]
        exact A1 _ _ hswap
      · rw [eR, eO (first + c) (by omega) (by omega)]
        exact hmc c hrel hchi (by omega)
    · have hrnec : first + r ≠ first + root := by omega
      by_cases hcroot : c = root
      · subst hcroot
        rw [eO (first + r) hrnec (by omega), eR]
        exact W2 r cc hkr2 hrel hcc hcchi
      · by_cases hccq : c = cc
        · subst hccq
          exfalso
          rcases hrel with h | h <;> rcases hcc with h2 | h2 <;> omega
        · rw [eO (first + r) hrnec (by omega), eO (first + c) (by omega) (by omega)]
          exact W1 r c hkr2 hrel hchi hr
  · intro p c hkp hpar hrel hchi
    have hproot : p = root := by rcases hpar with h | h <;> rcases hcc with h2 | h2 <;> omega
    subst hproot
    rw [eR, eO (first + c) (by omega) (by omega)]
    exact W1 cc c (by omega) hrel hchi (by omega)

/-- The sift-down walk of Go heapSort restores the heap property at the walk
root, given it holds everywhere else among parents at least k, and only swaps
inside the heap range. -/
theorem siftDownLoop_spec [Inhabited α] {lt : α → α → Bool}
    (A1 : LtAsymm lt) (A2 : LtNegTrans lt) (hi first k : Nat) :
    ∀ fuel root arr, first + hi ≤ arr.length → k ≤ root → hi - root ≤ fuel →
    (∀ r c, k ≤ r → (c = 2 * r + 1 ∨ c = 2 * r + 2) → c < hi → r ≠ root →
      lt (nth arr (first + r)) (nth arr (first + c)) = false) →
    (∀ p c, k ≤ p → (root = 2 * p + 1 ∨ root = 2 * p + 2) →
      (c = 2 * root + 1 ∨ c = 2 * root + 2) → c < hi →
      lt (nth arr (first + p)) (nth arr (first + c)) = false) →
    HeapLo lt (siftDownLoop lt hi first arr root fuel) first hi k ∧
    SwapsWithin first (first + hi) arr (siftDownLoop lt hi first arr root fuel) := by
  intro fuel
  induction fuel with
  | zero =>
    intro root arr hlen hkr hfuel W1 W2
    have hres : siftDownLoop lt hi first arr root 0 = arr := rfl
    rw [hres]
    refine ⟨?_, swapsWithin_refl _ _ _⟩
    intro r c hkr2 hrel hchi
    exact W1 r c hkr2 hrel hchi (by omega)
  | succ fuel ih =>
    intro root arr hlen hkr hfuel W1 W2
    have hres : siftDownLoop lt hi first arr root (fuel + 1) =
        (if 2 * root + 1 ≥ hi then arr
         else
           if !(lt (nth arr (first + root)) (nth arr (first +
               (if 2 * root + 1 + 1 < hi &&
                   lt (nth arr (first + (2 * root + 1))) (nth arr (first + (2 * root + 1) + 1))
                then 2 * root + 1 + 1 else 2 * root + 1)))) then arr
           else siftDownLoop lt hi first
             (swapGo arr (first + root) (first +
               (if 2 * root + 1 + 1 < hi &&
                   lt (nth arr (first + (2 * root + 1))) (nth arr (first + (2 * root + 1) + 1))
                then 2 * root + 1 + 1 else 2 * root + 1)))
             (if 2 * root + 1 + 1 < hi &&
                 lt (nth arr (first + (2 * root + 1))) (nth arr (first + (2 * root + 1) + 1))
              then 2 * root + 1 + 1 else 2 * root + 1) fuel) := rfl
    rw [hres]
    by_cases hge : 2 * root + 1 ≥ hi
    · rw [if_pos hge]
      refine ⟨?_, swapsWithin_refl _ _ _⟩
      intro r c hkr2 hrel hchi
      by_cases hr : r = root
      · subst hr; omega
      · exact W1 r c hkr2 hrel hchi hr
    · rw [if_neg hge]
      by_cases hsel : (2 * root + 1 + 1 < hi &&
          lt (nth arr (first + (2 * root + 1))) (nth arr (first + (2 * root + 1) + 1))) = true
      · rw [if_pos hsel]
        simp only [Bool.and_eq_true, decide_eq_true_eq] at hsel
        have hmc : ∀ oc, (oc = 2 * root + 1 ∨ oc = 2 * root + 2) → oc < hi →
            oc ≠ 2 * root + 1 + 1 →
            lt (nth arr (first + (2 * root + 1 + 1))) (nth arr (first + oc)) = false := by
          intro oc hrel hochi hocne
          have hoc : oc = 2 * root + 1 := by omega
          subst hoc
          exact A1 _ _ hsel.2
        by_cases hswap : lt (nth arr (first + root)) (nth arr (first + (2 * root + 1 + 1))) = true
        · rw [if_neg (by simp [hswap])]
          obtain ⟨N1, N2⟩ := siftDown_swap_invariants A1 hi first k root (2 * root + 1 + 1)
            arr hlen hkr (by omega) (by omega) hmc hswap W1 W2
          have hrec := ih (2 * root + 1 + 1) (swapGo arr (first + root) (first + (2 * root + 1 + 1)))
            (by rw [length_swapGo]; exact hlen) (by omega) (by omega) N1 N2
          refine ⟨hrec.1, swapsWithin_trans ?_ hrec.2⟩
          exact @swapsWithin_swapGo _ _ first (first + hi) (first + root)
            (first + (2 * root + 1 + 1)) arr (by omega) (by omega) (by omega) (by omega) hlen
        · have hswf : lt (nth arr (first + root)) (nth arr (first + (2 * root + 1 + 1))) = false := by
            cases h : lt (nth arr (first + root)) (nth arr (first + (2 * root + 1 + 1))) with
            | false => rfl
            | true => exact absurd h hswap
          rw [if_pos (by simp [hswf])]
          refine ⟨?_, swapsWithin_refl _ _ _⟩
          intro r c hkr2 hrel hchi
          by_cases hr : r = root
          · subst hr
            by_cases hcq : c = 2 * r + 1 + 1
            · subst hcq; exact hswf
            · exact A2 _ _ _ (hmc c hrel hchi hcq) hswf
          · exact W1 r c hkr2 hrel hchi hr
      · rw [if_neg hsel]
        have hmc : ∀ oc, (oc = 2 * root + 1 ∨ oc = 2 * root + 2) → oc < hi →
            oc ≠ 2 * root + 1 →
            lt (nth arr (first + (2 * root + 1))) (nth arr (first + oc)) = false := by
          intro oc hrel hochi hocne
          have hoc : oc = 2 * root + 2 := by omega
          have hns : ¬ (2 * root + 1 + 1 < hi ∧
              lt (nth arr (first + (2 * root + 1))) (nth arr (first + (2 * root + 1) + 1)) = true) := by
            intro hcon
            exact hsel (by simp [hcon.1, hcon.2])
          subst hoc
          cases h : lt (nth arr (first + (2 * root + 1))) (nth arr (first + (2 * root + 2))) with
          | false => rfl
          | true =>
            exfalso
            exact hns ⟨by omega, by
              have : first + (2 * root + 1) + 1 = first + (2 * root + 2) := by omega
              rw [this]
              exact h⟩
        by_cases hswap : lt (nth arr (first + root)) (nth arr (first + (2 * root + 1))) = true
        · rw [if_neg (by simp [hswap])]
          obtain ⟨N1, N2⟩ := siftDown_swap_invariants A1 hi first k root (2 * root + 1)
            arr hlen hkr (by omega) (by omega) hmc hswap W1 W2
          have hrec := ih (2 * root + 1) (swapGo arr (first + root) (first + (2 * root + 1)))
            (by rw [length_swapGo]; exact hlen) (by omega) (by omega) N1 N2
          refine ⟨hrec.1, swapsWithin_trans ?_ hrec.2⟩
          exact @swapsWithin_swapGo _ _ first (first + hi) (first + root)
            (first + (2 * root + 1)) arr (by omega) (by omega) (by omega) (by omega) hlen
        · have hswf : lt (nth arr (first + root)) (nth arr (first + (2 * root + 1))) = false := by
            cases h : lt (nth arr (first + root)) (nth arr (first + (2 * root + 1))) with
            | false => rfl
            | true => exact absurd h hswap
          rw [if_pos (by simp [hswf])]
          refine ⟨?_, swapsWithin_refl _ _ _⟩
          intro r c hkr2 hrel hchi
          by_cases hr : r = root
          · subst hr
            by_cases hcq : c = 2 * r + 1
            · subst hcq; exact hswf
            · exact A2 _ _ _ (hmc c hrel hchi hcq) hswf
          · exact W1 r c hkr2 hrel hchi hr

/-- Go siftDown restores the heap property at the given root. -/
theorem siftDownGo_spec [Inhabited α] {lt : α → α → Bool}
    (A1 : LtAsymm lt) (A2 : LtNegTrans lt) (arr : List α) (lo hi first k : Nat)
    (hlen : first + hi ≤ arr.length) (hk : k ≤ lo)
    (W1 : ∀ r c, k ≤ r → (c = 2 * r + 1 ∨ c = 2 * r + 2) → c < hi → r ≠ lo →
      lt (nth arr (first + r)) (nth arr (first + c)) = false)
    (W2 : ∀ p c, k ≤ p → (lo = 2 * p + 1 ∨ lo = 2 * p + 2) →
      (c = 2 * lo + 1 ∨ c = 2 * lo + 2) → c < hi →
      lt (nth arr (first + p)) (nth arr (first + c)) = false) :
    HeapLo lt (siftDownGo lt arr lo hi first) first hi k ∧
    SwapsWithin first (first + hi) arr (siftDownGo lt arr lo hi first) := by
  unfold siftDownGo
  exact siftDownLoop_spec A1 A2 hi first k (hi + 1) lo arr hlen hk (by omega) W1 W2

/-- The heap construction loop establishes the heap property over the whole
range: processing root c under the property for parents above c yields it for
all parents. -/
theorem heapSortBuild_spec [Inhabited α] {lt : α → α → Bool}
    (A1 : LtAsymm lt) (A2 : LtNegTrans lt) (hi first : Nat) :
    ∀ c arr, first + hi ≤ arr.length → HeapLo lt arr first hi c →
    HeapLo lt (heapSortBuild lt hi first arr c) first hi 0 ∧
    SwapsWithin first (first + hi) arr (heapSortBuild lt hi first arr c) := by
  intro c
  induction c with
  | zero =>
    intro arr hlen hheap
    exact ⟨hheap, swapsWithin_refl _ _ _⟩
  | succ c ih =>
    intro arr hlen hheap
    have hres : heapSortBuild lt hi first arr (c + 1) =
        heapSortBuild lt hi first (siftDownGo lt arr c hi first) c := rfl
    rw [hres]
    have hsift := siftDownGo_spec A1 A2 arr c hi first c hlen (le_refl c)
      (fun r c2 hcr hrel hchi hrne => hheap r c2 (by omega) hrel hchi)
      (fun p c2 hcp hpar hrel hchi => by rcases hpar with h | h <;> omega)
    have hrec := ih (siftDownGo lt arr c hi first)
      (by rw [hsift.2.1]; exact hlen)
      (fun r c2 hcr hrel hchi => hsift.1 r c2 (by omega) hrel hchi)
    exact ⟨hrec.1, swapsWithin_trans hsift.2 hrec.2⟩

/-- In a max-heap the root is not less than any cell of the heap range. -/
theorem heap_root_max [Inhabited α] {lt : α → α → Bool}
    (A1 : LtAsymm lt) (A2 : LtNegTrans lt) (arr : List α) (first n : Nat)
    (h : HeapLo lt arr first n 0) :
    ∀ j, j < n → lt (nth arr first) (nth arr (first + j)) = false := by
  intro j
  induction j using Nat.strong_induction_on with
  | _ j ih =>
    intro hj
    cases j with
    | zero =>
      have : first + 0 = first := by omega
      rw [this]
      exact lt_irrefl_of_asymm A1 _
    | succ w =>
      have hpar : w + 1 = 2 * (w / 2) + 1 ∨ w + 1 = 2 * (w / 2) + 2 := by omega
      have hstep := h (w / 2) (w + 1) (by omega) hpar hj
      have hup := ih (w / 2) (by omega) (by omega)
      exact A2 _ _ _ hstep hup

/-- The extraction loop of Go heapSort: with a heap of size c, a sorted suffix
holding the larger values, it sorts the whole range. -/
theorem heapSortExtract_spec [Inhabited α] {lt : α → α → Bool}
    (A1 : LtAsymm lt) (A2 : LtNegTrans lt) (first hi0 : Nat) :
    ∀ c arr, c ≤ hi0 → first + hi0 ≤ arr.length →
    HeapLo lt arr first c 0 →
    SortedRange lt arr (first + c) (first + hi0) →
    (∀ p q, p < c → c ≤ q → q < hi0 →
      lt (nth arr (first + q)) (nth arr (first + p)) = false) →
    SortedRange lt (heapSortExtract lt first arr c) first (first + hi0) ∧
    SwapsWithin first (first + hi0) arr (heapSortExtract lt first arr c) := by
  intro c
  induction c with
  | zero =>
    intro arr hc hlen hheap hsorted hcross
    have hres : heapSortExtract lt first arr 0 = arr := rfl
    rw [hres]
    refine ⟨?_, swapsWithin_refl _ _ _⟩
    intro i j hfi hij hjb
    have e : first + 0 = first := by omega
    rw [e] at hsorted
    exact hsorted i j hfi hij hjb
  | succ c ih =>
    intro arr hc hlen hheap hsorted hcross
    have hres : heapSortExtract lt first arr (c + 1) =
        heapSortExtract lt first
          (siftDownGo lt (swapGo arr first (first + c)) 0 c first) c := rfl
    rw [hres]
    have hflen : first < arr.length := by omega
    have hfclen : first + c < arr.length := by omega
    have hrm := heap_root_max A1 A2 arr first (c + 1) hheap
    set arr2 := swapGo arr first (first + c) with harr2
    have e1 : nth arr2 first = nth arr (first + c) := nth_swapGo_fst arr hflen hfclen
    have e2 : nth arr2 (first + c) = nth arr first := nth_swapGo_snd arr hflen hfclen
    have e3 : ∀ x, x ≠ first → x ≠ first + c → nth arr2 x = nth arr x :=
      fun x h1 h2 => nth_swapGo_other arr h1 h2
    have hlen2 : arr2.length = arr.length := length_swapGo arr _ _
    -- the shrunken heap is a heap except possibly at its root
    have hw1 : ∀ r c2, 0 ≤ r → (c2 = 2 * r + 1 ∨ c2 = 2 * r + 2) → c2 < c → r ≠ 0 →
        lt (nth arr2 (first + r)) (nth arr2 (first + c2)) = false := by
      intro r c2 hr0 hrel hc2 hrne
      rw [e3 (first + r) (by omega) (by omega), e3 (first + c2) (by omega) (by omega)]
      exact hheap r c2 hr0 hrel (by omega)
    have hsift := siftDownGo_spec A1 A2 arr2 0 c first 0
      (by rw [hlen2]; omega) (le_refl 0) hw1
      (fun p c2 hp0 hpar hrel hchi => by rcases hpar with h | h <;> omega)
    set arr3 := siftDownGo lt arr2 0 c first with harr3
    have hlen3 : arr3.length = arr2.length := hsift.2.1
    -- cells at or beyond first + c are untouched by the sift
    have hframe3 : ∀ x, first + c ≤ x → nth arr3 x = nth arr2 x := by
      intro x hx
      exact hsift.2.2.1 x (Or.inr hx)
    -- the new sorted suffix of arr3 including cell first + c
    have hsorted3 : SortedRange lt arr3 (first + c) (first + hi0) := by
      intro i j hfi hij hjb
      rw [hframe3 i hfi, hframe3 j (by omega)]
      by_cases hic : i = first + c
      · subst hic
        rw [e2, e3 j (by omega) (by omega)]
        have h := hcross 0 (j - first) (by omega) (by omega) (by omega)
        have ej : first + (j - first) = j := by omega
        have e0 : first + 0 = first := by omega
        rw [ej, e0] at h
        exact h
      · rw [e3 i (by omega) hic, e3 j (by omega) (by omega)]
        exact hsorted i j (by omega) hij hjb
    -- cross property: every heap cell of arr3 is not greater than any suffix cell
    have hcross3 : ∀ p q, p < c → c ≤ q → q < hi0 →
        lt (nth arr3 (first + q)) (nth arr3 (first + p)) = false := by
      intro p q hp hq hqhi
      rw [hframe3 (first + q) (by omega)]
      have hq2 : nth arr2 (first + q) = (if q = c then nth arr first else nth arr (first + q)) := by
        by_cases hqc : q = c
        · subst hqc; rw [e2, if_pos rfl]
        · rw [e3 (first + q) (by omega) (by omega), if_neg hqc]
      -- the heap cell of arr3 holds some heap cell value of arr2
      have hcl := hsift.2.2.2 (first + p) (by omega) (by omega)
      obtain ⟨x, hx1, hx2, hx3⟩ := hcl
      rw [hx3, hq2]
      have hx2' : nth arr2 x = (if x = first then nth arr (first + c) else nth arr x) := by
        by_cases hxf : x = first
        · subst hxf; rw [e1, if_pos rfl]
        · rw [e3 x hxf (by omega), if_neg hxf]
      rw [hx2']
      by_cases hqc : q = c
      · rw [if_pos hqc]
        by_cases hxf : x = first
        · rw [if_pos hxf]
          exact hrm c (by omega)
        · rw [if_neg hxf]
          have e : x = first + (x - first) := by omega
          rw [e]
          exact hrm (x - first) (by omega)
      · rw [if_neg hqc]
        by_cases hxf : x = first
        · rw [if_pos hxf]
          exact hcross c q (by omega) (by omega) hqhi
        · rw [if_neg hxf]
          have e : x = first + (x - first) := by omega
          rw [e]
          exact hcross (x - first) q (by omega) (by omega) hqhi
    have hrec := ih arr3 (by omega) (by rw [hlen3, hlen2]; exact hlen)
      hsift.1 hsorted3 hcross3
    refine ⟨hrec.1, ?_⟩
    have hsw1 : SwapsWithin first (first + hi0) arr arr2 :=
      @swapsWithin_swapGo _ _ first (first + hi0) first (first + c) arr
        (le_refl first) (by omega) (by omega) (by omega) (by omega)
    have hsw2 : SwapsWithin first (first + hi0) arr2 arr3 :=
      swapsWithin_mono hsift.2 (le_refl first) (by omega)
    exact swapsWithin_trans hsw1 (swapsWithin_trans hsw2 hrec.2)

/-- Go heapSort(data, a, b) sorts [a, b) and only permutes inside it. -/
theorem heapSortGo_spec [Inhabited α] {lt : α → α → Bool}
    (A1 : LtAsymm lt) (A2 : LtNegTrans lt) (arr : List α) (a b : Nat)
    (hb : b ≤ arr.length) (hab : a ≤ b) :
    SortedRange lt (heapSortGo lt arr a b) a b ∧
    SwapsWithin a b arr (heapSortGo lt arr a b) := by
  have hres : heapSortGo lt arr a b =
      heapSortExtract lt a
        (heapSortBuild lt (b - a) a arr (((b - a) - 1) / 2 + 1)) (b - a) := rfl
  rw [hres]
  have hinit : HeapLo lt arr a (b - a) (((b - a) - 1) / 2 + 1) := by
    intro r c hr hrel hc
    omega
  have hbuild := heapSortBuild_spec A1 A2 (b - a) a (((b - a) - 1) / 2 + 1) arr
    (by omega) hinit
  set arrB := heapSortBuild lt (b - a) a arr (((b - a) - 1) / 2 + 1) with harrB
  have hlenB : arrB.length = arr.length := hbuild.2.1
  have hext := heapSortExtract_spec A1 A2 a (b - a) (b - a) arrB (le_refl _)
    (by omega) hbuild.1
    (fun i j hfi hij hjb => by omega)
    (fun p q hp hq hqhi => by omega)
  have he : a + (b - a) = b := by omega
  rw [he] at hext
  exact ⟨hext.1, swapsWithin_trans
    (by rw [← he]; exact hbuild.2) hext.2⟩

/-- Go medianOfThree(data, m1, m0, m2) leaves the cell at m0 not greater than
the cell at m1, which is not greater than the cell at m2, and only permutes
the three cells. -/
theorem medianOfThreeGo_spec [Inhabited α] {lt : α → α → Bool}
    (A1 : LtAsymm lt) (arr : List α) (a b m1 m0 m2 : Nat)
    (h1 : a ≤ m1) (h1b : m1 < b) (h0 : a ≤ m0) (h0b : m0 < b)
    (h2 : a ≤ m2) (h2b : m2 < b) (hb : b ≤ arr.length)
    (hne10 : m1 ≠ m0) (hne12 : m1 ≠ m2) (hne02 : m0 ≠ m2) :
    lt (nth (medianOfThreeGo lt arr m1 m0 m2) m1)
       (nth (medianOfThreeGo lt arr m1 m0 m2) m0) = false ∧
    lt (nth (medianOfThreeGo lt arr m1 m0 m2) m2)
       (nth (medianOfThreeGo lt arr m1 m0 m2) m1) = false ∧
    SwapsWithin a b arr (medianOfThreeGo lt arr m1 m0 m2) := by
  have hm1l : m1 < arr.length := by omega
  have hm0l : m0 < arr.length := by omega
  have hm2l : m2 < arr.length := by omega
  have hres : medianOfThreeGo lt arr m1 m0 m2 =
      (let arr1 := if lt (nth arr m1) (nth arr m0) then swapGo arr m1 m0 else arr
       if lt (nth arr1 m2) (nth arr1 m1) then
         let arr2 := swapGo arr1 m2 m1
         if lt (nth arr2 m1) (nth arr2 m0) then swapGo arr2 m1 m0 else arr2
       else arr1) := rfl
  rw [hres]
  -- values after the first conditional swap
  have step1 : ∀ arr1 : List α,
      arr1.length = arr.length →
      lt (nth arr1 m1) (nth arr1 m0) = false →
      SwapsWithin a b arr arr1 →
      (lt (nth (if lt (nth arr1 m2) (nth arr1 m1) then
          (if lt (nth (swapGo arr1 m2 m1) m1) (nth (swapGo arr1 m2 m1) m0) then
            swapGo (swapGo arr1 m2 m1) m1 m0 else swapGo arr1 m2 m1) else arr1) m1)
        (nth (if lt (nth arr1 m2) (nth arr1 m1) then
          (if lt (nth (swapGo arr1 m2 m1) m1) (nth (swapGo arr1 m2 m1) m0) then
            swapGo (swapGo arr1 m2 m1) m1 m0 else swapGo arr1 m2 m1) else arr1) m0) = false) ∧
      (lt (nth (if lt (nth arr1 m2) (nth arr1 m1) then
          (if lt (nth (swapGo arr1 m2 m1) m1) (nth (swapGo arr1 m2 m1) m0) then
            swapGo (swapGo arr1 m2 m1) m1 m0 else swapGo arr1 m2 m1) else arr1) m2)
        (nth (if lt (nth arr1 m2) (nth arr1 m1) then
          (if lt (nth (swapGo arr1 m2 m1) m1) (nth (swapGo arr1 m2 m1) m0) then
            swapGo (swapGo arr1 m2 m1) m1 m0 else swapGo arr1 m2 m1) else arr1) m1) = false) ∧
      SwapsWithin a b arr (if lt (nth arr1 m2) (nth arr1 m1) then
          (if lt (nth (swapGo arr1 m2 m1) m1) (nth (swapGo arr1 m2 m1) m0) then
            swapGo (swapGo arr1 m2 m1) m1 m0 else swapGo arr1 m2 m1) else arr1) := by
    intro arr1 hlen1 h01 hsw1
    have hm1l1 : m1 < arr1.length := by omega
    have hm0l1 : m0 < arr1.length := by omega
    have hm2l1 : m2 < arr1.length := by omega
    by_cases hc2 : lt (nth arr1 m2) (nth arr1 m1) = true
    · rw [if_pos hc2]
      have f1 : nth (swapGo arr1 m2 m1) m2 = nth arr1 m1 := nth_swapGo_fst arr1 hm2l1 hm1l1
      have f2 : nth (swapGo arr1 m2 m1) m1 = nth arr1 m2 := nth_swapGo_snd arr1 hm2l1 hm1l1
      have f3 : nth (swapGo arr1 m2 m1) m0 = nth arr1 m0 :=
        nth_swapGo_other arr1 (by omega) (by omega)
      have hlen2 : (swapGo arr1 m2 m1).length = arr1.length := length_swapGo arr1 _ _
      have hswB : SwapsWithin a b arr (swapGo arr1 m2 m1) :=
        swapsWithin_trans hsw1
          (@swapsWithin_swapGo _ _ a b m2 m1 arr1 h2 h2b h1 h1b (by omega))
      by_cases hc3 : lt (nth (swapGo arr1 m2 m1) m1) (nth (swapGo arr1 m2 m1) m0) = true
      · rw [if_pos hc3]
        have hm1l2 : m1 < (swapGo arr1 m2 m1).length := by omega
        have hm0l2 : m0 < (swapGo arr1 m2 m1).length := by omega
        have g1 : nth (swapGo (swapGo arr1 m2 m1) m1 m0) m1 = nth (swapGo arr1 m2 m1) m0 :=
          nth_swapGo_fst _ hm1l2 hm0l2
        have g2 : nth (swapGo (swapGo arr1 m2 m1) m1 m0) m0 = nth (swapGo arr1 m2 m1) m1 :=
          nth_swapGo_snd _ hm1l2 hm0l2
        have g3 : nth (swapGo (swapGo arr1 m2 m1) m1 m0) m2 = nth (swapGo arr1 m2 m1) m2 :=
          nth_swapGo_other _ (by omega) (by omega)
        rw [f2] at hc3
        rw [f3] at hc3
        refine ⟨?_, ?_, ?_⟩
        · rw [g1, g2, f2, f3]
          exact A1 _ _ hc3
        · rw [g3, g1, f1, f3]
          exact h01
        · exact swapsWithin_trans hswB
            (@swapsWithin_swapGo _ _ a b m1 m0 (swapGo arr1 m2 m1) h1 h1b h0 h0b (by omega))
      · have hc3f : lt (nth (swapGo arr1 m2 m1) m1) (nth (swapGo arr1 m2 m1) m0) = false := by
          cases h : lt (nth (swapGo arr1 m2 m1) m1) (nth (swapGo arr1 m2 m1) m0) with
          | false => rfl
          | true => exact absurd h hc3
        rw [if_neg hc3]
        refine ⟨hc3f, ?_, hswB⟩
        rw [f1, f2]
        exact A1 _ _ hc2
    · have hc2f : lt (nth arr1 m2) (nth arr1 m1) = false := by
        cases h : lt (nth arr1 m2) (nth arr1 m1) with
        | false => rfl
        | true => exact absurd h hc2
      rw [if_neg hc2]
      exact ⟨h01, hc2f, hsw1⟩
  by_cases hc1 : lt (nth arr m1) (nth arr m0) = true
  · rw [if_pos hc1]
    have d1 : nth (swapGo arr m1 m0) m1 = nth arr m0 := nth_swapGo_fst arr hm1l hm0l
    have d2 : nth (swapGo arr m1 m0) m0 = nth arr m1 := nth_swapGo_snd arr hm1l hm0l
    exact step1 (swapGo arr m1 m0) (length_swapGo arr _ _)
      (by rw [d1, d2]; exact A1 _ _ hc1)
      (@swapsWithin_swapGo _ _ a b m1 m0 arr h1 h1b h0 h0b hb)
  · have hc1f : lt (nth arr m1) (nth arr m0) = false := by
      cases h : lt (nth arr m1) (nth arr m0) with
      | false => rfl
      | true => exact absurd h hc1
    rw [if_neg hc1]
    exact step1 arr rfl hc1f (swapsWithin_refl _ _ _)

/-- The a-scan of Go doPivot advances over cells strictly less than the pivot
cell and stops at c or at a cell not less than it. -/
theorem doPivotScanA_spec [Inhabited α] {lt : α → α → Bool} (arr : List α)
    (pivot c : Nat) :
    ∀ fuel a0, c - a0 < fuel →
    a0 ≤ doPivotScanA lt arr pivot c a0 fuel ∧
    (a0 ≤ c → doPivotScanA lt arr pivot c a0 fuel ≤ c) ∧
    (∀ k, a0 ≤ k → k < doPivotScanA lt arr pivot c a0 fuel →
      lt (nth arr k) (nth arr pivot) = true) ∧
    (doPivotScanA lt arr pivot c a0 fuel < c →
      lt (nth arr (doPivotScanA lt arr pivot c a0 fuel)) (nth arr pivot) = false) := by
  intro fuel
  induction fuel with
  | zero => intro a0 hf; omega
  | succ fuel ih =>
    intro a0 hf
    have hres : doPivotScanA lt arr pivot c a0 (fuel + 1) =
        if a0 < c && lt (nth arr a0) (nth arr pivot) then
          doPivotScanA lt arr pivot c (a0 + 1) fuel
        else a0 := rfl
    rw [hres]
    by_cases hcond : a0 < c ∧ lt (nth arr a0) (nth arr pivot) = true
    · rw [if_pos (by simp [hcond.1, hcond.2])]
      obtain ⟨hrec1, hrec2, hrec3, hrec4⟩ := ih (a0 + 1) (by omega)
      refine ⟨by omega, fun _ => hrec2 (by omega), ?_, hrec4⟩
      intro k hk1 hk2
      by_cases hk : k = a0
      · subst hk; exact hcond.2
      · exact hrec3 k (by omega) hk2
    · have hbf : (a0 < c && lt (nth arr a0) (nth arr pivot)) = false := by
        cases hL : lt (nth arr a0) (nth arr pivot) with
        | false => simp [hL]
        | true =>
          have : ¬ a0 < c := fun h => hcond ⟨h, hL⟩
          simp [hL, this]
      rw [hbf, if_neg (by simp)]
      refine ⟨le_refl a0, fun h => h, fun k hk1 hk2 => by omega, fun hlt => ?_⟩
      cases hL : lt (nth arr a0) (nth arr pivot) with
      | false => rfl
      | true => exact absurd ⟨hlt, hL⟩ hcond

/-- The forward scan of the doPivot partition loop advances over cells not
greater than the pivot cell. -/
theorem doPivotScanB_spec [Inhabited α] {lt : α → α → Bool} (arr : List α)
    (pivot c : Nat) :
    ∀ fuel b0, c - b0 < fuel →
    b0 ≤ doPivotScanB lt arr pivot c b0 fuel ∧
    (b0 ≤ c → doPivotScanB lt arr pivot c b0 fuel ≤ c) ∧
    (∀ k, b0 ≤ k → k < doPivotScanB lt arr pivot c b0 fuel →
      lt (nth arr pivot) (nth arr k) = false) ∧
    (doPivotScanB lt arr pivot c b0 fuel < c →
      lt (nth arr pivot) (nth arr (doPivotScanB lt arr pivot c b0 fuel)) = true) := by
  intro fuel
  induction fuel with
  | zero => intro b0 hf; omega
  | succ fuel ih =>
    intro b0 hf
    have hres : doPivotScanB lt arr pivot c b0 (fuel + 1) =
        if b0 < c && !(lt (nth arr pivot) (nth arr b0)) then
          doPivotScanB lt arr pivot c (b0 + 1) fuel
        else b0 := rfl
    rw [hres]
    by_cases hcond : b0 < c ∧ lt (nth arr pivot) (nth arr b0) = false
    · rw [if_pos (by simp [hcond.1, hcond.2])]
      obtain ⟨hrec1, hrec2, hrec3, hrec4⟩ := ih (b0 + 1) (by omega)
      refine ⟨by omega, fun _ => hrec2 (by omega), ?_, hrec4⟩
      intro k hk1 hk2
      by_cases hk : k = b0
      · subst hk; exact hcond.2
      · exact hrec3 k (by omega) hk2
    · have hbf : (b0 < c && !(lt (nth arr pivot) (nth arr b0))) = false := by
        cases hL : lt (nth arr pivot) (nth arr b0) with
        | true => simp [hL]
        | false =>
          have : ¬ b0 < c := fun h => hcond ⟨h, hL⟩
          simp [hL, this]
      rw [hbf, if_neg (by simp)]
      refine ⟨le_refl b0, fun h => h, fun k hk1 hk2 => by omega, fun hlt => ?_⟩
      cases hL : lt (nth arr pivot) (nth arr b0) with
      | true => rfl
      | false => exact absurd ⟨hlt, hL⟩ hcond

/-- The backward scan of the doPivot partition loop retreats over cells
strictly greater than the pivot cell. -/
theorem doPivotScanC_spec [Inhabited α] {lt : α → α → Bool} (arr : List α)
    (pivot b : Nat) :
    ∀ fuel c0, c0 - b < fuel →
    doPivotScanC lt arr pivot b c0 fuel ≤ c0 ∧
    (b ≤ c0 → b ≤ doPivotScanC lt arr pivot b c0 fuel) ∧
    (∀ k, doPivotScanC lt arr pivot b c0 fuel ≤ k → k < c0 →
      lt (nth arr pivot) (nth arr k) = true) ∧
    (b < doPivotScanC lt arr pivot b c0 fuel →
      lt (nth arr pivot) (nth arr (doPivotScanC lt arr pivot b c0 fuel - 1)) = false) := by
  intro fuel
  induction fuel with
  | zero => intro c0 hf; omega
  | succ fuel ih =>
    intro c0 hf
    have hres : doPivotScanC lt arr pivot b c0 (fuel + 1) =
        if b < c0 && lt (nth arr pivot) (nth arr (c0 - 1)) then
          doPivotScanC lt arr pivot b (c0 - 1) fuel
        else c0 := rfl
    rw [hres]
    by_cases hcond : b < c0 ∧ lt (nth arr pivot) (nth arr (c0 - 1)) = true
    · rw [if_pos (by simp [hcond.1, hcond.2])]
      obtain ⟨hrec1, hrec2, hrec3, hrec4⟩ := ih (c0 - 1) (by omega)
      refine ⟨by omega, fun _ => hrec2 (by omega), ?_, hrec4⟩
      intro k hk1 hk2
      by_cases hk : k = c0 - 1
      · subst hk; exact hcond.2
      · exact hrec3 k hk1 (by omega)
    · have hbf : (b < c0 && lt (nth arr pivot) (nth arr (c0 - 1))) = false := by
        cases hL : lt (nth arr pivot) (nth arr (c0 - 1)) with
        | false => simp [hL]
        | true =>
          have : ¬ b < c0 := fun h => hcond ⟨h, hL⟩
          simp [hL, this]
      rw [hbf, if_neg (by simp)]
      refine ⟨le_refl c0, fun h => h, fun k hk1 hk2 => by omega, fun hlt => ?_⟩
      cases hL : lt (nth arr pivot) (nth arr (c0 - 1)) with
      | false => rfl
      | true => exact absurd ⟨hlt, hL⟩ hcond

/-- The partition loop of Go doPivot: starting with [a, b) not greater than
the pivot value pv (held at the untouched cell pivot) and [c, chi) strictly
greater, it ends with b = c separating the two regions, swapping only within
[a, c). -/
theorem doPivotMiddle_spec [Inhabited α] {lt : α → α → Bool} {pv : α}
    (pivot a chi : Nat) :
    ∀ fuel arr b c, c - b < fuel →
    a ≤ b → b ≤ c → c ≤ chi → c ≤ arr.length → pivot < a →
    nth arr pivot = pv →
    (∀ k, a ≤ k → k < b → lt pv (nth arr k) = false) →
    (∀ k, c ≤ k → k < chi → lt pv (nth arr k) = true) →
    (doPivotMiddle lt pivot arr b c fuel).2.1 = (doPivotMiddle lt pivot arr b c fuel).2.2 ∧
    a ≤ (doPivotMiddle lt pivot arr b c fuel).2.1 ∧
    (doPivotMiddle lt pivot arr b c fuel).2.1 ≤ c ∧
    (∀ k, a ≤ k → k < (doPivotMiddle lt pivot arr b c fuel).2.1 →
      lt pv (nth (doPivotMiddle lt pivot arr b c fuel).1 k) = false) ∧
    (∀ k, (doPivotMiddle lt pivot arr b c fuel).2.1 ≤ k → k < chi →
      lt pv (nth (doPivotMiddle lt pivot arr b c fuel).1 k) = true) ∧
    SwapsWithin a c arr (doPivotMiddle lt pivot arr b c fuel).1 := by
  intro fuel
  induction fuel with
  | zero => intro arr b c hf; omega
  | succ fuel ih =>
    intro arr b c hf hab hbc hcchi hclen hpa hpv hleft hright
    have hres : doPivotMiddle lt pivot arr b c (fuel + 1) =
        (if doPivotScanB lt arr pivot c b (c - b + 1) ≥
            doPivotScanC lt arr pivot (doPivotScanB lt arr pivot c b (c - b + 1)) c
              (c - doPivotScanB lt arr pivot c b (c - b + 1) + 1) then
          (arr, doPivotScanB lt arr pivot c b (c - b + 1),
            doPivotScanC lt arr pivot (doPivotScanB lt arr pivot c b (c - b + 1)) c
              (c - doPivotScanB lt arr pivot c b (c - b + 1) + 1))
         else
          doPivotMiddle lt pivot
            (swapGo arr (doPivotScanB lt arr pivot c b (c - b + 1))
              (doPivotScanC lt arr pivot (doPivotScanB lt arr pivot c b (c - b + 1)) c
                (c - doPivotScanB lt arr pivot c b (c - b + 1) + 1) - 1))
            (doPivotScanB lt arr pivot c b (c - b + 1) + 1)
            (doPivotScanC lt arr pivot (doPivotScanB lt arr pivot c b (c - b + 1)) c
              (c - doPivotScanB lt arr pivot c b (c - b + 1) + 1) - 1) fuel) := rfl
    rw [hres]
    obtain ⟨hB1, hB2, hB3, hB4⟩ := doPivotScanB_spec arr pivot c (c - b + 1) b (by omega)
    set b1 := doPivotScanB lt arr pivot c b (c - b + 1) with hb1def
    obtain ⟨hC1, hC2, hC3, hC4⟩ := doPivotScanC_spec arr pivot b1 (c - b1 + 1) c (by omega)
    set c1 := doPivotScanC lt arr pivot b1 c (c - b1 + 1) with hc1def
    have hb1c : b1 ≤ c := hB2 hbc
    have hb1c1 : b1 ≤ c1 := hC2 hb1c
    rw [hpv] at hB3 hC3
    by_cases hge : b1 ≥ c1
    · rw [if_pos hge]
      have heq : b1 = c1 := by omega
      refine ⟨heq, show a ≤ b1 by omega, show b1 ≤ c from hb1c, ?_, ?_,
        swapsWithin_refl _ _ _⟩
      · intro k hk1 hk2
        replace hk2 : k < b1 := hk2
        show lt pv (nth arr k) = false
        by_cases hkb : k < b
        · exact hleft k hk1 hkb
        · exact hB3 k (by omega) hk2
      · intro k hk1 hk2
        replace hk1 : b1 ≤ k := hk1
        show lt pv (nth arr k) = true
        by_cases hkc : k < c
        · exact hC3 k (by omega) hkc
        · exact hright k (by omega) hk2
    · rw [if_neg hge]
      have hb1lt : b1 < c1 := by omega
      have hstopB : lt (nth arr pivot) (nth arr b1) = true := hB4 (by omega)
      have hstopC : lt (nth arr pivot) (nth arr (c1 - 1)) = false := hC4 hb1lt
      rw [hpv] at hstopB hstopC
      have hbne : b1 ≠ c1 - 1 := by
        intro h
        rw [h] at hstopB
        rw [hstopB] at hstopC
        cases hstopC
      have hblt : b1 < c1 - 1 := by omega
      have hb1len : b1 < arr.length := by omega
      have hc1len : c1 - 1 < arr.length := by omega
      have e1 : nth (swapGo arr b1 (c1 - 1)) b1 = nth arr (c1 - 1) :=
        nth_swapGo_fst arr hb1len hc1len
      have e2 : nth (swapGo arr b1 (c1 - 1)) (c1 - 1) = nth arr b1 :=
        nth_swapGo_snd arr hb1len hc1len
      have e3 : ∀ x, x ≠ b1 → x ≠ c1 - 1 → nth (swapGo arr b1 (c1 - 1)) x = nth arr x :=
        fun x h1 h2 => nth_swapGo_other arr h1 h2
      have hlen2 : (swapGo arr b1 (c1 - 1)).length = arr.length := length_swapGo arr _ _
      have hrec := ih (swapGo arr b1 (c1 - 1)) (b1 + 1) (c1 - 1) (by omega)
        (by omega) (by omega) (by omega) (by omega) hpa
        (by rw [e3 pivot (by omega) (by omega)]; exact hpv)
        (by
          intro k hk1 hk2
          by_cases hkb : k = b1
          · subst hkb
            rw [e1]
            exact hstopC
          · rw [e3 k hkb (by omega)]
            by_cases hkb2 : k < b
            · exact hleft k hk1 hkb2
            · exact hB3 k (by omega) (by omega))
        (by
          intro k hk1 hk2
          by_cases hkc : k = c1 - 1
          · subst hkc
            rw [e2]
            exact hstopB
          · rw [e3 k (by omega) hkc]
            by_cases hkc2 : k < c
            · exact hC3 k (by omega) hkc2
            · exact hright k (by omega) hk2)
      obtain ⟨r1, r2, r3, r4, r5, r6⟩ := hrec
      refine ⟨r1, by omega, by omega, r4, r5, ?_⟩
      refine swapsWithin_trans
        (@swapsWithin_swapGo _ _ a c b1 (c1 - 1) arr (by omega) (by omega) (by omega)
          (by omega) hclen) ?_
      exact swapsWithin_mono r6 (le_refl a) (by omega)

/-- The backward scan of the protection loop retreats over cells not less
than the pivot cell. -/
theorem doPivotProtectScanB_spec [Inhabited α] {lt : α → α → Bool} (arr : List α)
    (pivot a : Nat) :
    ∀ fuel b0, b0 - a < fuel →
    doPivotProtectScanB lt arr pivot a b0 fuel ≤ b0 ∧
    (a ≤ doPivotProtectScanB lt arr pivot a b0 fuel ∨
      doPivotProtectScanB lt arr pivot a b0 fuel = b0) ∧
    (∀ k, doPivotProtectScanB lt arr pivot a b0 fuel ≤ k → k < b0 →
      lt (nth arr k) (nth arr pivot) = false) ∧
    (a < doPivotProtectScanB lt arr pivot a b0 fuel →
      lt (nth arr (doPivotProtectScanB lt arr pivot a b0 fuel - 1)) (nth arr pivot) = true) := by
  intro fuel
  induction fuel with
  | zero => intro b0 hf; omega
  | succ fuel ih =>
    intro b0 hf
    have hres : doPivotProtectScanB lt arr pivot a b0 (fuel + 1) =
        if a < b0 && !(lt (nth arr (b0 - 1)) (nth arr pivot)) then
          doPivotProtectScanB lt arr pivot a (b0 - 1) fuel
        else b0 := rfl
    rw [hres]
    by_cases hcond : a < b0 ∧ lt (nth arr (b0 - 1)) (nth arr pivot) = false
    · rw [if_pos (by simp [hcond.1, hcond.2])]
      obtain ⟨hrec1, hrec2, hrec3, hrec4⟩ := ih (b0 - 1) (by omega)
      refine ⟨by omega, by omega, ?_, hrec4⟩
      intro k hk1 hk2
      by_cases hk : k = b0 - 1
      · subst hk; exact hcond.2
      · exact hrec3 k hk1 (by omega)
    · have hbf : (a < b0 && !(lt (nth arr (b0 - 1)) (nth arr pivot))) = false := by
        cases hL : lt (nth arr (b0 - 1)) (nth arr pivot) with
        | true => simp [hL]
        | false =>
          have : ¬ a < b0 := fun h => hcond ⟨h, hL⟩
          simp [hL, this]
      rw [hbf, if_neg (by simp)]
      refine ⟨le_refl b0, Or.inr rfl, fun k hk1 hk2 => by omega, fun hlt => ?_⟩
      cases hL : lt (nth arr (b0 - 1)) (nth arr pivot) with
      | true => rfl
      | false => exact absurd ⟨hlt, hL⟩ hcond

/-- The forward scan of the protection loop advances over cells strictly less
than the pivot cell. -/
theorem doPivotProtectScanA_spec [Inhabited α] {lt : α → α → Bool} (arr : List α)
    (pivot b : Nat) :
    ∀ fuel a0, b - a0 < fuel →
    a0 ≤ doPivotProtectScanA lt arr pivot b a0 fuel ∧
    (a0 ≤ b → doPivotProtectScanA lt arr pivot b a0 fuel ≤ b) ∧
    (∀ k, a0 ≤ k → k < doPivotProtectScanA lt arr pivot b a0 fuel →
      lt (nth arr k) (nth arr pivot) = true) ∧
    (doPivotProtectScanA lt arr pivot b a0 fuel < b →
      lt (nth arr (doPivotProtectScanA lt arr pivot b a0 fuel)) (nth arr pivot) = false) := by
  intro fuel
  induction fuel with
  | zero => intro a0 hf; omega
  | succ fuel ih =>
    intro a0 hf
    have hres : doPivotProtectScanA lt arr pivot b a0 (fuel + 1) =
        if a0 < b && lt (nth arr a0) (nth arr pivot) then
          doPivotProtectScanA lt arr pivot b (a0 + 1) fuel
        else a0 := rfl
    rw [hres]
    by_cases hcond : a0 < b ∧ lt (nth arr a0) (nth arr pivot) = true
    · rw [if_pos (by simp [hcond.1, hcond.2])]
      obtain ⟨hrec1, hrec2, hrec3, hrec4⟩ := ih (a0 + 1) (by omega)
      refine ⟨by omega, fun _ => hrec2 (by omega), ?_, hrec4⟩
      intro k hk1 hk2
      by_cases hk : k = a0
      · subst hk; exact hcond.2
      · exact hrec3 k (by omega) hk2
    · have hbf : (a0 < b && lt (nth arr a0) (nth arr pivot)) = false := by
        cases hL : lt (nth arr a0) (nth arr pivot) with
        | false => simp [hL]
        | true =>
          have : ¬ a0 < b := fun h => hcond ⟨h, hL⟩
          simp [hL, this]
      rw [hbf, if_neg (by simp)]
      refine ⟨le_refl a0, fun h => h, fun k hk1 hk2 => by omega, fun hlt => ?_⟩
      cases hL : lt (nth arr a0) (nth arr pivot) with
      | false => rfl
      | true => exact absurd ⟨hlt, hL⟩ hcond

/-- The protection loop of Go doPivot gathers the run of pivot-equal cells
immediately below b, keeping cells below it not greater than the pivot and
cells from its result up to c3 pivot-equal; it swaps only within [lo+1, c3). -/
theorem doPivotProtect_spec [Inhabited α] {lt : α → α → Bool} {pv : α}
    (A1 : LtAsymm lt) (pivot lo c3 : Nat) :
    ∀ fuel arr a b, b - a < fuel →
    lo + 1 ≤ a → lo + 1 ≤ b → b ≤ c3 → c3 ≤ arr.length → pivot < lo + 1 →
    nth arr pivot = pv →
    (∀ k, lo + 1 ≤ k → k < b → lt pv (nth arr k) = false) →
    (∀ k, b ≤ k → k < c3 → lt pv (nth arr k) = false ∧ lt (nth arr k) pv = false) →
    lo + 1 ≤ (doPivotProtect lt pivot arr a b fuel).2 ∧
    (doPivotProtect lt pivot arr a b fuel).2 ≤ b ∧
    (∀ k, lo + 1 ≤ k → k < (doPivotProtect lt pivot arr a b fuel).2 →
      lt pv (nth (doPivotProtect lt pivot arr a b fuel).1 k) = false) ∧
    (∀ k, (doPivotProtect lt pivot arr a b fuel).2 ≤ k → k < c3 →
      lt pv (nth (doPivotProtect lt pivot arr a b fuel).1 k) = false ∧
      lt (nth (doPivotProtect lt pivot arr a b fuel).1 k) pv = false) ∧
    nth (doPivotProtect lt pivot arr a b fuel).1 pivot = pv ∧
    SwapsWithin (lo + 1) c3 arr (doPivotProtect lt pivot arr a b fuel).1 := by
  intro fuel
  induction fuel with
  | zero => intro arr a b hf; omega
  | succ fuel ih =>
    intro arr a b hf ha hb hbc3 hc3len hpiv hpv hP1 hP2
    have hres : doPivotProtect lt pivot arr a b (fuel + 1) =
        (if doPivotProtectScanA lt arr pivot
              (doPivotProtectScanB lt arr pivot a b (b - a + 1)) a
              (doPivotProtectScanB lt arr pivot a b (b - a + 1) - a + 1) ≥
            doPivotProtectScanB lt arr pivot a b (b - a + 1) then
          (arr, doPivotProtectScanB lt arr pivot a b (b - a + 1))
         else
          doPivotProtect lt pivot
            (swapGo arr
              (doPivotProtectScanA lt arr pivot
                (doPivotProtectScanB lt arr pivot a b (b - a + 1)) a
                (doPivotProtectScanB lt arr pivot a b (b - a + 1) - a + 1))
              (doPivotProtectScanB lt arr pivot a b (b - a + 1) - 1))
            (doPivotProtectScanA lt arr pivot
              (doPivotProtectScanB lt arr pivot a b (b - a + 1)) a
              (doPivotProtectScanB lt arr pivot a b (b - a + 1) - a + 1) + 1)
            (doPivotProtectScanB lt arr pivot a b (b - a + 1) - 1) fuel) := rfl
    rw [hres]
    obtain ⟨hB1, hB2, hB3, hB4⟩ := doPivotProtectScanB_spec arr pivot a (b - a + 1) b (by omega)
    set b1 := doPivotProtectScanB lt arr pivot a b (b - a + 1) with hb1def
    obtain ⟨hA1, hA2, hA3, hA4⟩ := doPivotProtectScanA_spec arr pivot b1 (b1 - a + 1) a (by omega)
    set a1 := doPivotProtectScanA lt arr pivot b1 a (b1 - a + 1) with ha1def
    rw [hpv] at hB3 hB4 hA3 hA4
    have hb1lo : lo + 1 ≤ b1 := by
      rcases hB2 with h | h
      · omega
      · omega
    by_cases hge : a1 ≥ b1
    · rw [if_pos hge]
      refine ⟨show lo + 1 ≤ b1 from hb1lo, show b1 ≤ b from hB1, ?_, ?_,
        show nth arr pivot = pv from hpv, swapsWithin_refl _ _ _⟩
      · intro k hk1 hk2
        replace hk2 : k < b1 := hk2
        show lt pv (nth arr k) = false
        exact hP1 k hk1 (by omega)
      · intro k hk1 hk2
        replace hk1 : b1 ≤ k := hk1
        show lt pv (nth arr k) = false ∧ lt (nth arr k) pv = false
        by_cases hkb : k < b
        · exact ⟨hP1 k (by omega) hkb, hB3 k hk1 hkb⟩
        · exact hP2 k (by omega) hk2
    · rw [if_neg hge]
      have ha1b1 : a1 < b1 := by omega
      have hstopA : lt (nth arr a1) pv = false := hA4 ha1b1
      have hstopB : lt (nth arr (b1 - 1)) pv = true := hB4 (by omega)
      have hane : a1 ≠ b1 - 1 := by
        intro h
        rw [h, hstopB] at hstopA
        cases hstopA
      have halt : a1 < b1 - 1 := by omega
      have ha1len : a1 < arr.length := by omega
      have hb1len : b1 - 1 < arr.length := by omega
      have e1 : nth (swapGo arr a1 (b1 - 1)) a1 = nth arr (b1 - 1) :=
        nth_swapGo_fst arr ha1len hb1len
      have e2 : nth (swapGo arr a1 (b1 - 1)) (b1 - 1) = nth arr a1 :=
        nth_swapGo_snd arr ha1len hb1len
      have e3 : ∀ x, x ≠ a1 → x ≠ b1 - 1 → nth (swapGo arr a1 (b1 - 1)) x = nth arr x :=
        fun x h1 h2 => nth_swapGo_other arr h1 h2
      have hlen2 : (swapGo arr a1 (b1 - 1)).length = arr.length := length_swapGo arr _ _
      have hrec := ih (swapGo arr a1 (b1 - 1)) (a1 + 1) (b1 - 1) (by omega)
        (by omega) (by omega) (by omega) (by omega) hpiv
        (by rw [e3 pivot (by omega) (by omega)]; exact hpv)
        (by
          intro k hk1 hk2
          by_cases hka : k = a1
          · subst hka
            rw [e1]
            exact A1 _ _ hstopB
          · rw [e3 k hka (by omega)]
            exact hP1 k hk1 (by omega))
        (by
          intro k hk1 hk2
          by_cases hkb1 : k = b1 - 1
          · subst hkb1
            rw [e2]
            exact ⟨hP1 a1 (by omega) (by omega), hstopA⟩
          · rw [e3 k (by omega) hkb1]
            by_cases hkb : k < b
            · exact ⟨hP1 k (by omega) hkb, hB3 k (by omega) hkb⟩
            · exact hP2 k (by omega) hk2)
      obtain ⟨r1, r2, r3, r4, r5, r6⟩ := hrec
      refine ⟨r1, by omega, r3, r4, r5, ?_⟩
      exact swapsWithin_trans
        (@swapsWithin_swapGo _ _ (lo + 1) c3 a1 (b1 - 1) arr (by omega) (by omega)
          (by omega) (by omega) hc3len) r6

/-- The duplicate-detection block of Go doPivot preserves the partition into
a not-greater region [lo+1, b), a pivot-equal middle [b, c) and a not-less
region [c, hi), possibly growing the middle by up to three cells, swapping
only inside [lo+1, hi) and leaving the pivot cell alone. -/
theorem doPivotDups_spec [Inhabited α] {lt : α → α → Bool} {pv : α}
    (A1 : LtAsymm lt) (arr : List α) (m pivot lo hi b c : Nat)
    (hb : b = c) (hm : m = (lo + hi) / 2)
    (hgap : lo + 13 ≤ hi) (hlen : hi ≤ arr.length)
    (hpivot : pivot = lo) (hpv : nth arr pivot = pv)
    (ha : lo + 1 ≤ b) (hchi : c ≤ hi - 1)
    (G1 : ∀ k, lo + 1 ≤ k → k < b → lt pv (nth arr k) = false)
    (G2 : ∀ k, c ≤ k → k < hi - 1 → lt pv (nth arr k) = true)
    (G4 : lt (nth arr (hi - 1)) pv = false) :
    lo + 1 ≤ (doPivotDups lt arr m pivot lo hi b c).2.1 ∧
    (doPivotDups lt arr m pivot lo hi b c).2.1 ≤ (doPivotDups lt arr m pivot lo hi b c).2.2.1 ∧
    (doPivotDups lt arr m pivot lo hi b c).2.2.1 ≤ hi ∧
    (∀ k, lo + 1 ≤ k → k < (doPivotDups lt arr m pivot lo hi b c).2.1 →
      lt pv (nth (doPivotDups lt arr m pivot lo hi b c).1 k) = false) ∧
    (∀ k, (doPivotDups lt arr m pivot lo hi b c).2.1 ≤ k →
      k < (doPivotDups lt arr m pivot lo hi b c).2.2.1 →
      lt pv (nth (doPivotDups lt arr m pivot lo hi b c).1 k) = false ∧
      lt (nth (doPivotDups lt arr m pivot lo hi b c).1 k) pv = false) ∧
    (∀ k, (doPivotDups lt arr m pivot lo hi b c).2.2.1 ≤ k → k < hi →
      lt (nth (doPivotDups lt arr m pivot lo hi b c).1 k) pv = false) ∧
    nth (doPivotDups lt arr m pivot lo hi b c).1 pivot = pv ∧
    SwapsWithin (lo + 1) hi arr (doPivotDups lt arr m pivot lo hi b c).1 := by
  unfold doPivotDups
  by_cases h5 : hi - c < 5
  · rw [if_pos h5]
    refine ⟨show lo + 1 ≤ b from ha, show b ≤ c by omega, show c ≤ hi by omega, ?_, ?_, ?_,
      show nth arr pivot = pv from hpv, swapsWithin_refl _ _ _⟩
    · intro k hk1 hk2
      exact G1 k hk1 hk2
    · intro k hk1 hk2
      replace hk1 : b ≤ k := hk1
      replace hk2 : k < c := hk2
      omega
    · intro k hk1 hk2
      replace hk1 : c ≤ k := hk1
      show lt (nth arr k) pv = false
      by_cases hk : k = hi - 1
      · subst hk; exact G4
      · exact A1 _ _ (G2 k hk1 (by omega))
  · rw [if_neg h5]
    by_cases h4 : hi - c < (hi - lo) / 4
    · rw [if_pos h4]
      dsimp only
      have hblow : lo + 11 ≤ b := by omega
      have hmlo : lo + 6 ≤ m := by omega
      have hmhi : m + 7 ≤ hi := by omega
      have hmb : m + 3 ≤ b := by omega
      -- step 1: possibly move the pivot-equal top cell next to the middle
      have hs1 : ∃ (arr1 : List α) (c1 d1 : Nat),
          (if !(lt (nth arr pivot) (nth arr (hi - 1))) then
            (swapGo arr c (hi - 1), c + 1, 1)
           else (arr, c, 0)) = (arr1, c1, d1) ∧
          c ≤ c1 ∧ c1 ≤ c + 1 ∧ c1 ≤ hi ∧
          arr1.length = arr.length ∧
          nth arr1 pivot = pv ∧
          (∀ k, lo + 1 ≤ k → k < b → lt pv (nth arr1 k) = false) ∧
          (∀ k, b ≤ k → k < c1 → lt pv (nth arr1 k) = false ∧ lt (nth arr1 k) pv = false) ∧
          (∀ k, c1 ≤ k → k < hi → lt (nth arr1 k) pv = false) ∧
          nth arr1 m = nth arr m ∧
          nth arr1 (b - 1) = nth arr (b - 1) ∧
          SwapsWithin (lo + 1) hi arr arr1 := by
        by_cases hT1 : lt (nth arr pivot) (nth arr (hi - 1)) = true
        · refine ⟨arr, c, 0, by rw [if_neg (by simp [hT1])], le_refl c, by omega, by omega,
            rfl, hpv, G1, ?_, ?_, rfl, rfl, swapsWithin_refl _ _ _⟩
          · intro k hk1 hk2; omega
          · intro k hk1 hk2
            by_cases hk : k = hi - 1
            · subst hk; exact G4
            · exact A1 _ _ (G2 k hk1 (by omega))
        · have hT1f : lt (nth arr pivot) (nth arr (hi - 1)) = false := by
            cases hL : lt (nth arr pivot) (nth arr (hi - 1)) with
            | false => rfl
            | true => exact absurd hL hT1
          have hclen : c < arr.length := by omega
          have hhilen : hi - 1 < arr.length := by omega
          have e1 : nth (swapGo arr c (hi - 1)) c = nth arr (hi - 1) :=
            nth_swapGo_fst arr hclen hhilen
          have e2 : nth (swapGo arr c (hi - 1)) (hi - 1) = nth arr c :=
            nth_swapGo_snd arr hclen hhilen
          have e3 : ∀ x, x ≠ c → x ≠ hi - 1 →
              nth (swapGo arr c (hi - 1)) x = nth arr x :=
            fun x h1 h2 => nth_swapGo_other arr h1 h2
          have hT1fpv : lt pv (nth arr (hi - 1)) = false := by
            rw [← hpv]
            exact hT1f
          refine ⟨swapGo arr c (hi - 1), c + 1, 1, by rw [if_pos (by simp [hT1f])],
            by omega, le_refl (c + 1), by omega, length_swapGo arr _ _,
            by rw [e3 pivot (by omega) (by omega)]; exact hpv, ?_, ?_, ?_,
            e3 m (by omega) (by omega), e3 (b - 1) (by omega) (by omega), ?_⟩
          · intro k hk1 hk2
            rw [e3 k (by omega) (by omega)]
            exact G1 k hk1 hk2
          · intro k hk1 hk2
            have hk : k = c := by omega
            subst hk
            rw [e1]
            exact ⟨hT1fpv, G4⟩
          · intro k hk1 hk2
            by_cases hk : k = hi - 1
            · subst hk
              rw [e2]
              exact A1 _ _ (G2 c (le_refl c) (by omega))
            · rw [e3 k (by omega) hk]
              exact A1 _ _ (G2 k (by omega) (by omega))
          · exact @swapsWithin_swapGo _ _ (lo + 1) hi c (hi - 1) arr (by omega) (by omega)
              (by omega) (by omega) (by omega)
      obtain ⟨arr1, c1, d1, heq1, hc1a, hc1b, hc1hi, hlen1, hpv1, hG1a, hMida, hRight1,
        hFm, hFb, hSw1⟩ := hs1
      rw [heq1]
      dsimp only
      rw [hpv1, hFb, hFm]
      -- step 2: possibly absorb the top of the left region into the middle
      have hs2 : ∃ (b2 d2 : Nat),
          (if !(lt (nth arr (b - 1)) pv) then (b - 1, d1 + 1) else (b, d1)) = (b2, d2) ∧
          b - 1 ≤ b2 ∧ b2 ≤ b ∧
          (∀ k, lo + 1 ≤ k → k < b2 → lt pv (nth arr1 k) = false) ∧
          (∀ k, b2 ≤ k → k < c1 → lt pv (nth arr1 k) = false ∧ lt (nth arr1 k) pv = false) := by
        by_cases hT2 : lt (nth arr (b - 1)) pv = true
        · refine ⟨b, d1, by rw [if_neg (by simp [hT2])], by omega, le_refl b, hG1a, hMida⟩
        · have hT2f : lt (nth arr (b - 1)) pv = false := by
            cases hL : lt (nth arr (b - 1)) pv with
            | false => rfl
            | true => exact absurd hL hT2
          refine ⟨b - 1, d1 + 1, by rw [if_pos (by simp [hT2f])], le_refl (b - 1),
            by omega, ?_, ?_⟩
          · intro k hk1 hk2
            exact hG1a k hk1 (by omega)
          · intro k hk1 hk2
            by_cases hk : k = b - 1
            · subst hk
              rw [hFb]
              refine ⟨?_, hT2f⟩
              rw [← hFb]
              exact hG1a (b - 1) (by omega) (by omega)
            · exact hMida k (by omega) hk2
      obtain ⟨b2, d2, heq2, hb2a, hb2b, hG1b, hMidb⟩ := hs2
      rw [heq2]
      dsimp only
      -- step 3: possibly move the pivot-equal cell at m into the middle
      have hs3 : ∃ (arr3 : List α) (b3 d3 : Nat),
          (if !(lt (nth arr m) pv) then (swapGo arr1 m (b2 - 1), b2 - 1, d2 + 1)
           else (arr1, b2, d2)) = (arr3, b3, d3) ∧
          lo + 1 ≤ b3 ∧ b3 ≤ b2 ∧
          (∀ k, lo + 1 ≤ k → k < b3 → lt pv (nth arr3 k) = false) ∧
          (∀ k, b3 ≤ k → k < c1 → lt pv (nth arr3 k) = false ∧ lt (nth arr3 k) pv = false) ∧
          (∀ k, c1 ≤ k → k < hi → lt (nth arr3 k) pv = false) ∧
          nth arr3 pivot = pv ∧
          SwapsWithin (lo + 1) hi arr1 arr3 := by
        by_cases hT3 : lt (nth arr m) pv = true
        · refine ⟨arr1, b2, d2, by rw [if_neg (by simp [hT3])], by omega, le_refl b2,
            hG1b, hMidb, hRight1, hpv1, swapsWithin_refl _ _ _⟩
        · have hT3f : lt (nth arr m) pv = false := by
            cases hL : lt (nth arr m) pv with
            | false => rfl
            | true => exact absurd hL hT3
          have hmlt : m < b2 - 1 := by omega
          have hmlen : m < arr1.length := by omega
          have hb2len : b2 - 1 < arr1.length := by omega
          have f1 : nth (swapGo arr1 m (b2 - 1)) m = nth arr1 (b2 - 1) :=
            nth_swapGo_fst arr1 hmlen hb2len
          have f2 : nth (swapGo arr1 m (b2 - 1)) (b2 - 1) = nth arr1 m :=
            nth_swapGo_snd arr1 hmlen hb2len
          have f3 : ∀ x, x ≠ m → x ≠ b2 - 1 →
              nth (swapGo arr1 m (b2 - 1)) x = nth arr1 x :=
            fun x h1 h2 => nth_swapGo_other arr1 h1 h2
          refine ⟨swapGo arr1 m (b2 - 1), b2 - 1, d2 + 1, by rw [if_pos (by simp [hT3f])],
            by omega, by omega, ?_, ?_, ?_, ?_, ?_⟩
          · intro k hk1 hk2
            by_cases hk : k = m
            · subst hk
              rw [f1]
              exact hG1b (b2 - 1) (by omega) (by omega)
            · rw [f3 k hk (by omega)]
              exact hG1b k hk1 (by omega)
          · intro k hk1 hk2
            by_cases hk : k = b2 - 1
            · subst hk
              rw [f2, hFm]
              refine ⟨by rw [← hFm]; exact hG1a m (by omega) (by omega), hT3f⟩
            · rw [f3 k (by omega) hk]
              exact hMidb k (by omega) hk2
          · intro k hk1 hk2
            rw [f3 k (by omega) (by omega)]
            exact hRight1 k hk1 hk2
          · rw [f3 pivot (by omega) (by omega)]
            exact hpv1
          · exact @swapsWithin_swapGo _ _ (lo + 1) hi m (b2 - 1) arr1 (by omega) (by omega)
              (by omega) (by omega) (by omega)
      obtain ⟨arr3, b3, d3, heq3, hb3a, hb3b, hG1c, hMidc, hRightc, hpvc, hSw3⟩ := hs3
      rw [heq3]
      dsimp only
      refine ⟨hb3a, by omega, hc1hi, hG1c, ?_, hRightc, hpvc, swapsWithin_trans hSw1 hSw3⟩
      intro k hk1 hk2
      exact hMidc k hk1 hk2
    · rw [if_neg h4]
      refine ⟨show lo + 1 ≤ b from ha, show b ≤ c by omega, show c ≤ hi by omega, ?_, ?_, ?_,
        show nth arr pivot = pv from hpv, swapsWithin_refl _ _ _⟩
      · intro k hk1 hk2
        exact G1 k hk1 hk2
      · intro k hk1 hk2
        replace hk1 : b ≤ k := hk1
        replace hk2 : k < c := hk2
        omega
      · intro k hk1 hk2
        replace hk1 : c ≤ k := hk1
        show lt (nth arr k) pv = false
        by_cases hk : k = hi - 1
        · subst hk; exact G4
        · exact A1 _ _ (G2 k hk1 (by omega))

/-- The pivot-choice block of Go doPivot only permutes inside [lo, hi) and
leaves the cell at lo between the cells at m and hi-1. -/
theorem doPivotChoose_spec [Inhabited α] {lt : α → α → Bool}
    (A1 : LtAsymm lt) (arr : List α) (lo hi m : Nat)
    (hlen : hi ≤ arr.length) (hgap : lo + 13 ≤ hi) (hm : m = (lo + hi) / 2) :
    SwapsWithin lo hi arr (doPivotChoose lt arr lo hi m) ∧
    lt (nth (doPivotChoose lt arr lo hi m) lo)
       (nth (doPivotChoose lt arr lo hi m) m) = false ∧
    lt (nth (doPivotChoose lt arr lo hi m) (hi - 1))
       (nth (doPivotChoose lt arr lo hi m) lo) = false := by
  have hres : doPivotChoose lt arr lo hi m =
      medianOfThreeGo lt
        (if hi - lo > 40 then
          medianOfThreeGo lt
            (medianOfThreeGo lt
              (medianOfThreeGo lt arr lo (lo + (hi - lo) / 8) (lo + 2 * ((hi - lo) / 8)))
              m (m - (hi - lo) / 8) (m + (hi - lo) / 8))
            (hi - 1) (hi - 1 - (hi - lo) / 8) (hi - 1 - 2 * ((hi - lo) / 8))
         else arr) lo m (hi - 1) := rfl
  rw [hres]
  have hpre : ∃ arr1 : List α,
      (if hi - lo > 40 then
        medianOfThreeGo lt
          (medianOfThreeGo lt
            (medianOfThreeGo lt arr lo (lo + (hi - lo) / 8) (lo + 2 * ((hi - lo) / 8)))
            m (m - (hi - lo) / 8) (m + (hi - lo) / 8))
          (hi - 1) (hi - 1 - (hi - lo) / 8) (hi - 1 - 2 * ((hi - lo) / 8))
       else arr) = arr1 ∧
      SwapsWithin lo hi arr arr1 := by
    by_cases h40 : hi - lo > 40
    · rw [if_pos h40]
      have hs5 : 5 ≤ (hi - lo) / 8 := by omega
      have hs8 : (hi - lo) / 8 + (hi - lo) / 8 + (hi - lo) / 8 < hi - lo := by omega
      have hmed1 := medianOfThreeGo_spec A1 arr lo hi lo (lo + (hi - lo) / 8)
        (lo + 2 * ((hi - lo) / 8)) (le_refl lo) (by omega) (by omega) (by omega)
        (by omega) (by omega) hlen (by omega) (by omega) (by omega)
      set arrA := medianOfThreeGo lt arr lo (lo + (hi - lo) / 8) (lo + 2 * ((hi - lo) / 8))
      have hlenA : arrA.length = arr.length := hmed1.2.2.1
      have hmed2 := medianOfThreeGo_spec A1 arrA lo hi m (m - (hi - lo) / 8)
        (m + (hi - lo) / 8) (by omega) (by omega) (by omega) (by omega)
        (by omega) (by omega) (by omega) (by omega) (by omega) (by omega)
      set arrB := medianOfThreeGo lt arrA m (m - (hi - lo) / 8) (m + (hi - lo) / 8)
      have hlenB : arrB.length = arrA.length := hmed2.2.2.1
      have hmed3 := medianOfThreeGo_spec A1 arrB lo hi (hi - 1) (hi - 1 - (hi - lo) / 8)
        (hi - 1 - 2 * ((hi - lo) / 8)) (by omega) (by omega) (by omega) (by omega)
        (by omega) (by omega) (by omega) (by omega) (by omega) (by omega)
      exact ⟨_, rfl, swapsWithin_trans hmed1.2.2
        (swapsWithin_trans hmed2.2.2 hmed3.2.2)⟩
    · rw [if_neg h40]
      exact ⟨arr, rfl, swapsWithin_refl _ _ _⟩
  obtain ⟨arr1, heq1, hsw1⟩ := hpre
  rw [heq1]
  have hlen1 : arr1.length = arr.length := hsw1.1
  have hfin := medianOfThreeGo_spec A1 arr1 lo hi lo m (hi - 1) (le_refl lo) (by omega)
    (by omega) (by omega) (by omega) (by omega) (by omega) (by omega) (by omega) (by omega)
  exact ⟨swapsWithin_trans hsw1 hfin.2.2, hfin.1, hfin.2.1⟩

/-- Go doPivot(data, lo, hi) partitions [lo, hi): it returns midlo < midhi
with cells of [lo, midlo) not greater than some pivot value, cells of
[midlo, midhi) equal to it, and cells of [midhi, hi) not less than it,
permuting only inside [lo, hi). -/
theorem doPivotGo_spec [Inhabited α] {lt : α → α → Bool}
    (A1 : LtAsymm lt) (A2 : LtNegTrans lt) (arr : List α) (lo hi : Nat)
    (hlen : hi ≤ arr.length) (hgap : lo + 13 ≤ hi) :
    ∃ pv : α,
    lo ≤ (doPivotGo lt arr lo hi).2.1 ∧
    (doPivotGo lt arr lo hi).2.1 < (doPivotGo lt arr lo hi).2.2 ∧
    (doPivotGo lt arr lo hi).2.2 ≤ hi ∧
    (∀ k, lo ≤ k → k < (doPivotGo lt arr lo hi).2.1 →
      lt pv (nth (doPivotGo lt arr lo hi).1 k) = false) ∧
    (∀ k, (doPivotGo lt arr lo hi).2.1 ≤ k → k < (doPivotGo lt arr lo hi).2.2 →
      lt pv (nth (doPivotGo lt arr lo hi).1 k) = false ∧
      lt (nth (doPivotGo lt arr lo hi).1 k) pv = false) ∧
    (∀ k, (doPivotGo lt arr lo hi).2.2 ≤ k → k < hi →
      lt (nth (doPivotGo lt arr lo hi).1 k) pv = false) ∧
    SwapsWithin lo hi arr (doPivotGo lt arr lo hi).1 := by
  set M := (lo + hi) >>> 1 with hMdef
  have hM2 : M = (lo + hi) / 2 := by
    have h : (lo + hi) >>> 1 = (lo + hi) / 2 ^ 1 := Nat.shiftRight_eq_div_pow _ _
    rw [hMdef, h, pow_one]
  have hchoose := doPivotChoose_spec A1 arr lo hi M hlen hgap hM2
  set arrC := doPivotChoose lt arr lo hi M with harrCdef
  obtain ⟨hCsw, hClo_m, hChi_lo⟩ := hchoose
  have hlenC : arrC.length = arr.length := hCsw.1
  obtain ⟨hA1s, hA2s, hA3s, hA4s⟩ :=
    doPivotScanA_spec arrC lo (hi - 1) (hi - lo + 1) (lo + 1) (by omega)
  set A0 := doPivotScanA lt arrC lo (hi - 1) (lo + 1) (hi - lo + 1) with hA0def
  have hA0lo : lo + 1 ≤ A0 := hA1s
  have hA0hi : A0 ≤ hi - 1 := hA2s (by omega)
  have hmid := @doPivotMiddle_spec α _ lt (nth arrC lo) lo A0 (hi - 1)
    (hi - lo + 1) arrC A0 (hi - 1)
    (by omega) (le_refl A0) hA0hi (le_refl (hi - 1)) (by omega) (by omega) rfl
    (fun k hk1 hk2 => by omega) (fun k hk1 hk2 => by omega)
  set stepM := doPivotMiddle lt lo arrC A0 (hi - 1) (hi - lo + 1) with hstepMdef
  obtain ⟨hMeq, hMlo, hMhi, hMleft, hMright, hMsw⟩ := hmid
  have hlenM : stepM.1.length = arrC.length := hMsw.1
  have hG1 : ∀ k, lo + 1 ≤ k → k < stepM.2.1 →
      lt (nth arrC lo) (nth stepM.1 k) = false := by
    intro k hk1 hk2
    by_cases hka : k < A0
    · rw [hMsw.2.1 k (Or.inl hka)]
      exact A1 _ _ (hA3s k hk1 hka)
    · exact hMleft k (by omega) hk2
  have hdups := doPivotDups_spec A1 stepM.1 M lo lo hi stepM.2.1 stepM.2.2
    hMeq hM2 hgap (by omega) rfl (hMsw.2.1 lo (Or.inl (by omega)))
    (by omega) (by omega) hG1
    (fun k hk1 hk2 => hMright k (by omega) hk2)
    (by
      rw [hMsw.2.1 (hi - 1) (Or.inr (le_refl (hi - 1)))]
      exact hChi_lo)
  set ds := doPivotDups lt stepM.1 M lo lo hi stepM.2.1 stepM.2.2 with hdsdef
  obtain ⟨hDlo, hDbc, hDchi, hD1, hD2, hD3, hDpv, hDsw⟩ := hdups
  have hlenD : ds.1.length = stepM.1.length := hDsw.1
  have hpack : ∃ (arrP : List α) (bP : Nat),
      (if ds.2.2.2 then doPivotProtect lt lo ds.1 A0 ds.2.1 (ds.2.1 - A0 + 1)
       else (ds.1, ds.2.1)) = (arrP, bP) ∧
      lo + 1 ≤ bP ∧ bP ≤ ds.2.2.1 ∧
      (∀ k, lo + 1 ≤ k → k < bP → lt (nth arrC lo) (nth arrP k) = false) ∧
      (∀ k, bP ≤ k → k < ds.2.2.1 → lt (nth arrC lo) (nth arrP k) = false ∧
        lt (nth arrP k) (nth arrC lo) = false) ∧
      (∀ k, ds.2.2.1 ≤ k → k < hi → lt (nth arrP k) (nth arrC lo) = false) ∧
      nth arrP lo = nth arrC lo ∧
      SwapsWithin (lo + 1) hi ds.1 arrP ∧
      arrP.length = ds.1.length := by
    by_cases hflag : ds.2.2.2 = true
    · have hprot := doPivotProtect_spec A1 lo lo ds.2.2.1 (ds.2.1 - A0 + 1) ds.1 A0
        ds.2.1 (by omega) hA0lo hDlo hDbc (by omega) (by omega) hDpv hD1 hD2
      obtain ⟨p1, p2, p3, p4, p5, p6⟩ := hprot
      refine ⟨(doPivotProtect lt lo ds.1 A0 ds.2.1 (ds.2.1 - A0 + 1)).1,
        (doPivotProtect lt lo ds.1 A0 ds.2.1 (ds.2.1 - A0 + 1)).2,
        by rw [if_pos hflag], p1, by omega, p3, p4, ?_, p5, ?_, p6.1⟩
      · intro k hk1 hk2
        rw [p6.2.1 k (Or.inr hk1)]
        exact hD3 k hk1 hk2
      · exact swapsWithin_mono p6 (le_refl (lo + 1)) (by omega)
    · have hflagf : ds.2.2.2 = false := by
        cases h : ds.2.2.2 with
        | false => rfl
        | true => exact absurd h hflag
      refine ⟨ds.1, ds.2.1, by rw [hflagf]; simp, hDlo, hDbc, hD1, hD2, hD3, hDpv,
        swapsWithin_refl _ _ _, rfl⟩
  obtain ⟨arrP, bP, hPeq, hPlo, hPc3, hPleft, hPmid, hPright, hPpv, hPsw, hPlen⟩ := hpack
  have hres0 : doPivotGo lt arr lo hi =
      (swapGo (if ds.2.2.2 then doPivotProtect lt lo ds.1 A0 ds.2.1 (ds.2.1 - A0 + 1)
          else (ds.1, ds.2.1)).1 lo
        ((if ds.2.2.2 then doPivotProtect lt lo ds.1 A0 ds.2.1 (ds.2.1 - A0 + 1)
          else (ds.1, ds.2.1)).2 - 1),
       (if ds.2.2.2 then doPivotProtect lt lo ds.1 A0 ds.2.1 (ds.2.1 - A0 + 1)
          else (ds.1, ds.2.1)).2 - 1, ds.2.2.1) := rfl
  rw [hres0, hPeq]
  dsimp only
  have hPlenhi : hi ≤ arrP.length := by omega
  have hlolen : lo < arrP.length := by omega
  have hbPlen : bP - 1 < arrP.length := by omega
  have ee1 : nth (swapGo arrP lo (bP - 1)) lo = nth arrP (bP - 1) :=
    nth_swapGo_fst arrP hlolen hbPlen
  have ee2 : nth (swapGo arrP lo (bP - 1)) (bP - 1) = nth arrP lo :=
    nth_swapGo_snd arrP hlolen hbPlen
  have ee3 : ∀ x, x ≠ lo → x ≠ bP - 1 →
      nth (swapGo arrP lo (bP - 1)) x = nth arrP x :=
    fun x h1 h2 => nth_swapGo_other arrP h1 h2
  refine ⟨nth arrC lo, by omega, by omega, hDchi, ?_, ?_, ?_, ?_⟩
  · intro k hk1 hk2
    by_cases hk : k = lo
    · subst hk
      rw [ee1]
      exact hPleft (bP - 1) (by omega) (by omega)
    · rw [ee3 k hk (by omega)]
      exact hPleft k (by omega) (by omega)
  · intro k hk1 hk2
    by_cases hk : k = bP - 1
    · subst hk
      rw [ee2, hPpv]
      exact ⟨lt_irrefl_of_asymm A1 _, lt_irrefl_of_asymm A1 _⟩
    · rw [ee3 k (by omega) hk]
      exact hPmid k (by omega) hk2
  · intro k hk1 hk2
    rw [ee3 k (by omega) (by omega)]
    exact hPright k hk1 hk2
  · refine swapsWithin_trans hCsw (swapsWithin_trans
      (swapsWithin_mono hMsw (by omega) (by omega))
      (swapsWithin_trans (swapsWithin_mono hDsw (by omega) (le_refl hi))
        (swapsWithin_trans (swapsWithin_mono hPsw (by omega) (le_refl hi)) ?_)))
    exact @swapsWithin_swapGo _ _ lo hi lo (bP - 1) arrP (le_refl lo) (by omega)
      (by omega) (by omega) hPlenhi

/-- Sortedness of a range only depends on the values of its cells. -/
theorem sortedRange_congr [Inhabited α] {lt : α → α → Bool} {arr arr2 : List α}
    {a b : Nat} (h : ∀ k, a ≤ k → k < b → nth arr2 k = nth arr k)
    (hs : SortedRange lt arr a b) : SortedRange lt arr2 a b := by
  intro i j hai hij hjb
  rw [h i hai (by omega), h j (by omega) hjb]
  exact hs i j hai hij hjb

/-- A three-way partition around a pivot value with both outer parts sorted
is sorted as a whole. -/
theorem sorted_of_partition [Inhabited α] {lt : α → α → Bool}
    (A2 : LtNegTrans lt) {pv : α} (arr2 : List α) (a mlo mhi b : Nat)
    (h1 : a ≤ mlo) (h3 : mhi ≤ b)
    (hv1 : ∀ k, a ≤ k → k < mlo → lt pv (nth arr2 k) = false)
    (hv2 : ∀ k, mlo ≤ k → k < mhi →
      lt pv (nth arr2 k) = false ∧ lt (nth arr2 k) pv = false)
    (hv3 : ∀ k, mhi ≤ k → k < b → lt (nth arr2 k) pv = false)
    (hs1 : SortedRange lt arr2 a mlo)
    (hs2 : SortedRange lt arr2 mhi b) :
    SortedRange lt arr2 a b := by
  intro i j hai hij hjb
  have hile : lt pv (nth arr2 i) = false ∨ mhi ≤ i := by
    by_cases hi1 : i < mlo
    · exact Or.inl (hv1 i hai hi1)
    · by_cases hi2 : i < mhi
      · exact Or.inl (hv2 i (by omega) hi2).1
      · exact Or.inr (by omega)
  by_cases hj1 : j < mlo
  · exact hs1 i j hai hij hj1
  · by_cases hj2 : j < mhi
    · have hjge : lt (nth arr2 j) pv = false := (hv2 j (by omega) hj2).2
      rcases hile with h | h
      · exact A2 _ _ _ h hjge
      · omega
    · have hjge : lt (nth arr2 j) pv = false := hv3 j (by omega) hjb
      rcases hile with h | h
      · exact A2 _ _ _ h hjge
      · exact hs2 i j h hij hjb

/-- Go quickSort(data, a, b, maxDepth) sorts the range [a, b) and only
permutes inside it, for any fuel exceeding the depth bound. -/
theorem quickSortLoop_spec [Inhabited α] {lt : α → α → Bool}
    (A1 : LtAsymm lt) (A2 : LtNegTrans lt) :
    ∀ fuel maxDepth arr a b, b ≤ arr.length → maxDepth < fuel →
    SortedRange lt (quickSortLoop lt arr a b maxDepth fuel) a b ∧
    SwapsWithin a b arr (quickSortLoop lt arr a b maxDepth fuel) := by
  intro fuel
  induction fuel with
  | zero => intro maxDepth arr a b hb hf; omega
  | succ fuel ih =>
    intro maxDepth arr a b hb hf
    have hres : quickSortLoop lt arr a b maxDepth (fuel + 1) =
        (if b - a > 12 then
          if maxDepth = 0 then heapSortGo lt arr a b
          else
            if (doPivotGo lt arr a b).2.1 - a < b - (doPivotGo lt arr a b).2.2 then
              quickSortLoop lt
                (quickSortLoop lt (doPivotGo lt arr a b).1 a (doPivotGo lt arr a b).2.1
                  (maxDepth - 1) fuel)
                (doPivotGo lt arr a b).2.2 b (maxDepth - 1) fuel
            else
              quickSortLoop lt
                (quickSortLoop lt (doPivotGo lt arr a b).1 (doPivotGo lt arr a b).2.2 b
                  (maxDepth - 1) fuel)
                a (doPivotGo lt arr a b).2.1 (maxDepth - 1) fuel
         else
          if b - a > 1 then
            insertionSortGo lt (shellPassLoop lt b arr (a + 6) (b - a)) a b
          else arr) := rfl
    rw [hres]
    by_cases h12 : b - a > 12
    · rw [if_pos h12]
      by_cases hmd : maxDepth = 0
      · rw [if_pos hmd]
        exact heapSortGo_spec A1 A2 arr a b hb (by omega)
      · rw [if_neg hmd]
        obtain ⟨pv, hp1, hp2, hp3, hR1, hR2, hR3, hPsw⟩ :=
          doPivotGo_spec A1 A2 arr a b hb (by omega)
        set dp := doPivotGo lt arr a b with hdpdef
        have hlenP : dp.1.length = arr.length := hPsw.1
        have hcommon : ∀ arrX : List α,
            arrX.length = arr.length →
            (∀ k, a ≤ k → k < dp.2.1 → lt pv (nth arrX k) = false) →
            (∀ k, dp.2.1 ≤ k → k < dp.2.2 →
              lt pv (nth arrX k) = false ∧ lt (nth arrX k) pv = false) →
            (∀ k, dp.2.2 ≤ k → k < b → lt (nth arrX k) pv = false) →
            SortedRange lt arrX a dp.2.1 →
            SortedRange lt arrX dp.2.2 b →
            SortedRange lt arrX a b :=
          fun arrX _ hv1 hv2 hv3 hs1 hs2 =>
            sorted_of_partition A2 arrX a dp.2.1 dp.2.2 b hp1 hp3 hv1 hv2 hv3 hs1 hs2
        by_cases hside : dp.2.1 - a < b - dp.2.2
        · rw [if_pos hside]
          have s1 := ih (maxDepth - 1) dp.1 a dp.2.1 (by omega) (by omega)
          set arr1 := quickSortLoop lt dp.1 a dp.2.1 (maxDepth - 1) fuel with harr1
          have hlen1 : arr1.length = dp.1.length := s1.2.1
          have s2 := ih (maxDepth - 1) arr1 dp.2.2 b (by omega) (by omega)
          set arr2 := quickSortLoop lt arr1 dp.2.2 b (maxDepth - 1) fuel with harr2
          have hlen2 : arr2.length = arr1.length := s2.2.1
          have hfr2 : ∀ k, k < dp.2.2 → nth arr2 k = nth arr1 k :=
            fun k hk => s2.2.2.1 k (Or.inl hk)
          have hfr1 : ∀ k, k < a ∨ dp.2.1 ≤ k → nth arr1 k = nth dp.1 k :=
            fun k hk => s1.2.2.1 k hk
          refine ⟨?_, ?_⟩
          · refine hcommon arr2 (by omega) ?_ ?_ ?_ ?_ ?_
            · intro k hk1 hk2
              rw [hfr2 k (by omega)]
              exact swapsWithin_pointwise s1.2 (fun v => lt pv v = false)
                (fun j hj1 hj2 => hR1 j hj1 hj2) k hk1 hk2
            · intro k hk1 hk2
              rw [hfr2 k (by omega), hfr1 k (Or.inr hk1)]
              exact hR2 k hk1 hk2
            · intro k hk1 hk2
              refine swapsWithin_pointwise s2.2 (fun v => lt v pv = false) ?_ k hk1 hk2
              intro j hj1 hj2
              rw [hfr1 j (Or.inr (by omega))]
              exact hR3 j hj1 hj2
            · exact sortedRange_congr (fun k hk1 hk2 => hfr2 k (by omega)) s1.1
            · exact s2.1
          · refine swapsWithin_trans hPsw (swapsWithin_trans
              (swapsWithin_mono s1.2 (le_refl a) (by omega))
              (swapsWithin_mono s2.2 (by omega) (le_refl b)))
        · rw [if_neg hside]
          have s1 := ih (maxDepth - 1) dp.1 dp.2.2 b (by omega) (by omega)
          set arr1 := quickSortLoop lt dp.1 dp.2.2 b (maxDepth - 1) fuel with harr1
          have hlen1 : arr1.length = dp.1.length := s1.2.1
          have s2 := ih (maxDepth - 1) arr1 a dp.2.1 (by omega) (by omega)
          set arr2 := quickSortLoop lt arr1 a dp.2.1 (maxDepth - 1) fuel with harr2
          have hlen2 : arr2.length = arr1.length := s2.2.1
          have hfr2 : ∀ k, k < a ∨ dp.2.1 ≤ k → nth arr2 k = nth arr1 k :=
            fun k hk => s2.2.2.1 k hk
          have hfr1 : ∀ k, k < dp.2.2 → nth arr1 k = nth dp.1 k :=
            fun k hk => s1.2.2.1 k (Or.inl hk)
          refine ⟨?_, ?_⟩
          · refine hcommon arr2 (by omega) ?_ ?_ ?_ ?_ ?_
            · intro k hk1 hk2
              refine swapsWithin_pointwise s2.2 (fun v => lt pv v = false) ?_ k hk1 hk2
              intro j hj1 hj2
              rw [hfr1 j (by omega)]
              exact hR1 j hj1 hj2
            · intro k hk1 hk2
              rw [hfr2 k (Or.inr hk1), hfr1 k (by omega)]
              exact hR2 k hk1 hk2
            · intro k hk1 hk2
              rw [hfr2 k (Or.inr (by omega))]
              exact swapsWithin_pointwise s1.2 (fun v => lt v pv = false)
                (fun j hj1 hj2 => hR3 j hj1 hj2) k hk1 hk2
            · exact s2.1
            · exact sortedRange_congr (fun k hk1 hk2 => hfr2 k (Or.inr (by omega))) s1.1
          · refine swapsWithin_trans hPsw (swapsWithin_trans
              (swapsWithin_mono s1.2 (by omega) (le_refl b))
              (swapsWithin_mono s2.2 (le_refl a) (by omega)))
    · rw [if_neg h12]
      by_cases h1 : b - a > 1
      · rw [if_pos h1]
        have hshell := shellPassLoop_swaps lt a b (b - a) (a + 6) arr (le_refl (a + 6)) hb
        have hins := insertionSortGo_spec A1 A2 (shellPassLoop lt b arr (a + 6) (b - a))
          a b (by rw [hshell.1]; exact hb)
        exact ⟨hins.1, swapsWithin_trans hshell hins.2⟩
      · rw [if_neg h1]
        refine ⟨fun i j hai hij hjb => by omega, swapsWithin_refl _ _ _⟩

/-- Go sort.Slice sorts the whole slice under a strict-weak-order comparator
and preserves its length. -/
theorem sortSliceGo_spec [Inhabited α] {lt : α → α → Bool}
    (A1 : LtAsymm lt) (A2 : LtNegTrans lt) (l : List α) :
    SortedRange lt (sortSliceGo lt l) 0 l.length ∧
    (sortSliceGo lt l).length = l.length := by
  have h := quickSortLoop_spec A1 A2 (goMaxDepth l.length + 1) (goMaxDepth l.length)
    l 0 l.length (le_refl _) (by omega)
  exact ⟨h.1, h.2.1⟩

/-- Positional access agrees with list indexing inside the bounds. -/
theorem nth_eq_getElem [Inhabited α] :
    ∀ (l : List α) (i : Nat) (h : i < l.length), nth l i = l[i] := by
  intro l
  induction l with
  | nil => intro i h; cases h
  | cons x xs ih =>
    intro i h
    cases i with
    | zero => rfl
    | succ n => simpa using ih n (by simpa using h)

/-- A list sorted as a range over its whole length is pairwise ordered: no
later element is less than an earlier one. -/
theorem pairwise_of_sortedRange [Inhabited α] {lt : α → α → Bool} {l : List α}
    (h : SortedRange lt l 0 l.length) :
    List.Pairwise (fun x y => lt y x = false) l := by
  rw [List.pairwise_iff_getElem]
  intro i j hi hj hij
  have h2 := h i j (by omega) hij hj
  rwa [nth_eq_getElem l i hi, nth_eq_getElem l j hj] at h2

/-- getNBest returns at most N beacons, pairwise ordered ascending in better
under the quality order, provided that order is a strict weak order, as the
spec requires of Quality.Less. -/
theorem getNBest_bound_sorted {M : Type} (bk : Backend M) (N : Nat)
    (target : Target) (batch : List Beacon)
    (A1 : ∀ u v : M, bk.QualityLess target.Quality u v = true →
      bk.QualityLess target.Quality v u = false)
    (A2 : ∀ u v w : M, bk.QualityLess target.Quality v u = false →
      bk.QualityLess target.Quality w v = false →
      bk.QualityLess target.Quality w u = false) :
    (getNBest bk N target batch).length ≤ N ∧
    List.Pairwise (fun p q => bk.QualityLess target.Quality
      (bk.GetMetric target q) (bk.GetMetric target p) = false)
      (getNBest bk N target batch) := by
  have hA1 : LtAsymm (fun l r : Beacon =>
      bk.QualityLess target.Quality (bk.GetMetric target l) (bk.GetMetric target r)) :=
    fun u v h => A1 _ _ h
  have hA2 : LtNegTrans (fun l r : Beacon =>
      bk.QualityLess target.Quality (bk.GetMetric target l) (bk.GetMetric target r)) :=
    fun u v w h1 h2 => A2 _ _ _ h1 h2
  have hs := sortSliceGo_spec hA1 hA2 batch
  have hsorted : SortedRange (fun l r : Beacon =>
      bk.QualityLess target.Quality (bk.GetMetric target l) (bk.GetMetric target r))
      (sortSliceGo (fun l r : Beacon =>
        bk.QualityLess target.Quality (bk.GetMetric target l) (bk.GetMetric target r)) batch)
      0 (sortSliceGo (fun l r : Beacon =>
        bk.QualityLess target.Quality (bk.GetMetric target l) (bk.GetMetric target r)) batch).length := by
    rw [hs.2]
    exact hs.1
  have hpw := pairwise_of_sortedRange hsorted
  have hres : getNBest bk N target batch =
      (if (sortSliceGo (fun l r : Beacon =>
          bk.QualityLess target.Quality (bk.GetMetric target l) (bk.GetMetric target r)) batch).length > N
       then (sortSliceGo (fun l r : Beacon =>
          bk.QualityLess target.Quality (bk.GetMetric target l) (bk.GetMetric target r)) batch).take N
       else sortSliceGo (fun l r : Beacon =>
          bk.QualityLess target.Quality (bk.GetMetric target l) (bk.GetMetric target r)) batch) := rfl
  rw [hres]
  by_cases hlen : (sortSliceGo (fun l r : Beacon =>
      bk.QualityLess target.Quality (bk.GetMetric target l) (bk.GetMetric target r)) batch).length > N
  · rw [if_pos hlen]
    refine ⟨by simp [List.length_take], ?_⟩
    exact List.Pairwise.sublist (List.take_sublist N _) hpw
  · rw [if_neg hlen]
    exact ⟨by omega, hpw⟩

/-- Backend of the C5 example: five beacons whose quality metric is their
ingress interface id, 5, 1, 4, 2, 3 in retrieval order, with the numeric
strict order as Less so that a lower metric is better; every beacon is
eligible. -/
def bkC5 : Backend Nat :=
  { assocs := [(0, exTarget), (1, exTarget), (2, exTarget), (3, exTarget), (4, exTarget)]
    getBeaconsById := fun _ => .ok [mkB 5, mkB 1, mkB 4, mkB 2, mkB 3]
    GetMetric := fun _ b => b.InIfId
    ShouldConsider := fun _ _ => true
    QualityLess := fun _ a b => decide (a < b) }

/-- Ingress interface list covering the ingress ids of the C5 beacons. -/
def intfsC5 : List Interface :=
  [⟨5, ⟨2, 2⟩⟩, ⟨1, ⟨2, 2⟩⟩, ⟨4, ⟨2, 2⟩⟩, ⟨2, ⟨2, 2⟩⟩, ⟨3, ⟨2, 2⟩⟩]

set_option maxHeartbeats 2000000 in
/-- C5: GetNBestsForGroup and the final batch truncation (getNBest) return at
most N beacons, pairwise ordered ascending in better under target.Quality.Less
whenever that order is a strict weak order (the total preorder the spec
requires of quality orders); and on the quality policy where a lower metric is
better, candidates with metrics 5, 1, 4, 2, 3 and N = 3 yield exactly the
three beacons of metrics 1, 2, 3 in that order, through both functions. -/
theorem C5_nbest_bound_and_order {M : Type} (bk : Backend M) (N : Nat)
    (src : IA) (target : Target) (ii : List Interface) (x : IA)
    (batch : List Beacon)
    (A1 : ∀ u v : M, bk.QualityLess target.Quality u v = true →
      bk.QualityLess target.Quality v u = false)
    (A2 : ∀ u v w : M, bk.QualityLess target.Quality v u = false →
      bk.QualityLess target.Quality w v = false →
      bk.QualityLess target.Quality w u = false) :
    (getNBest bk N target batch).length ≤ N ∧
    List.Pairwise (fun p q => bk.QualityLess target.Quality
      (bk.GetMetric target q) (bk.GetMetric target p) = false)
      (getNBest bk N target batch) ∧
    (∀ res, GetNBestsForGroup bk N src target ii x = .ok res →
      res.length ≤ N ∧
      List.Pairwise (fun p q => bk.QualityLess target.Quality
        (bk.GetMetric target q) (bk.GetMetric target p) = false) res) ∧
    getNBest bkC5 3 exTarget [mkB 5, mkB 1, mkB 4, mkB 2, mkB 3] =
      [mkB 1, mkB 2, mkB 3] ∧
    GetNBestsForGroup bkC5 3 ⟨1, 1⟩ exTarget intfsC5 ⟨9, 9⟩ =
      .ok [mkB 1, mkB 2, mkB 3] := by
  have hmain := getNBest_bound_sorted bk N target batch A1 A2
  refine ⟨hmain.1, hmain.2, ?_, by decide, by decide⟩
  intro res hres
  rw [GetNBestsForGroup_eq] at hres
  by_cases hids : (GetBeaconIdsForTarget bk.assocs target).length = 0
  · rw [if_pos hids] at hres
    have h2 : ([] : List Beacon) = res := Except.ok.inj hres
    rw [← h2]
    exact ⟨Nat.zero_le N, List.Pairwise.nil⟩
  · rw [if_neg hids] at hres
    replace hres : Except.ok (getNBest bk N target (applyFilter (applyFilter (applyFilter
        (match bk.getBeaconsById (GetBeaconIdsForTarget bk.assocs target) with
         | .ok bcns => bcns
         | .error _ => [])
        (fun bcn => ii.any (fun ingressIntf => decide (ingressIntf.ID = bcn.InIfId))))
        (fun bcn => match FilterLoop bcn x true with | .error _ => false | .ok _ => true))
        (fun bcn => bk.ShouldConsider target bcn))) = Except.ok res := hres
    have h2 := Except.ok.inj hres
    rw [← h2]
    exact getNBest_bound_sorted bk N target _ A1 A2

/-- The C5 theorem applied at the concrete lower-is-better backend: its
quality order on Nat is a strict weak order, and the concrete five-beacon
example projects out. -/
theorem C5_nbest_bound_and_order_witness :
    getNBest bkC5 3 exTarget [mkB 5, mkB 1, mkB 4, mkB 2, mkB 3] =
      [mkB 1, mkB 2, mkB 3] :=
  (C5_nbest_bound_and_order bkC5 3 ⟨1, 1⟩ exTarget intfsC5 ⟨9, 9⟩
    [mkB 5, mkB 1, mkB 4, mkB 2, mkB 3]
    (fun u v h => by
      have h1 : decide (u < v) = true := h
      have h2 : decide (v < u) = false := by
        simp only [decide_eq_true_eq] at h1
        simp only [decide_eq_false_iff_not]
        omega
      exact h2)
    (fun u v w h1 h2 => by
      have g1 : decide (v < u) = false := h1
      have g2 : decide (w < v) = false := h2
      have g3 : decide (w < u) = false := by
        simp only [decide_eq_false_iff_not] at g1 g2 ⊢
        omega
      exact g3)).2.2.2.1
